import Mathlib

/-! # gitbacked-controller: the revisioned store, its watch engine and its writes

A shallow embedding of `pkg/store` (store.go, operations.go, watch.go), of `pkg/git`
(git.go) and of the parts of `pkg/client` that read from the store and update a status.

Conventions of the embedding.

* A Go `map[ObjectKey]Object` is an association list with the entries in the order
  in which `range` visits them. Go leaves that order unspecified, so results are
  stated for every list; `Reachable` is closed under re-listing a stored map.
* A `*unstructured.Unstructured` is `Option Unstructured` (`none` is the nil pointer).
  The document itself is the record of the fields the repository reads or writes
  through the apimachinery accessors; the remaining content is carried opaquely.
* A panic (index out of range, nil pointer dereference) is the result `none`.
* `uuid.NewUUID()` is an oracle `Nat → UID`: the n-th call made by one commit
  returns `uuids n`.
* Sending on the watch channel appends to the list of delivered events.
* Paths are handled as `path/filepath` does on Unix, on the characters of the string.
* The working tree is the list of its regular files in the order of the walk, and a
  `Repo` carries it together with the trace of the actions run. What lies outside the
  process (exit status of git, file system errors, YAML encoder and decoder, UUIDs,
  random names) is read from an `Env`.
-/

namespace GitBacked

set_option linter.dupNamespace false

/-! ## Data model (store.go) -/

/-- The type `ObjectKey` of store.go. -/
structure ObjectKey where
  Kind : String
  Group : String
  Name : String
  Namespace : String
deriving DecidableEq, Repr

/-- The apimachinery type `schema.GroupVersionKind`. -/
structure GroupVersionKind where
  Group : String
  Version : String
  Kind : String
deriving DecidableEq, Repr

/-- The apimachinery type `types.UID`, a string. -/
abbrev UID := String

/-- The apimachinery type `labels.Set`, a string-to-string map. -/
abbrev Labels := List (String × String)

/-- Raw file content, `[]byte`. -/
abbrev Bytes := List UInt8

/-- The document behind `unstructured.Unstructured`, as seen through the accessors the
repository calls: `apiVersion` (already split into group and version, as
`GroupVersionKind()` reads it), `kind`, the `metadata` fields, `status`, and the rest of
the document as an uninterpreted payload. -/
structure Unstructured where
  group : String := ""
  version : String := ""
  kind : String := ""
  ns : String := ""
  name : String := ""
  generateName : String := ""
  labels : Labels := []
  resourceVersion : String := ""
  uid : UID := ""
  generation : Int := 0
  status : String := ""
  rest : String := ""
deriving DecidableEq, Repr

/-- The accessor `GroupVersionKind()`. -/
def Unstructured.GroupVersionKind (u : Unstructured) : GitBacked.GroupVersionKind :=
  { Group := u.group, Version := u.version, Kind := u.kind }

/-- The accessor `SetGroupVersionKind`: writes `apiVersion` and `kind`. -/
def Unstructured.SetGroupVersionKind (u : Unstructured) (gvk : GitBacked.GroupVersionKind) :
    Unstructured :=
  { u with group := gvk.Group, version := gvk.Version, kind := gvk.Kind }

/-- The accessor `GetName()`. -/
def Unstructured.GetName (u : Unstructured) : String := u.name

/-- The accessor `GetNamespace()`. -/
def Unstructured.GetNamespace (u : Unstructured) : String := u.ns

/-- The accessor `GetLabels()`. -/
def Unstructured.GetLabels (u : Unstructured) : Labels := u.labels

/-- The accessor `GetResourceVersion()`. -/
def Unstructured.GetResourceVersion (u : Unstructured) : String := u.resourceVersion

/-- The accessor `SetResourceVersion`. -/
def Unstructured.SetResourceVersion (u : Unstructured) (rv : String) : Unstructured :=
  { u with resourceVersion := rv }

/-- The accessor `GetUID()`. -/
def Unstructured.GetUID (u : Unstructured) : UID := u.uid

/-- The accessor `SetUID`. -/
def Unstructured.SetUID (u : Unstructured) (uid : UID) : Unstructured :=
  { u with uid := uid }

/-- The four identifying fields of a document, read the way `add` reads them. -/
def Unstructured.key (u : Unstructured) : ObjectKey :=
  { Kind := u.GroupVersionKind.Kind, Group := u.GroupVersionKind.Group,
    Name := u.GetName, Namespace := u.GetNamespace }

/-- The type `Object` of store.go; `ObjectKey` is embedded, so `obj.Kind`, `obj.Group`,
`obj.Name` and `obj.Namespace` are its promoted fields. -/
structure Object extends ObjectKey where
  Version : String
  ResourceVersion : String
  UID : UID
  Content : Bytes
  Object : Option Unstructured
  Path : String
deriving DecidableEq, Repr

/-- The zero value `Object{}`. -/
def Object.zero : GitBacked.Object :=
  { Kind := "", Group := "", Name := "", Namespace := "", Version := "",
    ResourceVersion := "", UID := "", Content := [], Object := none, Path := "" }

/-- A map keyed by `ObjectKey`, listed in iteration order. -/
abbrev KeyedMap (α : Type) := List (ObjectKey × α)

/-- A Go `map[ObjectKey]Object`, listed in iteration order. -/
abbrev GoMap := KeyedMap Object

/-- The map read `m[key]` in its two-result form: `some v` when the key is present. -/
def KeyedMap.lookup {α : Type} : KeyedMap α → ObjectKey → Option α
  | [], _ => none
  | (k, v) :: rest, key => if k = key then some v else KeyedMap.lookup rest key

/-- The map write `m[key] = v`: replaces the entry of a present key, adds one otherwise. -/
def KeyedMap.insert {α : Type} : KeyedMap α → ObjectKey → α → KeyedMap α
  | [], key, v => [(key, v)]
  | (k, w) :: rest, key, v =>
    if k = key then (key, v) :: rest else (k, w) :: KeyedMap.insert rest key v

/-- The map removal `delete(m, key)`. -/
def KeyedMap.erase {α : Type} (m : KeyedMap α) (key : ObjectKey) : KeyedMap α :=
  m.filter fun entry => entry.1 ≠ key

/-- The keys of a map. -/
def KeyedMap.keys {α : Type} (m : KeyedMap α) : List ObjectKey := m.map Prod.fst

/-- The type `Revision` of store.go. -/
structure Revision where
  data : GoMap := []
  add : List Object := []
  deleted : List Object := []
  modified : List Object := []
deriving DecidableEq, Repr

/-- The fields of `Store` that the commit pipeline, the readers and the watch engine use
(the locks, the context and the git handle are left out). -/
structure Store where
  url : String
  branch : String
  subDir : String
  revisions : List Revision
  currentCommit : String
  stopped : Bool
deriving DecidableEq, Repr

/-- The constructor `New`: the log starts with two empty revisions. -/
def New (url branch subDir : String) : Store :=
  { url := url, branch := branch, subDir := subDir,
    revisions := [{}, {}], currentCommit := "", stopped := false }

/-! ## Commit pipeline (store.go) -/

/-- What the first loop of `commit` has built so far: the new revision's `data`, `add`
and `modified`, and the number of calls made to `uuid.NewUUID()`. -/
structure CommitLoop where
  data : GoMap := []
  add : List Object := []
  modified : List Object := []
  uuidCalls : Nat := 0
deriving DecidableEq, Repr

/-- One iteration of `for key, obj := range files` in `commit`. -/
def commitStep (rev : String) (currentRev : Revision) (uuids : Nat → UID)
    (st : CommitLoop) (entry : ObjectKey × Object) : CommitLoop :=
  let key := entry.1
  let obj := entry.2
  match currentRev.data.lookup key with
  | some existingObject =>
    if existingObject.Content = obj.Content then
      { st with data := st.data.insert key existingObject }
    else
      let obj := { obj with ResourceVersion := rev, UID := existingObject.UID }
      { st with modified := st.modified ++ [obj], data := st.data.insert key obj }
  | none =>
    let obj := { obj with UID := uuids st.uuidCalls, ResourceVersion := rev }
    { st with add := st.add ++ [obj], data := st.data.insert key obj,
              uuidCalls := st.uuidCalls + 1 }

/-- The body of the loop "make sure dynamic fields are set": group, version, kind,
resourceVersion and uid of the object are written into its document. -/
def setDynamicFields (obj : Object) : Object :=
  { obj with Object := obj.Object.map fun u =>
      ((u.SetGroupVersionKind
          { Group := obj.Group, Version := obj.Version, Kind := obj.Kind }).SetResourceVersion
        obj.ResourceVersion).SetUID obj.UID }

/-- The method `Store.commit`.

`none` is a panic: the log is empty (`s.revisions[len(s.revisions)-1]`), or an object of
the new revision has a nil document (the third loop dereferences it).

The third loop writes through the document pointers of `newRevision.data`. The entries of
`newRevision.add` and `newRevision.modified` hold the same pointers, so they see the
writes as well. A carried-forward object shares its pointer with the earlier revisions;
its document already holds the values written (it went through this loop when it entered
the log), so the earlier revisions are unchanged. -/
def Store.commit (s : Store) (commit : String) (files : GoMap) (uuids : Nat → UID) :
    Option Store :=
  let rev := toString s.revisions.length
  match s.revisions.getLast? with
  | none => none
  | some currentRev =>
    let st := files.foldl (commitStep rev currentRev uuids) {}
    let deleted :=
      (currentRev.data.filter fun entry => (files.lookup entry.1).isNone).map Prod.snd
    if st.data.all (fun entry => entry.2.Object.isSome) then
      let newRevision : Revision :=
        { data := st.data.map fun entry => (entry.1, setDynamicFields entry.2),
          add := st.add.map setDynamicFields,
          deleted := deleted,
          modified := st.modified.map setDynamicFields }
      if newRevision.add.length = 0 ∧ newRevision.deleted.length = 0 ∧
          newRevision.modified.length = 0 then
        some { s with currentCommit := commit }
      else
        some { s with revisions := s.revisions ++ [newRevision], currentCommit := commit }
    else
      none

/-- One iteration of `for _, file := range files` in `add`. `readFile` is
`ioutil.ReadFile` and `unmarshal` is `yaml.Unmarshal` into a document; both return
`none` on error. -/
def addStep (readFile : String → Option Bytes) (unmarshal : Bytes → Option Unstructured)
    (newFiles : GoMap) (file : String) : GoMap :=
  match readFile file with
  | none => newFiles
  | some bytes =>
    match unmarshal bytes with
    | none => newFiles
    | some unstr =>
      let gvk := unstr.GroupVersionKind
      let obj : Object :=
        { Kind := gvk.Kind, Group := gvk.Group, Name := unstr.GetName,
          Namespace := unstr.GetNamespace, Version := gvk.Version,
          ResourceVersion := "", UID := "", Content := bytes, Object := some unstr,
          Path := file }
      if obj.Kind = "" ∨ obj.Name = "" ∨ obj.Version = "" then newFiles
      else newFiles.insert obj.toObjectKey obj

/-- The object `add` builds for a file with the given content and parsed document. -/
def fileObject (file : String) (bytes : Bytes) (unstr : Unstructured) : Object :=
  { Kind := unstr.GroupVersionKind.Kind, Group := unstr.GroupVersionKind.Group,
    Name := unstr.GetName, Namespace := unstr.GetNamespace,
    Version := unstr.GroupVersionKind.Version, ResourceVersion := "", UID := "",
    Content := bytes, Object := some unstr, Path := file }

/-- The method `Store.add`: parses the scanned files and commits them. -/
def Store.add (s : Store) (commit : String) (files : List String)
    (readFile : String → Option Bytes) (unmarshal : Bytes → Option Unstructured)
    (uuids : Nat → UID) : Option Store :=
  s.commit commit (files.foldl (addStep readFile unmarshal) []) uuids

/-! ## Errors -/

/-- The errors the store and the client return: the apimachinery status errors it builds
with `errors.NewNotFound`, `NewAlreadyExists`, `NewConflict` and `NewBadRequest`, and
any other error (from `strconv`, `encoding/json`, git), kept as its message. -/
inductive Error where
  | NotFound (group resource name : String)
  | AlreadyExists (group resource name : String)
  | Conflict (group resource name message : String)
  | BadRequest (reason : String)
  | Other (message : String)
deriving DecidableEq, Repr

/-! ## Watch engine (watch.go) -/

/-- The function `strconv.Atoi` on a 64-bit platform: an optional sign followed by one or
more decimal digits, within the range of `int`; `none` is the error result. -/
def Atoi (s : String) : Option Int :=
  let digits : List Char :=
    match s.data with
    | '+' :: rest => rest
    | '-' :: rest => rest
    | cs => cs
  if digits = [] ∨ ¬ digits.all Char.isDigit then none
  else
    let n : Nat := digits.foldl (fun acc c => 10 * acc + (c.toNat - '0'.toNat)) 0
    let v : Int := if s.data.head? = some '-' then -(n : Int) else (n : Int)
    if v < -(2 : Int) ^ 63 ∨ (2 : Int) ^ 63 - 1 < v then none else some v

/-- The method `Store.getRevision`, on the `ResourceVersion` of the list options. -/
def Store.getRevision (s : Store) (resourceVersion : String) : Except Error Int :=
  if resourceVersion = "" then .ok 0
  else
    match Atoi resourceVersion with
    | none => .error (Error.Other ("strconv.Atoi: parsing " ++ resourceVersion))
    | some ret =>
      if ret ≥ (s.revisions.length : Int) then
        .error (Error.BadRequest ("invalid resourceVersion " ++ resourceVersion))
      else
        -- start just after requested version
        .ok (ret + 1)

/-- The interface `labels.Selector`, through its method `Matches`. -/
structure Selector where
  Matches : Labels → Bool

/-- The type `watch.EventType`. -/
inductive EventType where
  | Added
  | Modified
  | Deleted
  | Error
deriving DecidableEq, Repr

/-- What a `watch.Event` carries: the converted object `ret`, or the status of a
conversion error. -/
inductive EventObject (α : Type) where
  | converted (ret : α)
  | errStatus (message : String)
deriving DecidableEq, Repr

/-- The type `watch.Event`. -/
structure Event (α : Type) where
  type : EventType
  object : EventObject α
deriving DecidableEq, Repr

/-- The function `sendAll`; the result lists the events sent on the channel, in order.
`convert` is `Convert(emptyObject.DeepCopyObject(), obj.Object)`, the JSON round trip into
the watcher's prototype. `none` is the panic of `obj.Object.GetLabels()` on a nil
document. -/
def sendAll {α : Type} (gvk : GroupVersionKind) (event : EventType)
    (convert : Unstructured → Except String α) (selector : Selector) :
    List Object → Option (List (Event α))
  | [] => some []
  | obj :: objs =>
    if gvk.Group ≠ obj.Group ∨ gvk.Kind ≠ obj.Kind then
      sendAll gvk event convert selector objs
    else
      match obj.Object with
      | none => none
      | some u =>
        if ¬ selector.Matches u.GetLabels then
          sendAll gvk event convert selector objs
        else
          match convert u with
          | .error err =>
            (sendAll gvk event convert selector objs).map fun sent =>
              { type := EventType.Error, object := EventObject.errStatus err } :: sent
          | .ok ret =>
            (sendAll gvk event convert selector objs).map fun sent =>
              { type := event, object := EventObject.converted ret } :: sent

/-- The loop of `readEvents` from cursor `rev`; `fuel` bounds the number of iterations
(`len(s.revisions) - rev` of them are made). -/
def readEventsLoop {α : Type} (revisions : List Revision) (gvk : GroupVersionKind)
    (convert : Unstructured → Except String α) (selector : Selector) :
    Nat → Nat → Option (List (Event α) × Nat)
  | 0, rev => some ([], rev)
  | fuel + 1, rev =>
    match revisions.get? rev with
    | none => some ([], rev)
    | some revision =>
      match sendAll gvk EventType.Added convert selector revision.add,
            sendAll gvk EventType.Modified convert selector revision.modified,
            sendAll gvk EventType.Deleted convert selector revision.deleted,
            readEventsLoop revisions gvk convert selector fuel (rev + 1) with
      | some added, some modified, some deleted, some (later, cursor) =>
        some (added ++ modified ++ deleted ++ later, cursor)
      | _, _, _, _ => none

/-- The method `Store.readEvents`: the events sent and the cursor returned. `none` is a
panic: a negative cursor indexes the log out of range, and `sendAll` may panic. -/
def Store.readEvents {α : Type} (s : Store) (gvk : GroupVersionKind)
    (convert : Unstructured → Except String α) (rev : Int) (selector : Selector) :
    Option (List (Event α) × Int) :=
  if rev < 0 then none
  else
    (readEventsLoop s.revisions gvk convert selector
        (s.revisions.length - rev.toNat) rev.toNat).map
      fun result => (result.1, (result.2 : Int))

/-! ## Reads (operations.go, client.go) -/

/-- The method `Store.get`: the first entry of the tail revision whose key matches, or
the zero `Object`. `none` is the panic of indexing an empty log. -/
def Store.get (s : Store) (gvk : GroupVersionKind) (namespace_ name : String) :
    Option Object :=
  match s.revisions.getLast? with
  | none => none
  | some rev =>
    match rev.data.find? fun entry =>
        entry.1.Kind = gvk.Kind ∧ entry.1.Group = gvk.Group ∧
        entry.1.Namespace = namespace_ ∧ entry.1.Name = name with
    | some entry => some entry.2
    | none => some Object.zero

/-- A value of the interface type `client.Object` as `Store.Get` can return it: the nil
interface, or an interface holding a `*unstructured.Unstructured` (which may itself be
the nil pointer). -/
inductive ClientObject where
  | nilInterface
  | unstructured (pointer : Option Unstructured)
deriving DecidableEq, Repr

/-- The method `Store.Get`: the `Object` field of what `get` returns, converted to the
interface type `client.Object` by the `return`. -/
def Store.Get (s : Store) (gvk : GroupVersionKind) (namespace_ name : String) :
    Option ClientObject :=
  (s.get gvk namespace_ name).map fun found => ClientObject.unstructured found.Object

/-- The function `trimList` of client.go. -/
def trimList (gvk : GroupVersionKind) : GroupVersionKind :=
  { gvk with Kind := gvk.Kind.stripSuffix "List" }

/-- The function `GVK` of client.go. `objectKind` is
`obj.GetObjectKind().GroupVersionKind()` and `schemeKind` the result of
`apiutil.GVKForObject(obj, scheme)`. -/
def GVK (objectKind : GroupVersionKind) (schemeKind : Except Error GroupVersionKind) :
    Except Error GroupVersionKind :=
  if objectKind.Kind ≠ "" then .ok (trimList objectKind)
  else
    match schemeKind with
    | .ok gvk => .ok (trimList gvk)
    | .error err => .error err

/-- The method `Client.Get`. `convert obj ret` is `Convert(obj, ret)`: the JSON encoding
of `ret` decoded into the caller's `obj`; it returns the filled object or the message of
the JSON error. The result is the error returned, or the caller's object after the call.
`none` is a panic of `Store.Get`. -/
def Client.Get {α : Type} (s : Store) (objectKind : GroupVersionKind)
    (schemeKind : Except Error GroupVersionKind) (namespace_ name : String) (obj : α)
    (convert : α → Option Unstructured → Except String α) : Option (Except Error α) :=
  match GVK objectKind schemeKind with
  | .error err => some (.error err)
  | .ok gvk =>
    match s.Get gvk namespace_ name with
    | none => none
    | some ret =>
      match ret with
      | ClientObject.nilInterface =>
        -- the branch of `if ret == nil`
        some (.error (Error.NotFound gvk.Group gvk.Kind name))
      | ClientObject.unstructured pointer =>
        match convert obj pointer with
        | .ok filled => some (.ok filled)
        | .error message => some (.error (Error.Other message))

/-! ## Reachable stores and the replay of a watch stream -/

/-- What `add` guarantees of the map it hands to `commit`: it is a map (no key twice),
each object is filed under its own key, and each object holds the parsed document, from
which its key was read. -/
def ValidFiles (files : GoMap) : Prop :=
  files.keys.Nodup ∧
    ∀ entry ∈ files, entry.2.toObjectKey = entry.1 ∧
      ∃ u, entry.2.Object = some u ∧ u.key = entry.1

/-- The same revision with the entries of its `data` map listed in another order. -/
def Revision.Relisted (r r' : Revision) : Prop :=
  r'.data.Perm r.data ∧ r'.add = r.add ∧ r'.deleted = r.deleted ∧
    r'.modified = r.modified

/-- The stores reachable from `New`: by `commit` on a map built by `add`, and by `Close`.
A Go map has no order of its own, so a store whose maps list the same entries in another
order is the same store (`relist`). -/
inductive Reachable : Store → Prop
  | new (url branch subDir : String) : Reachable (New url branch subDir)
  | commit {s s' : Store} (commit : String) (files : GoMap) (uuids : Nat → UID) :
      Reachable s → ValidFiles files → s.commit commit files uuids = some s' →
      Reachable s'
  | close {s : Store} : Reachable s → Reachable { s with stopped := true }
  | relist {s : Store} (revisions : List Revision) :
      Reachable s → List.Forall₂ Revision.Relisted s.revisions revisions →
      Reachable { s with revisions := revisions }

/-- The filter of `sendAll`: group and kind equal those of the watch, and the labels of
the document match the selector. -/
def selected (gvk : GroupVersionKind) (selector : Selector) (obj : Object) : Bool :=
  decide (obj.Group = gvk.Group) && decide (obj.Kind = gvk.Kind) &&
    match obj.Object with
    | some u => selector.Matches u.GetLabels
    | none => false

/-- The event sent for one object that passes the filter: the event of the given type
carrying the converted document, or an `Error` event when the conversion fails. -/
def eventFor {α : Type} (convert : Unstructured → Except String α) (event : EventType)
    (u : Unstructured) : Event α :=
  match convert u with
  | .ok ret => { type := event, object := EventObject.converted ret }
  | .error err => { type := EventType.Error, object := EventObject.errStatus err }

/-- The events of one list of objects: one event per object that passes the filter, in
the order of the list. -/
def eventsOf {α : Type} (gvk : GroupVersionKind) (selector : Selector)
    (convert : Unstructured → Except String α) (event : EventType) (objs : List Object) :
    List (Event α) :=
  (objs.filter (selected gvk selector)).filterMap fun obj =>
    obj.Object.map (eventFor convert event)

/-- The events of one revision: its additions, then its modifications, then its
deletions. -/
def revisionEvents {α : Type} (gvk : GroupVersionKind) (selector : Selector)
    (convert : Unstructured → Except String α) (revision : Revision) : List (Event α) :=
  eventsOf gvk selector convert EventType.Added revision.add ++
    eventsOf gvk selector convert EventType.Modified revision.modified ++
    eventsOf gvk selector convert EventType.Deleted revision.deleted

/-- A consumer applying one event to its keyed map: `Added` inserts, `Modified`
replaces, `Deleted` removes by key; an `Error` event changes nothing. -/
def applyEvent {α : Type} (keyOf : α → ObjectKey) (m : KeyedMap α) (e : Event α) :
    KeyedMap α :=
  match e.object, e.type with
  | EventObject.converted a, EventType.Added => m.insert (keyOf a) a
  | EventObject.converted a, EventType.Modified => m.insert (keyOf a) a
  | EventObject.converted a, EventType.Deleted => m.erase (keyOf a)
  | _, _ => m

/-- The keyed map a consumer holds after applying the events, in order, to the empty
map. -/
def replay {α : Type} (keyOf : α → ObjectKey) (events : List (Event α)) : KeyedMap α :=
  events.foldl (applyEvent keyOf) []

/-- The watch replay property for one store, watch kind, selector and prototype: the
events a watcher started at resourceVersion "0" receives rebuild exactly the objects of
the tail revision that pass the filter. `decode` is the conversion into the prototype. -/
def WatchReplay {α : Type} (s : Store) (gvk : GroupVersionKind) (selector : Selector)
    (decode : Unstructured → α) (keyOf : α → ObjectKey) : Prop :=
  ∃ start events cursor tail,
    s.getRevision "0" = .ok start ∧
    s.readEvents gvk (fun u => .ok (decode u)) start selector = some (events, cursor) ∧
    s.revisions.getLast? = some tail ∧
    (replay keyOf events).keys.Nodup ∧
    ∀ k a, (k, a) ∈ replay keyOf events ↔
      ∃ obj u, (k, obj) ∈ tail.data ∧ obj.Group = gvk.Group ∧ obj.Kind = gvk.Kind ∧
        obj.Object = some u ∧ selector.Matches u.GetLabels = true ∧ a = decode u

/-- No second `Added` for a key without a `Deleted` for that key in between. -/
def AddedAtMostOnce {α : Type} (keyOf : α → ObjectKey) (events : List (Event α)) : Prop :=
  ∀ before between after a b,
    events =
      before ++ [{ type := EventType.Added, object := EventObject.converted a }] ++
        between ++ [{ type := EventType.Added, object := EventObject.converted b }] ++
        after →
    keyOf a = keyOf b →
    ∃ c, ({ type := EventType.Deleted, object := EventObject.converted c } : Event α) ∈
        between ∧ keyOf c = keyOf a

/-- No modification recorded in the log changes the verdict of the selector: each
modified object matches exactly when the version it replaced did. -/
def SelectorStable (s : Store) (selector : Selector) : Prop :=
  ∀ i r r', s.revisions.get? i = some r → s.revisions.get? (i + 1) = some r' →
    ∀ obj ∈ r'.modified, ∀ old u u0, (obj.toObjectKey, old) ∈ r.data →
      obj.Object = some u → old.Object = some u0 →
      selector.Matches u.GetLabels = selector.Matches u0.GetLabels

/-! ## A sample history -/

/-- The key of the sample widget of the given name. -/
def sampleKey (name : String) : ObjectKey :=
  { Kind := "Widget", Group := "example.com", Name := name, Namespace := "default" }

/-- The document `add` parses for the sample widget. -/
def sampleDoc (name : String) (labels : Labels) : Unstructured :=
  { group := "example.com", version := "v1", kind := "Widget", ns := "default",
    name := name, labels := labels }

/-- The object `add` builds for the sample widget from a file of the given content. -/
def sampleObject (name : String) (content : Bytes) (labels : Labels) : Object :=
  { Kind := "Widget", Group := "example.com", Name := name, Namespace := "default",
    Version := "v1", ResourceVersion := "", UID := "", Content := content,
    Object := some (sampleDoc name labels), Path := "/repo/" ++ name ++ ".yaml" }

/-- A scan that finds widget `a` labelled `tier=web`. -/
def scanWeb : GoMap := [(sampleKey "a", sampleObject "a" [1] [("tier", "web")])]

/-- A scan that finds widget `a` edited: other bytes, labelled `tier=db`. -/
def scanDb : GoMap := [(sampleKey "a", sampleObject "a" [2] [("tier", "db")])]

/-- A scan that finds no file. -/
def scanNone : GoMap := []

/-- The UUIDs handed out during the first commit of the sample history. -/
def uuidsOne : Nat → UID := fun n => "uid-1-" ++ toString n

/-- The UUIDs handed out during a later commit of the sample history. -/
def uuidsTwo : Nat → UID := fun n => "uid-2-" ++ toString n

/-- The document of widget `a` in revision 2 of the sample history. -/
def docWeb : Unstructured :=
  { group := "example.com", version := "v1", kind := "Widget", ns := "default",
    name := "a", labels := [("tier", "web")], resourceVersion := "2",
    uid := "uid-1-0" }

/-- Widget `a` as revision 2 of the sample history stores it. -/
def widgetWeb : Object :=
  { Kind := "Widget", Group := "example.com", Name := "a", Namespace := "default",
    Version := "v1", ResourceVersion := "2", UID := "uid-1-0", Content := [1],
    Object := some docWeb,
    Path := "/repo/a.yaml" }

/-- The document of widget `a` in revision 3 of the sample history. -/
def docDb : Unstructured :=
  { group := "example.com", version := "v1", kind := "Widget", ns := "default",
    name := "a", labels := [("tier", "db")], resourceVersion := "3",
    uid := "uid-1-0" }

/-- Widget `a` as revision 3 of the sample history stores it. -/
def widgetDb : Object :=
  { Kind := "Widget", Group := "example.com", Name := "a", Namespace := "default",
    Version := "v1", ResourceVersion := "3", UID := "uid-1-0", Content := [2],
    Object := some docDb,
    Path := "/repo/a.yaml" }

/-- The document of widget `a` in revision 5 of the sample history. -/
def docAgain : Unstructured :=
  { group := "example.com", version := "v1", kind := "Widget", ns := "default",
    name := "a", labels := [("tier", "web")], resourceVersion := "5",
    uid := "uid-2-0" }

/-- Widget `a` as revision 5 of the sample history stores it, after its re-creation. -/
def widgetAgain : Object :=
  { Kind := "Widget", Group := "example.com", Name := "a", Namespace := "default",
    Version := "v1", ResourceVersion := "5", UID := "uid-2-0", Content := [1],
    Object := some docAgain,
    Path := "/repo/a.yaml" }

/-- Revision 2 of the sample history: widget `a` added. -/
def revisionTwo : Revision :=
  { data := [(sampleKey "a", widgetWeb)], add := [widgetWeb] }

/-- Revision 3 of the sample history: widget `a` modified. -/
def revisionThree : Revision :=
  { data := [(sampleKey "a", widgetDb)], modified := [widgetDb] }

/-- Revision 4 of the sample history: widget `a` deleted. -/
def revisionFour : Revision :=
  { data := [], deleted := [widgetDb] }

/-- Revision 5 of the sample history: widget `a` added again. -/
def revisionFive : Revision :=
  { data := [(sampleKey "a", widgetAgain)], add := [widgetAgain] }

/-- The store with the given log and current commit. -/
def sampleStore (revisions : List Revision) (commit : String) : Store :=
  { url := "url", branch := "main", subDir := "cfg", revisions := revisions,
    currentCommit := commit, stopped := false }

/-- The sample history, step 0: the store that `New` returns. -/
def storeZero : Store := New "url" "main" "cfg"

/-- The sample history, step 1: widget `a` was found, labelled `tier=web`. -/
def storeOne : Store := sampleStore [{}, {}, revisionTwo] "c1"

/-- The sample history, step 2: widget `a` was edited and is now labelled `tier=db`. -/
def storeTwo : Store := sampleStore [{}, {}, revisionTwo, revisionThree] "c2"

/-- The sample history, step 3: the file of widget `a` was removed. -/
def storeThree : Store :=
  sampleStore [{}, {}, revisionTwo, revisionThree, revisionFour] "c3"

/-- The sample history, step 4: the first file of widget `a` is back. -/
def storeFour : Store :=
  sampleStore [{}, {}, revisionTwo, revisionThree, revisionFour, revisionFive] "c4"

/-- The selector `tier=web`. -/
def selectorWeb : Selector :=
  { Matches := fun labels => labels.lookup "tier" == some "web" }

/-- The selector that `labels.Parse("")` returns: it matches every label set. -/
def selectorEverything : Selector := { Matches := fun _ => true }

/-- The kind watched in the sample history. -/
def widgetKind : GroupVersionKind :=
  { Group := "example.com", Version := "v1", Kind := "Widget" }

/-! ## Invariants of the log -/

/-- An object filed under its own key whose document holds the object's dynamic fields:
`setDynamicFields` has nothing to change. -/
def Stamped (k : ObjectKey) (o : Object) : Prop :=
  o.toObjectKey = k ∧
    ∃ u, o.Object = some u ∧ u.key = k ∧ u.GroupVersionKind.Version = o.Version ∧
      u.GetResourceVersion = o.ResourceVersion ∧ u.GetUID = o.UID

/-- A revision whose `data` is a map of stamped objects. -/
def Revision.WF (r : Revision) : Prop :=
  r.data.keys.Nodup ∧ ∀ entry ∈ r.data, Stamped entry.1 entry.2

/-- The diff lists of `r'` describe the step from `r.data` to `r'.data`. -/
structure Linked (r r' : Revision) : Prop where
  add_nodup : (r'.add.map Object.toObjectKey).Nodup
  modified_nodup : (r'.modified.map Object.toObjectKey).Nodup
  deleted_nodup : (r'.deleted.map Object.toObjectKey).Nodup
  add_spec : ∀ o ∈ r'.add, o.toObjectKey ∉ r.data.keys ∧ (o.toObjectKey, o) ∈ r'.data
  modified_spec : ∀ o ∈ r'.modified, (o.toObjectKey, o) ∈ r'.data ∧
    ∃ old, (o.toObjectKey, old) ∈ r.data ∧ old.Content ≠ o.Content ∧ o.UID = old.UID
  deleted_spec : ∀ o, o ∈ r'.deleted ↔
    ((o.toObjectKey, o) ∈ r.data ∧ o.toObjectKey ∉ r'.data.keys)
  data_spec : ∀ entry ∈ r'.data,
    entry.2 ∈ r'.add ∨ entry.2 ∈ r'.modified ∨ entry ∈ r.data

/-- The invariant of a reachable store. -/
structure Inv (s : Store) : Prop where
  sentinels : ∃ rest, s.revisions = {} :: {} :: rest
  wf : ∀ r ∈ s.revisions, r.WF
  linked : List.Chain' Linked s.revisions

/-- The state of the first loop of `commit` after the entries `done` of `files`. -/
structure LoopInv (rev : String) (currentRev : Revision) (uuids : Nat → UID)
    (done : GoMap) (st : CommitLoop) : Prop where
  keys_eq : st.data.keys = done.keys
  add_sub : (st.add.map Object.toObjectKey).Sublist (done.map fun e => e.2.toObjectKey)
  modified_sub :
    (st.modified.map Object.toObjectKey).Sublist (done.map fun e => e.2.toObjectKey)
  data_spec : ∀ entry ∈ st.data, ∃ obj, (entry.1, obj) ∈ done ∧
    ((currentRev.data.lookup entry.1 = some entry.2) ∨
     (∃ old, currentRev.data.lookup entry.1 = some old ∧ old.Content ≠ obj.Content ∧
        entry.2 = { obj with ResourceVersion := rev, UID := old.UID } ∧
        entry.2 ∈ st.modified) ∨
     (currentRev.data.lookup entry.1 = none ∧
        (∃ n, entry.2 = { obj with UID := uuids n, ResourceVersion := rev }) ∧
        entry.2 ∈ st.add))
  add_spec : ∀ o ∈ st.add, ∃ k obj n, (k, obj) ∈ done ∧
    currentRev.data.lookup k = none ∧
    o = { obj with UID := uuids n, ResourceVersion := rev } ∧ (k, o) ∈ st.data
  modified_spec : ∀ o ∈ st.modified, ∃ k obj old, (k, obj) ∈ done ∧
    currentRev.data.lookup k = some old ∧ old.Content ≠ obj.Content ∧
    o = { obj with ResourceVersion := rev, UID := old.UID } ∧ (k, o) ∈ st.data

/-- The revision `commit` builds on top of `currentRev`, after its three loops. -/
def newRevision (rev : String) (currentRev : Revision) (files : GoMap)
    (uuids : Nat → UID) : Revision :=
  { data := (files.foldl (commitStep rev currentRev uuids) {}).data.map fun entry =>
      (entry.1, setDynamicFields entry.2),
    add := (files.foldl (commitStep rev currentRev uuids) {}).add.map setDynamicFields,
    deleted :=
      (currentRev.data.filter fun entry => (files.lookup entry.1).isNone).map Prod.snd,
    modified :=
      (files.foldl (commitStep rev currentRev uuids) {}).modified.map setDynamicFields }


/-- Every object of the diff lists of a revision is stamped under its own key. -/
def Revision.Documented (r : Revision) : Prop :=
  ∀ o ∈ r.add ++ r.modified ++ r.deleted, Stamped o.toObjectKey o

/-- The conversion `Convert(obj, ret)` of `encoding/json` into a caller's object that has
no decoder of its own: a nil pointer is encoded as JSON `null`, which leaves the target as
it was; a document replaces it. -/
def jsonInto (obj : Unstructured) (ret : Option Unstructured) : Except String Unstructured :=
  match ret with
  | none => .ok obj
  | some u => .ok u


/-- What a consumer's map holds under a key after an event of the given type for that
key, `prev` being what it held before. -/
def applied {α : Type} (event : EventType) (a : α) (prev : Option α) : Option α :=
  match event with
  | EventType.Added => some a
  | EventType.Modified => some a
  | EventType.Deleted => none
  | EventType.Error => prev

/-- What a watcher should hold under a key: the decoded document of the object the map
has under that key, when the object passes the filter. -/
def viewOf {α : Type} (gvk : GroupVersionKind) (selector : Selector)
    (decode : Unstructured → α) (data : GoMap) (k : ObjectKey) : Option α :=
  match data.lookup k with
  | some o => if selected gvk selector o then o.Object.map decode else none
  | none => none

/-- The filter gives a modified object of `r'` the verdict it gave the version in `r`. -/
def StableStep (gvk : GroupVersionKind) (selector : Selector) (r r' : Revision) : Prop :=
  ∀ o ∈ r'.modified, ∀ old, (o.toObjectKey, old) ∈ r.data →
    selected gvk selector o = selected gvk selector old

/-- One step of the log, with what the proofs about a watch stream use of it. -/
def WatchStep (gvk : GroupVersionKind) (selector : Selector) (r r' : Revision) : Prop :=
  Linked r r' ∧ r.WF ∧ r'.WF ∧ StableStep gvk selector r r'


/-- The at-most-once-Added property for one store, watch kind, selector and prototype:
whatever resourceVersion the watcher starts from, the events it receives hold no second
`Added` for a key without a `Deleted` for that key in between. -/
def WatchAddedOnce {α : Type} (s : Store) (gvk : GroupVersionKind) (selector : Selector)
    (decode : Unstructured → α) (keyOf : α → ObjectKey) : Prop :=
  ∀ resourceVersion start events cursor,
    s.getRevision resourceVersion = .ok start →
    s.readEvents gvk (fun u => .ok (decode u)) start selector = some (events, cursor) →
    AddedAtMostOnce keyOf events

/-- The keys a consumer holds as added and not deleted since, after one more event. -/
def liveStep {α : Type} (keyOf : α → ObjectKey) (live : List ObjectKey) (e : Event α) :
    List ObjectKey :=
  match e.object, e.type with
  | EventObject.converted a, EventType.Added => keyOf a :: live
  | EventObject.converted a, EventType.Deleted => live.filter fun k => k ≠ keyOf a
  | _, _ => live

/-- Every `Added` event of the list is for a key that is not live when it arrives. -/
def AddedFresh {α : Type} (keyOf : α → ObjectKey) : List ObjectKey → List (Event α) → Prop
  | _, [] => True
  | live, e :: es =>
    (∀ a, e = { type := EventType.Added, object := EventObject.converted a } →
        keyOf a ∉ live) ∧
      AddedFresh keyOf (liveStep keyOf live e) es


/-! ## File paths (path/filepath, operations.go) -/

/-- The elements of a path: the text between its separators `/`. -/
def splitSlash : List Char → List (List Char)
  | [] => [[]]
  | c :: cs =>
    if c = '/' then [] :: splitSlash cs
    else
      match splitSlash cs with
      | seg :: rest => (c :: seg) :: rest
      | [] => [[c]]

/-- The elements joined with the separator `/`, as `strings.Join(elem, "/")`. -/
def joinSlash : List (List Char) → List Char
  | [] => []
  | [seg] => seg
  | seg :: rest => seg ++ '/' :: joinSlash rest

/-- One element of the lexical processing of `Clean`: an empty element and `.` are
dropped, `..` removes the element before it (at the root it is dropped, at the start of a
relative path it is kept), any other element is kept. -/
def cleanStep (rooted : Bool) (stack : List (List Char)) (seg : List Char) :
    List (List Char) :=
  if seg = [] ∨ seg = ['.'] then stack
  else if seg = ['.', '.'] then
    match stack.getLast? with
    | some top => if top = ['.', '.'] then stack ++ [seg] else stack.dropLast
    | none => if rooted then stack else stack ++ [seg]
  else stack ++ [seg]

/-- The elements that `Clean` keeps of a path. -/
def cleanStack (path : List Char) : List (List Char) :=
  (splitSlash path).foldl (cleanStep (path.head? = some '/')) []

/-- The path `Clean` writes for the elements kept: the root `/`, or `.` for an empty
relative path, or the elements joined, after a `/` when the path is rooted. -/
def renderPath (rooted : Bool) (stack : List (List Char)) : List Char :=
  if stack = [] then (if rooted then ['/'] else ['.'])
  else (if rooted then ['/'] else []) ++ joinSlash stack

/-- The function `filepath.Clean` (Unix separators), after its documentation. -/
def filepath.Clean (path : String) : String :=
  ⟨renderPath (path.data.head? = some '/') (cleanStack path.data)⟩

/-- The function `filepath.Join`: leading empty elements are skipped, the others are
joined with `/` and the result is cleaned; no non-empty element gives "". -/
def filepath.Join (elem : List String) : String :=
  match elem.dropWhile fun e => e = "" with
  | [] => ""
  | rest => filepath.Clean ⟨joinSlash (rest.map String.data)⟩

/-- The function `filepath.Dir`: the path up to its last separator, cleaned. -/
def filepath.Dir (path : String) : String :=
  filepath.Clean ⟨(path.data.reverse.dropWhile fun c => c ≠ '/').reverse⟩

/-- The file of `Store.Create`:
`filepath.Join(s.repo.Dir, s.subDir, gvk.Group, gvk.Version, gvk.Kind, namespace, name)
+ ".yaml"`. -/
def createFile (dir subDir : String) (gvk : GroupVersionKind) (namespace_ name : String) :
    String :=
  filepath.Join [dir, subDir, gvk.Group, gvk.Version, gvk.Kind, namespace_, name] ++ ".yaml"

/-- The path as the specification words it: the working directory, the sub-directory
and the five components, each one path segment (an empty one included), and `.yaml`. -/
def specPath (dir subDir : String) (gvk : GroupVersionKind) (namespace_ name : String) :
    String :=
  dir ++ "/" ++ subDir ++ "/" ++ gvk.Group ++ "/" ++ gvk.Version ++ "/" ++ gvk.Kind ++
    "/" ++ namespace_ ++ "/" ++ name ++ ".yaml"

/-- A path component that is one element for `Clean`: no separator in it, and neither
`.` nor `..`. -/
def SimpleName (s : String) : Prop :=
  '/' ∉ s.data ∧ s ≠ "." ∧ s ≠ ".."

/-- The file of `Store.Create` determines the five components. -/
def PathInjective (dir subDir : String) : Prop :=
  ∀ gvk namespace_ name gvk' namespace_' name',
    createFile dir subDir gvk namespace_ name =
      createFile dir subDir gvk' namespace_' name' →
    gvk = gvk' ∧ namespace_ = namespace_' ∧ name = name'


/-! ## The git working tree (git.go) -/

/-- What the repository code does outside the process: a directory creation, a file
write, a file removal, or a run of the `git` binary with the given arguments. -/
inductive Action where
  | MkdirAll (dir : String)
  | WriteFile (path : String) (data : Bytes)
  | Remove (path : String)
  | Git (args : List String)
deriving DecidableEq, Repr

/-- The regular files of the working tree, path and content, in the order in which
`filepath.WalkDir` visits them. -/
abbrev FileTree := List (String × Bytes)

/-- The content of a file, as `ioutil.ReadFile` returns it; `none` when there is none. -/
def FileTree.read : FileTree → String → Option Bytes
  | [], _ => none
  | (p, content) :: rest, path => if p = path then some content else FileTree.read rest path

/-- The tree without the file at `path`. -/
def FileTree.remove (tree : FileTree) (path : String) : FileTree :=
  tree.filter fun entry => entry.1 ≠ path

/-- The walk visits the entries of a directory in lexical order of their names, so one
file comes before another when its list of path elements is the smaller one. -/
def walksBefore (p q : String) : Bool :=
  decide (splitSlash p.data < splitSlash q.data)

/-- A file put at its place in the order of the walk. -/
def FileTree.place (entry : String × Bytes) : FileTree → FileTree
  | [] => [entry]
  | e :: rest =>
    if walksBefore entry.1 e.1 then entry :: e :: rest
    else e :: FileTree.place entry rest

/-- The tree after `ioutil.WriteFile(path, data, 0644)`. -/
def FileTree.write (tree : FileTree) (path : String) (data : Bytes) : FileTree :=
  FileTree.place (path, data) (tree.remove path)

/-- The type `Repo` of git.go, with the state of what it works on: the files of the
working tree under `Dir`, and the actions run so far. -/
structure Repo where
  Dir : String
  url : String
  branch : String
  tree : FileTree
  trace : List Action
deriving DecidableEq, Repr

/-- The outcomes, during one operation, of what the code calls outside the repository:
the exit error of each git command (`none` is exit status 0), the errors of
`os.MkdirAll`, `ioutil.WriteFile` and `filepath.WalkDir`, the output of
`git rev-parse HEAD`, the tree to which `git reset --hard origin/HEAD` resets, the YAML
encoder and decoder, the UUIDs handed out and the draws of `rand.String(4)`. -/
structure Env where
  gitExit : List String → Option String
  mkdirAll : String → Option String
  writeFile : String → Bytes → Option String
  walkDir : Option String
  headOutput : String
  originTree : FileTree
  marshal : Unstructured → Except String Bytes
  unmarshal : Bytes → Option Unstructured
  uuids : Nat → UID
  randNames : List String

/-- What a git command that exits with status 0 does to the files of the working tree:
`rm -f <path>` removes the file, `reset --hard origin/HEAD` restores the tree of
`origin/HEAD`, the other commands the repository runs leave the files as they are. -/
def gitEffect (env : Env) (args : List String) (tree : FileTree) : FileTree :=
  match args with
  | ["rm", "-f", path] => tree.remove path
  | ["reset", "--hard", "origin/HEAD"] => env.originTree
  | _ => tree

/-- The function `git` of git.go: the command is run and its exit error returned. -/
def Repo.git (env : Env) (r : Repo) (args : List String) : Repo × Option String :=
  let r := { r with trace := r.trace ++ [Action.Git args] }
  match env.gitExit args with
  | some err => (r, some err)
  | none => ({ r with tree := gitEffect env args r.tree }, none)

/-- The method `Repo.commitAndPush`. -/
def Repo.commitAndPush (env : Env) (r : Repo) : Repo × Option String :=
  match r.git env ["commit", "-m", "controller update"] with
  | (r, some err) => ((r.git env ["reset", "--hard", "origin/HEAD"]).1, some err)
  | (r, none) =>
    match r.git env ["push"] with
    | (r, some err) => ((r.git env ["reset", "--hard", "origin/HEAD"]).1, some err)
    | (r, none) => (r, none)

/-- The method `Repo.Add`. -/
def Repo.Add (env : Env) (r : Repo) (path : String) (data : Bytes) : Repo × Option String :=
  let dir := filepath.Dir path
  let r := { r with trace := r.trace ++ [Action.MkdirAll dir] }
  match env.mkdirAll dir with
  | some err => (r, some err)
  | none =>
    let r := { r with trace := r.trace ++ [Action.WriteFile path data] }
    match env.writeFile path data with
    | some err => (r, some err)
    | none =>
      let r := { r with tree := r.tree.write path data }
      match r.git env ["add", path] with
      | (r, some err) =>
        ({ r with trace := r.trace ++ [Action.Remove path], tree := r.tree.remove path },
          some err)
      | (r, none) => r.commitAndPush env

/-- The method `Repo.Delete`. -/
def Repo.Delete (env : Env) (r : Repo) (path : String) : Repo × Option String :=
  match r.git env ["rm", "-f", path] with
  | (r, some err) => (r, some err)
  | (r, none) => r.commitAndPush env

/-- The method `Repo.Head`: the trimmed output of `git rev-parse HEAD`. -/
def Repo.Head (env : Env) (r : Repo) : Repo × Except String String :=
  match r.git env ["rev-parse", "HEAD"] with
  | (r, some err) => (r, .error err)
  | (r, none) => (r, .ok env.headOutput)


/-! ## Scan and the write pipeline (store.go, operations.go) -/

/-- Whether `text` begins with `start`, as `strings.HasPrefix`. -/
def startsWith : List Char → List Char → Bool
  | _, [] => true
  | [], _ :: _ => false
  | c :: cs, p :: ps => decide (c = p) && startsWith cs ps

/-- Whether `text` ends with `tail`, as `strings.HasSuffix`. -/
def endsWith (text tail : List Char) : Bool :=
  startsWith text.reverse tail.reverse

/-- The test of `scan` on a file: its lower-cased path ends in `.yaml` or `.yml`. -/
def yamlFile (path : String) : Bool :=
  endsWith (path.data.map Char.toLower) ".yaml".data ||
    endsWith (path.data.map Char.toLower) ".yml".data

/-- Whether the walk rooted at the cleaned path `root` visits the file: its path is the
root, a separator, and the path of the file inside the root. The walk of `.` reports the
paths inside it without a leading `./`: they are the relative paths that do not climb. -/
def underRoot (root path : String) : Bool :=
  if root = "/" then startsWith path.data ['/']
  else if root = "." then
    !startsWith path.data ['/'] && !startsWith path.data ['.', '.', '/']
  else startsWith path.data (root.data ++ ['/'])

/-- The method `Store.scan`: the HEAD commit and the YAML files under
`filepath.Join(s.repo.Dir, s.subDir)`, in the order of the walk. -/
def Store.scan (env : Env) (s : Store) (repo : Repo) :
    Repo × Except String (String × List String) :=
  match repo.Head env with
  | (repo, .error err) => (repo, .error err)
  | (repo, .ok commit) =>
    let paths :=
      (repo.tree.filter fun entry =>
        underRoot (filepath.Join [repo.Dir, s.subDir]) entry.1 && yamlFile entry.1).map
        Prod.fst
    match env.walkDir with
    | some err => (repo, .error err)
    | none => (repo, .ok (commit, paths))

/-- The method `Store.scanAndUpdate`. `none` is a panic of `commit`. -/
def Store.scanAndUpdate (env : Env) (s : Store) (repo : Repo) :
    Option (Store × Repo × Option Error) :=
  match s.scan env repo with
  | (repo, .error err) => some (s, repo, some (Error.Other err))
  | (repo, .ok (commit, files)) =>
    match s.add commit files repo.tree.read env.unmarshal env.uuids with
    | none => none
    | some s' => some (s', repo, none)

/-- The value of `x` as an `int64`. -/
def int64 (x : Int) : Int :=
  (x + 2 ^ 63) % 2 ^ 64 - 2 ^ 63

/-- The method `Store.save`. The result holds the store and the repository after the
call, and the error or the document pointer returned. `none` is a panic. -/
def Store.save (env : Env) (s : Store) (repo : Repo) (gvk : GroupVersionKind)
    (object : Unstructured) (path : String) (generation : Bool) :
    Option (Store × Repo × Except Error (Option Unstructured)) :=
  let cloned := object.SetGroupVersionKind gvk
  let cloned :=
    if generation then { cloned with generation := int64 (cloned.generation + 1) }
    else cloned
  match env.marshal cloned with
  | .error err => some (s, repo, .error (Error.Other err))
  | .ok data =>
    match repo.Add env path data with
    | (repo, some err) => some (s, repo, .error (Error.Other err))
    | (repo, none) =>
      match s.scanAndUpdate env repo with
      | none => none
      | some (s, repo, some err) => some (s, repo, .error err)
      | some (s, repo, none) =>
        match s.get gvk object.GetNamespace object.GetName with
        | none => none
        | some found => some (s, repo, .ok found.Object)

/-- The loop of `Store.Create` that draws names until one is free: `stem` is the
generateName cut to 58, `draws` the successive results of `rand.String(4)`. `none`: the
draws are used up (the loop goes on), or `get` panics. -/
def Store.freeName (s : Store) (gvk : GroupVersionKind) (namespace_ stem : String) :
    List String → Option String
  | [] => none
  | draw :: draws =>
    match s.get gvk namespace_ (stem ++ draw) with
    | none => none
    | some existing =>
      if existing.Object = none then some (stem ++ draw)
      else Store.freeName s gvk namespace_ stem draws

/-- The method `Store.Create`. (The cut `prefix[:58]` counts bytes; it is modelled on
characters, the same on ASCII names.) -/
def Store.Create (env : Env) (s : Store) (repo : Repo) (gvk : GroupVersionKind)
    (object : Unstructured) : Option (Store × Repo × Except Error (Option Unstructured)) :=
  let namespace_ := object.GetNamespace
  let named : Option Unstructured :=
    if object.GetName = "" ∧ object.generateName ≠ "" then
      let stem :=
        if object.generateName.length > 58 then object.generateName.take 58
        else object.generateName
      (s.freeName gvk namespace_ stem env.randNames).map fun name =>
        { object with name := name }
    else some object
  match named with
  | none => none
  | some object =>
    match s.get gvk namespace_ object.GetName with
    | none => none
    | some existing =>
      if existing.Object ≠ none then
        some (s, repo, .error (Error.AlreadyExists gvk.Group gvk.Kind object.GetName))
      else
        s.save env repo gvk object
          (createFile repo.Dir s.subDir gvk namespace_ object.GetName) true

/-- The method `Store.Update`. -/
def Store.Update (env : Env) (s : Store) (repo : Repo) (gvk : GroupVersionKind)
    (obj : Unstructured) (generation : Bool) :
    Option (Store × Repo × Except Error (Option Unstructured)) :=
  match s.get gvk obj.GetNamespace obj.GetName with
  | none => none
  | some found =>
    if found.Object = none then
      some (s, repo, .error (Error.NotFound gvk.Group gvk.Kind obj.GetName))
    else if obj.GetResourceVersion ≠ found.ResourceVersion then
      some (s, repo, .error (Error.Conflict gvk.Group gvk.Kind obj.GetName
        ("resourceVersion " ++ obj.GetResourceVersion ++ " does not match requested " ++
          found.ResourceVersion)))
    else s.save env repo gvk obj found.Path generation

/-- The type `metav1.Preconditions`. -/
structure Preconditions where
  UID : Option UID
  ResourceVersion : Option String
deriving DecidableEq, Repr

/-- The end of `Store.Delete`: the file is removed through git and the tree scanned. -/
def Store.deleteFile (env : Env) (s : Store) (repo : Repo) (found : Object) :
    Option (Store × Repo × Option Error) :=
  match repo.Delete env found.Path with
  | (repo, some err) => some (s, repo, some (Error.Other err))
  | (repo, none) => s.scanAndUpdate env repo

/-- The second test of `Store.Delete`, on `preconditions.UID`, and what follows it. -/
def Store.deleteCheckUID (env : Env) (s : Store) (repo : Repo) (gvk : GroupVersionKind)
    (name : String) (found : Object) (u : Unstructured)
    (preconditions : Option Preconditions) : Option (Store × Repo × Option Error) :=
  match preconditions.bind Preconditions.UID with
  | some uid =>
    if u.GetUID ≠ uid then
      some (s, repo, some (Error.Conflict gvk.Group gvk.Kind name
        ("uid " ++ u.GetUID ++ " does not match requested " ++ uid)))
    else s.deleteFile env repo found
  | none => s.deleteFile env repo found

/-- The method `Store.Delete`; a nil `preconditions` is `none`, and so is a nil field of
it. -/
def Store.Delete (env : Env) (s : Store) (repo : Repo) (gvk : GroupVersionKind)
    (namespace_ name : String) (preconditions : Option Preconditions) :
    Option (Store × Repo × Option Error) :=
  match s.get gvk namespace_ name with
  | none => none
  | some found =>
    match found.Object with
    | none => some (s, repo, none)
    | some u =>
      match preconditions.bind Preconditions.ResourceVersion with
      | some rv =>
        if u.GetResourceVersion ≠ rv then
          some (s, repo, some (Error.Conflict gvk.Group gvk.Kind name
            ("resourceVersion " ++ u.GetResourceVersion ++ " does not match requested " ++
              rv)))
        else s.deleteCheckUID env repo gvk name found u preconditions
      | none => s.deleteCheckUID env repo gvk name found u preconditions

/-! ## List (operations.go) -/

/-- The list document `Store.List` returns: its `kind`, its `items` (the document
pointers of the objects kept) and its `metadata.resourceVersion`. -/
structure ListResult where
  kind : String
  items : List (Option Unstructured)
  resourceVersion : String
deriving DecidableEq, Repr

/-- The loop `for key, obj := range rev.data` of `Store.List`; a nil `selector` is `none`.
The result `none` is the panic of `obj.Object.GetLabels()` on a nil document. -/
def listItems (gvk : GroupVersionKind) (namespace_ : String) (selector : Option Selector) :
    GoMap → Option (List (Option Unstructured))
  | [] => some []
  | (key, obj) :: rest =>
    if key.Kind = gvk.Kind ∧ key.Group = gvk.Group ∧
        (namespace_ = "" ∨ obj.Namespace = namespace_) then
      match selector with
      | none => (listItems gvk namespace_ selector rest).map fun items => obj.Object :: items
      | some sel =>
        match obj.Object with
        | none => none
        | some u =>
          if sel.Matches u.GetLabels then
            (listItems gvk namespace_ selector rest).map fun items => obj.Object :: items
          else listItems gvk namespace_ selector rest
    else listItems gvk namespace_ selector rest

/-- The method `Store.List`. `none` is a panic (empty log, nil document). -/
def Store.List (s : Store) (gvk : GroupVersionKind) (namespace_ : String)
    (selector : Option Selector) : Option ListResult :=
  match s.revisions.getLast? with
  | none => none
  | some rev =>
    (listItems gvk namespace_ selector rev.data).map fun items =>
      { kind := gvk.Kind ++ "List", items := items,
        resourceVersion := toString (s.revisions.length - 1) }

/-- The test of `Store.List` on one object of the tail: group and kind equal those asked
for, the namespace is the one asked for (any when none is asked for), and the labels of
the document match the selector (any labels when the selector is nil). -/
def listed (gvk : GroupVersionKind) (namespace_ : String) (selector : Option Selector)
    (obj : Object) : Bool :=
  decide (obj.Kind = gvk.Kind) && decide (obj.Group = gvk.Group) &&
    (decide (namespace_ = "") || decide (obj.Namespace = namespace_)) &&
    match selector, obj.Object with
    | none, _ => true
    | some sel, some u => sel.Matches u.GetLabels
    | some _, none => false


/-! ## Status updates (status.go) -/

/-- The object `statusWriter.Update` builds from the copy of the stored document and the
caller's object: `SetResourceVersion(newStatus.GetResourceVersion())`, then
`Object["status"] = newStatus.Object["status"]`. -/
def statusObject (existing newStatus : Unstructured) : Unstructured :=
  { existing.SetResourceVersion newStatus.GetResourceVersion with
    status := newStatus.status }

/-- The conversion `Convert(newStatus, obj)` at the head of `statusWriter.Update`. The
caller's object is given as the document that `json.Marshal` writes for it; the decoder
of `unstructured.Unstructured` fills the target and returns the error of
`runtime.NewMissingKindErrWithString` when the document has no kind. -/
def convertCaller (obj : Unstructured) : Except Error Unstructured :=
  if obj.kind = "" then .error (Error.Other "Object Kind is missing") else .ok obj

/-- The method `statusWriter.Update`, on a caller's object given as its document: its
`GetObjectKind().GroupVersionKind()` is the kind and apiVersion of the document.
`schemeKind` is the result of `apiutil.GVKForObject(obj, scheme)` and `convert` is the
final `Convert(obj, ret)`. `none` is a panic: of `Store.Get`, or of the type assertion on
`existing.DeepCopyObject()`, which is the nil interface when the pointer held is nil. -/
def statusWriter.Update (env : Env) (s : Store) (repo : Repo)
    (schemeKind : Except Error GroupVersionKind) (obj : Unstructured)
    (convert : Unstructured → Option Unstructured → Except String Unstructured) :
    Option (Store × Repo × Except Error Unstructured) :=
  match convertCaller obj with
  | .error err => some (s, repo, .error err)
  | .ok newStatus =>
    match GVK obj.GroupVersionKind schemeKind with
    | .error err => some (s, repo, .error err)
    | .ok gvk =>
      match s.Get gvk obj.GetNamespace obj.GetName with
      | none => none
      | some ClientObject.nilInterface =>
        some (s, repo, .error (Error.NotFound gvk.Group gvk.Kind obj.GetName))
      | some (ClientObject.unstructured none) => none
      | some (ClientObject.unstructured (some existing)) =>
        match s.Update env repo gvk (statusObject existing newStatus) false with
        | none => none
        | some (s, repo, .error err) => some (s, repo, .error err)
        | some (s, repo, .ok ret) =>
          match convert obj ret with
          | .ok filled => some (s, repo, .ok filled)
          | .error message => some (s, repo, .error (Error.Other message))

/-! ## A sample working tree -/

/-- The YAML decoder of the sample: it knows the three files of the sample. -/
def sampleUnmarshal (data : Bytes) : Option Unstructured :=
  if data = [1] then some (sampleDoc "a" [("tier", "web")])
  else if data = [2] then some (sampleDoc "a" [("tier", "db")])
  else if data = [3] then
    some { sampleDoc "b" [] with generation := 1 }
  else if data = [4] then some { kind := "Widget", ns := "default", name := "c", generation := 1 }
  else none

/-- The YAML encoder of the sample, the inverse of the decoder on its documents. -/
def sampleMarshal (u : Unstructured) : Except String Bytes :=
  if u = sampleDoc "a" [("tier", "web")] then .ok [1]
  else if u = sampleDoc "a" [("tier", "db")] then .ok [2]
  else if u = { sampleDoc "b" [] with generation := 1 } then .ok [3]
  else if u = { kind := "Widget", ns := "default", name := "c", generation := 1 } then .ok [4]
  else .error "unsupported document"

/-- An environment in which every call succeeds. -/
def sampleEnv : Env :=
  { gitExit := fun _ => none, mkdirAll := fun _ => none, writeFile := fun _ _ => none,
    walkDir := none, headOutput := "c9", originTree := [],
    marshal := sampleMarshal, unmarshal := sampleUnmarshal,
    uuids := uuidsTwo, randNames := ["abcd"] }

/-- An environment in which `git commit` fails and every other call succeeds. -/
def commitFailsEnv : Env :=
  { sampleEnv with
    gitExit := fun args =>
      if args = ["commit", "-m", "controller update"] then some "exit status 1" else none }

/-- The repository of the sample: a working tree with the file of widget `a`. -/
def sampleRepo : Repo :=
  { Dir := "/repo", url := "url", branch := "main",
    tree := [("/repo/cfg/a.yaml", [1])], trace := [] }


/-- A caller's object for widget `a` with a status, read at revision 1: its
resourceVersion is older than the stored one. -/
def staleStatus : Unstructured :=
  { sampleDoc "a" [("tier", "web")] with resourceVersion := "1", status := "ready" }

/-- A caller's object for widget `a` with a status, read at revision 2. -/
def freshStatus : Unstructured :=
  { sampleDoc "a" [("tier", "web")] with resourceVersion := "2", status := "ready" }

/-- A caller's object for widget `a` that carries neither kind nor apiVersion, as a typed
object with an empty `TypeMeta` does. -/
def untypedStatus : Unstructured :=
  { ns := "default", name := "a", resourceVersion := "2", status := "ready" }

/-- The frame of a status update in the words of the specification: what is handed to
`Store.Update` is the stored document with `status` alone replaced by the caller's. -/
def StatusFrame (existing newStatus : Unstructured) : Prop :=
  statusObject existing newStatus = { existing with status := newStatus.status }


/-- The preconditions of a delete fail on a stored object, in the words of the
specification: the resourceVersion is set and differs from the stored one, or the uid
is set and differs from the stored one. -/
def PreconditionsFail (preconditions : Option Preconditions) (o : Object) : Prop :=
  (∃ rv, preconditions.bind Preconditions.ResourceVersion = some rv ∧
      o.ResourceVersion ≠ rv) ∨
    (∃ uid, preconditions.bind Preconditions.UID = some uid ∧ o.UID ≠ uid)

/-- A working tree in which two files hold widget `a`. -/
def twinRepo : Repo :=
  { Dir := "/repo", url := "url", branch := "main",
    tree := [("/repo/cfg/a.yaml", [1]), ("/repo/cfg/z.yaml", [2])], trace := [] }


/-- The document of widget `a` that the scan of the tree with two files stores. -/
def docTwin : Unstructured :=
  { sampleDoc "a" [("tier", "db")] with resourceVersion := "2", uid := "uid-2-0" }

/-- Widget `a` as the scan of the tree with two files stores it: the file visited last
is the one kept. -/
def widgetTwin : Object :=
  { Kind := "Widget", Group := "example.com", Name := "a", Namespace := "default",
    Version := "v1", ResourceVersion := "2", UID := "uid-2-0", Content := [2],
    Object := some docTwin, Path := "/repo/cfg/z.yaml" }

/-- The store after the first scan of the tree with two files. -/
def twinStore : Store :=
  sampleStore [{}, {}, { data := [(sampleKey "a", widgetTwin)], add := [widgetTwin] }] "c9"


/-- The document of widget `a` that the scan of the sample working tree stores. -/
def docSolo : Unstructured :=
  { sampleDoc "a" [("tier", "web")] with resourceVersion := "2", uid := "uid-2-0" }

/-- Widget `a` as the scan of the sample working tree stores it. -/
def widgetSolo : Object :=
  { Kind := "Widget", Group := "example.com", Name := "a", Namespace := "default",
    Version := "v1", ResourceVersion := "2", UID := "uid-2-0", Content := [1],
    Object := some docSolo, Path := "/repo/cfg/a.yaml" }

/-- The store after the first scan of the sample working tree. -/
def soloStore : Store :=
  sampleStore [{}, {}, { data := [(sampleKey "a", widgetSolo)], add := [widgetSolo] }] "c9"


/-- The GVK of a widget that names no group and no version. -/
def bareKind : GroupVersionKind := { Group := "", Version := "", Kind := "Widget" }


/-- A widget document that names its kind and no apiVersion. -/
def bareWidget : Unstructured := { kind := "Widget", ns := "default", name := "c" }

/-- An object that carries neither kind nor apiVersion, as a typed object does. -/
def untypedWidget : Unstructured := { ns := "default", name := "b" }

/-- The document stored for widget `b` created in the sample working tree. -/
def createdWidget : Unstructured :=
  { sampleDoc "b" [] with generation := 1, resourceVersion := "3", uid := "uid-2-0" }


/-- An environment in which every git command succeeds and the walk fails because its
root is gone: what `scan` meets after `git rm` has removed the only file under the
sub-directory and, with it, the directory. -/
def emptiedEnv : Env :=
  { sampleEnv with walkDir := some "lstat /repo/cfg: no such file or directory" }

/-! ## Keyed maps -/

theorem KeyedMap.mem_of_lookup {α : Type} {m : KeyedMap α} {k : ObjectKey} {v : α}
    (h : m.lookup k = some v) : (k, v) ∈ m := by
  induction m with
  | nil => simp [KeyedMap.lookup] at h
  | cons e rest ih =>
    obtain ⟨k', v'⟩ := e
    by_cases hk : k' = k
    · subst hk
      simp [KeyedMap.lookup] at h
      simp [h]
    · simp [KeyedMap.lookup, hk] at h
      exact List.mem_cons_of_mem _ (ih h)

theorem KeyedMap.lookup_eq_none_iff {α : Type} {m : KeyedMap α} {k : ObjectKey} :
    m.lookup k = none ↔ k ∉ m.keys := by
  induction m with
  | nil => simp [KeyedMap.lookup, KeyedMap.keys]
  | cons e rest ih =>
    obtain ⟨k', v'⟩ := e
    by_cases hk : k' = k
    · subst hk
      simp [KeyedMap.lookup, KeyedMap.keys]
    · have hk' : ¬ k = k' := fun h => hk h.symm
      simp only [KeyedMap.lookup, hk, if_false, ih]
      simp [KeyedMap.keys, hk']

theorem KeyedMap.lookup_of_mem {α : Type} {m : KeyedMap α} {k : ObjectKey} {v : α}
    (hnd : m.keys.Nodup) (h : (k, v) ∈ m) : m.lookup k = some v := by
  induction m with
  | nil => simp at h
  | cons e rest ih =>
    obtain ⟨k', v'⟩ := e
    simp only [KeyedMap.keys, List.map_cons, List.nodup_cons] at hnd
    rcases List.mem_cons.1 h with heq | hmem
    · injection heq with h1 h2
      subst h1; subst h2
      simp [KeyedMap.lookup]
    · have hne : k' ≠ k := by
        intro hk
        subst hk
        exact hnd.1 (List.mem_map.2 ⟨(k', v), hmem, rfl⟩)
      simp only [KeyedMap.lookup, hne, if_false]
      exact ih hnd.2 hmem

theorem KeyedMap.mem_keys_of_mem {α : Type} {m : KeyedMap α} {k : ObjectKey} {v : α}
    (h : (k, v) ∈ m) : k ∈ m.keys :=
  List.mem_map.2 ⟨(k, v), h, rfl⟩

theorem KeyedMap.exists_mem_of_mem_keys {α : Type} {m : KeyedMap α} {k : ObjectKey}
    (h : k ∈ m.keys) : ∃ v, (k, v) ∈ m := by
  obtain ⟨⟨k', v⟩, hmem, hk⟩ := List.mem_map.1 h
  simp only at hk
  subst hk
  exact ⟨v, hmem⟩

theorem KeyedMap.insert_of_not_mem {α : Type} {m : KeyedMap α} {k : ObjectKey} (v : α)
    (h : k ∉ m.keys) : m.insert k v = m ++ [(k, v)] := by
  induction m with
  | nil => simp [KeyedMap.insert]
  | cons e rest ih =>
    obtain ⟨k', v'⟩ := e
    simp only [KeyedMap.keys, List.map_cons, List.mem_cons, not_or] at h
    have hne : ¬ k' = k := fun hk => h.1 hk.symm
    simp only [KeyedMap.insert, hne, if_false, List.cons_append]
    rw [ih h.2]

/-! ## The first loop of `commit` -/

theorem loopInv_nil (rev : String) (cur : Revision) (uuids : Nat → UID) :
    LoopInv rev cur uuids [] {} where
  keys_eq := rfl
  add_sub := by simp
  modified_sub := by simp
  data_spec := by intro entry h; simp at h
  add_spec := by intro o h; simp at h
  modified_spec := by intro o h; simp at h

theorem loopInv_step {rev : String} {cur : Revision} {uuids : Nat → UID} {done : GoMap}
    {st : CommitLoop} (hinv : LoopInv rev cur uuids done st) (e : ObjectKey × Object)
    (hk : e.1 ∉ done.keys) :
    LoopInv rev cur uuids (done ++ [e]) (commitStep rev cur uuids st e) := by
  obtain ⟨key, obj⟩ := e
  have hk' : key ∉ st.data.keys := by rw [hinv.keys_eq]; exact hk
  have hsubl : ∀ l : List ObjectKey, l.Sublist (done.map fun e => e.2.toObjectKey) →
      l.Sublist ((done ++ [(key, obj)]).map fun e => e.2.toObjectKey) := by
    intro l hl
    rw [List.map_append]
    exact hl.trans (List.sublist_append_left _ _)
  have hdata : ∀ entry ∈ st.data, ∃ obj', (entry.1, obj') ∈ done ++ [(key, obj)] ∧
      ((cur.data.lookup entry.1 = some entry.2) ∨
       (∃ old, cur.data.lookup entry.1 = some old ∧ old.Content ≠ obj'.Content ∧
          entry.2 = { obj' with ResourceVersion := rev, UID := old.UID } ∧
          entry.2 ∈ st.modified) ∨
       (cur.data.lookup entry.1 = none ∧
          (∃ n, entry.2 = { obj' with UID := uuids n, ResourceVersion := rev }) ∧
          entry.2 ∈ st.add)) := by
    intro entry hentry
    obtain ⟨obj', hmem, hcases⟩ := hinv.data_spec entry hentry
    exact ⟨obj', List.mem_append_left _ hmem, hcases⟩
  have hadd : ∀ o ∈ st.add, ∃ k obj' n, (k, obj') ∈ done ++ [(key, obj)] ∧
      cur.data.lookup k = none ∧
      o = { obj' with UID := uuids n, ResourceVersion := rev } ∧ (k, o) ∈ st.data := by
    intro o ho
    obtain ⟨k, obj', n, hmem, h1, h2, h3⟩ := hinv.add_spec o ho
    exact ⟨k, obj', n, List.mem_append_left _ hmem, h1, h2, h3⟩
  have hmod : ∀ o ∈ st.modified, ∃ k obj' old, (k, obj') ∈ done ++ [(key, obj)] ∧
      cur.data.lookup k = some old ∧ old.Content ≠ obj'.Content ∧
      o = { obj' with ResourceVersion := rev, UID := old.UID } ∧ (k, o) ∈ st.data := by
    intro o ho
    obtain ⟨k, obj', old, hmem, h1, h2, h3, h4⟩ := hinv.modified_spec o ho
    exact ⟨k, obj', old, List.mem_append_left _ hmem, h1, h2, h3, h4⟩
  have hlast : (key, obj) ∈ done ++ [(key, obj)] := by simp
  cases hlook : cur.data.lookup key with
  | none =>
    simp only [commitStep, hlook]
    rw [KeyedMap.insert_of_not_mem _ hk']
    refine ⟨?_, ?_, ?_, ?_, ?_, ?_⟩
    · have hkeys := hinv.keys_eq
      simp only [KeyedMap.keys] at hkeys ⊢
      simp [hkeys]
    · simp only [List.map_append, List.map_cons, List.map_nil]
      exact List.Sublist.append hinv.add_sub (List.Sublist.refl _)
    · exact hsubl _ hinv.modified_sub
    · intro entry hentry
      rcases List.mem_append.1 hentry with h | h
      · obtain ⟨obj', hmem, hc⟩ := hdata entry h
        refine ⟨obj', hmem, ?_⟩
        rcases hc with hc | hc | ⟨h1, h2, h3⟩
        · exact Or.inl hc
        · exact Or.inr (Or.inl hc)
        · exact Or.inr (Or.inr ⟨h1, h2, List.mem_append_left _ h3⟩)
      · simp only [List.mem_singleton] at h
        subst h
        exact ⟨obj, hlast, Or.inr (Or.inr ⟨hlook, ⟨st.uuidCalls, rfl⟩, by simp⟩)⟩
    · intro o ho
      rcases List.mem_append.1 ho with h | h
      · obtain ⟨k, obj', n, hmem, h1, h2, h3⟩ := hadd o h
        exact ⟨k, obj', n, hmem, h1, h2, List.mem_append_left _ h3⟩
      · simp only [List.mem_singleton] at h
        subst h
        exact ⟨key, obj, st.uuidCalls, hlast, hlook, rfl, by simp⟩
    · intro o ho
      obtain ⟨k, obj', old, hmem, h1, h2, h3, h4⟩ := hmod o ho
      exact ⟨k, obj', old, hmem, h1, h2, h3, List.mem_append_left _ h4⟩
  | some existing =>
    by_cases hc : existing.Content = obj.Content
    · simp only [commitStep, hlook, hc, if_true]
      rw [KeyedMap.insert_of_not_mem _ hk']
      refine ⟨?_, ?_, ?_, ?_, ?_, ?_⟩
      · have hkeys := hinv.keys_eq
        simp only [KeyedMap.keys] at hkeys ⊢
        simp [hkeys]
      · exact hsubl _ hinv.add_sub
      · exact hsubl _ hinv.modified_sub
      · intro entry hentry
        rcases List.mem_append.1 hentry with h | h
        · exact hdata entry h
        · simp only [List.mem_singleton] at h
          subst h
          exact ⟨obj, hlast, Or.inl hlook⟩
      · intro o ho
        obtain ⟨k, obj', n, hmem, h1, h2, h3⟩ := hadd o ho
        exact ⟨k, obj', n, hmem, h1, h2, List.mem_append_left _ h3⟩
      · intro o ho
        obtain ⟨k, obj', old, hmem, h1, h2, h3, h4⟩ := hmod o ho
        exact ⟨k, obj', old, hmem, h1, h2, h3, List.mem_append_left _ h4⟩
    · simp only [commitStep, hlook, hc, if_false]
      rw [KeyedMap.insert_of_not_mem _ hk']
      refine ⟨?_, ?_, ?_, ?_, ?_, ?_⟩
      · have hkeys := hinv.keys_eq
        simp only [KeyedMap.keys] at hkeys ⊢
        simp [hkeys]
      · exact hsubl _ hinv.add_sub
      · simp only [List.map_append, List.map_cons, List.map_nil]
        exact List.Sublist.append hinv.modified_sub (List.Sublist.refl _)
      · intro entry hentry
        rcases List.mem_append.1 hentry with h | h
        · obtain ⟨obj', hmem, hcs⟩ := hdata entry h
          refine ⟨obj', hmem, ?_⟩
          rcases hcs with hcs | ⟨old, h1, h2, h3, h4⟩ | hcs
          · exact Or.inl hcs
          · exact Or.inr (Or.inl ⟨old, h1, h2, h3, List.mem_append_left _ h4⟩)
          · exact Or.inr (Or.inr hcs)
        · simp only [List.mem_singleton] at h
          subst h
          exact ⟨obj, hlast, Or.inr (Or.inl ⟨existing, hlook, hc, rfl, by simp⟩)⟩
      · intro o ho
        obtain ⟨k, obj', n, hmem, h1, h2, h3⟩ := hadd o ho
        exact ⟨k, obj', n, hmem, h1, h2, List.mem_append_left _ h3⟩
      · intro o ho
        rcases List.mem_append.1 ho with h | h
        · obtain ⟨k, obj', old, hmem, h1, h2, h3, h4⟩ := hmod o h
          exact ⟨k, obj', old, hmem, h1, h2, h3, List.mem_append_left _ h4⟩
        · simp only [List.mem_singleton] at h
          subst h
          exact ⟨key, obj, existing, hlast, hlook, hc, rfl, by simp⟩

theorem loopInv_foldl (rev : String) (cur : Revision) (uuids : Nat → UID) (files : GoMap)
    (hnd : files.keys.Nodup) :
    LoopInv rev cur uuids files (files.foldl (commitStep rev cur uuids) {}) := by
  induction files using List.reverseRecOn with
  | nil => exact loopInv_nil rev cur uuids
  | append_singleton done e ih =>
    rw [List.foldl_append]
    simp only [KeyedMap.keys, List.map_append, List.map_cons, List.map_nil] at hnd
    have hnd' := List.nodup_append.1 hnd
    have hk : e.1 ∉ KeyedMap.keys done := by
      intro hmem
      exact (List.disjoint_left.1 hnd'.2.2) hmem (by simp)
    exact loopInv_step (ih hnd'.1) e hk

/-! ## One commit -/

theorem commit_eq (s : Store) (commit : String) (files : GoMap) (uuids : Nat → UID) :
    s.commit commit files uuids =
      match s.revisions.getLast? with
      | none => none
      | some cur =>
        if (files.foldl (commitStep (toString s.revisions.length) cur uuids) {}).data.all
            (fun entry => entry.2.Object.isSome) then
          if (newRevision (toString s.revisions.length) cur files uuids).add.length = 0 ∧
              (newRevision (toString s.revisions.length) cur files uuids).deleted.length
                = 0 ∧
              (newRevision (toString s.revisions.length) cur files uuids).modified.length
                = 0 then
            some { s with currentCommit := commit }
          else
            some { s with
              revisions :=
                s.revisions ++ [newRevision (toString s.revisions.length) cur files uuids],
              currentCommit := commit }
        else none := by
  unfold Store.commit newRevision
  cases s.revisions.getLast? <;> rfl

theorem setDynamicFields_toObjectKey (o : Object) :
    (setDynamicFields o).toObjectKey = o.toObjectKey := rfl

theorem map_setDynamicFields_keys (l : List Object) :
    (l.map setDynamicFields).map Object.toObjectKey = l.map Object.toObjectKey := by
  simp [List.map_map, Function.comp_def, setDynamicFields_toObjectKey]

theorem setDynamicFields_of_stamped {k : ObjectKey} {o : Object} (h : Stamped k o) :
    setDynamicFields o = o := by
  obtain ⟨hk, u, hu, hkey, hver, hrv, huid⟩ := h
  obtain ⟨⟨kind, group, name, ns⟩, version, rv, uid, content, doc, path⟩ := o
  obtain ⟨g, v, kd, n, nm, gn, ls, r, ui, gen, st, rest⟩ := u
  simp only at hu
  subst hu
  subst hk
  simp only [Unstructured.key, Unstructured.GroupVersionKind, Unstructured.GetName,
    Unstructured.GetNamespace, Unstructured.GetResourceVersion, Unstructured.GetUID,
    ObjectKey.mk.injEq] at hkey hver hrv huid
  obtain ⟨h1, h2, h3, h4⟩ := hkey
  subst h1 h2 h3 h4 hver hrv huid
  rfl

theorem stamped_setDynamicFields {k : ObjectKey} {o : Object} (hk : o.toObjectKey = k)
    (hu : ∃ u, o.Object = some u ∧ u.key = k) : Stamped k (setDynamicFields o) := by
  obtain ⟨u, hu, hkey⟩ := hu
  subst hk
  refine ⟨rfl, ((u.SetGroupVersionKind
    { Group := o.Group, Version := o.Version, Kind := o.Kind }).SetResourceVersion
      o.ResourceVersion).SetUID o.UID, by simp [setDynamicFields, hu], ?_, rfl, rfl, rfl⟩
  obtain ⟨⟨kind, group, name, ns⟩, version, rv, uid, content, doc, path⟩ := o
  obtain ⟨g, v, kd, n, nm, gn, ls, r, ui, gen, st, rest⟩ := u
  simp only [Unstructured.key, Unstructured.GroupVersionKind, Unstructured.GetName,
    Unstructured.GetNamespace, ObjectKey.mk.injEq] at hkey
  obtain ⟨h1, h2, h3, h4⟩ := hkey
  subst h1 h2 h3 h4
  rfl

theorem validFiles_keys {files : GoMap} (hv : ValidFiles files) :
    (files.map fun e => e.2.toObjectKey) = KeyedMap.keys files := by
  unfold KeyedMap.keys
  apply List.map_congr_left
  intro e he
  exact (hv.2 e he).1

theorem newRevision_keys (rev : String) (cur : Revision) (files : GoMap)
    (uuids : Nat → UID) (hv : ValidFiles files) :
    KeyedMap.keys (newRevision rev cur files uuids).data = KeyedMap.keys files := by
  have hli := loopInv_foldl rev cur uuids files hv.1
  have hkeys := hli.keys_eq
  simp only [KeyedMap.keys] at hkeys ⊢
  simp only [newRevision, List.map_map, Function.comp_def]
  exact hkeys

theorem newRevision_entry {rev : String} {cur : Revision} {files : GoMap}
    {uuids : Nat → UID} (hv : ValidFiles files) (hwf : cur.WF) {k : ObjectKey}
    {o : Object} (h : (k, o) ∈ (newRevision rev cur files uuids).data) :
    Stamped k o ∧
      ((k, o) ∈ cur.data ∨
       (o ∈ (newRevision rev cur files uuids).modified ∧ o.ResourceVersion = rev) ∨
       (o ∈ (newRevision rev cur files uuids).add ∧ o.ResourceVersion = rev)) := by
  have hli := loopInv_foldl rev cur uuids files hv.1
  simp only [newRevision, List.mem_map, Prod.mk.injEq] at h
  obtain ⟨⟨k', o1⟩, hmem, hk, ho⟩ := h
  simp only at hk ho
  subst hk ho
  obtain ⟨obj, hobj, hcases⟩ := hli.data_spec _ hmem
  simp only at hobj hcases
  obtain ⟨hkey, hdoc⟩ := hv.2 _ hobj
  simp only at hkey hdoc
  rcases hcases with hc | ⟨old, h1, h2, h3, h4⟩ | ⟨h1, ⟨n, h2⟩, h3⟩
  · have hm := KeyedMap.mem_of_lookup hc
    have hs := hwf.2 _ hm
    rw [setDynamicFields_of_stamped hs]
    exact ⟨hs, Or.inl hm⟩
  · refine ⟨stamped_setDynamicFields (by rw [h3]; exact hkey) (by rw [h3]; exact hdoc),
      Or.inr (Or.inl ⟨?_, ?_⟩)⟩
    · simp only [newRevision]
      exact List.mem_map.2 ⟨o1, h4, rfl⟩
    · rw [h3]; rfl
  · refine ⟨stamped_setDynamicFields (by rw [h2]; exact hkey) (by rw [h2]; exact hdoc),
      Or.inr (Or.inr ⟨?_, ?_⟩)⟩
    · simp only [newRevision]
      exact List.mem_map.2 ⟨o1, h3, rfl⟩
    · rw [h2]; rfl

theorem newRevision_wf {rev : String} {cur : Revision} {files : GoMap}
    {uuids : Nat → UID} (hv : ValidFiles files) (hwf : cur.WF) :
    (newRevision rev cur files uuids).WF := by
  refine ⟨?_, ?_⟩
  · rw [newRevision_keys rev cur files uuids hv]
    exact hv.1
  · rintro ⟨k, o⟩ h
    exact (newRevision_entry hv hwf h).1

theorem newRevision_linked {rev : String} {cur : Revision} {files : GoMap}
    {uuids : Nat → UID} (hv : ValidFiles files) (hwf : cur.WF) :
    Linked cur (newRevision rev cur files uuids) := by
  have hli := loopInv_foldl rev cur uuids files hv.1
  have hkeys := newRevision_keys rev cur files uuids hv
  refine ⟨?_, ?_, ?_, ?_, ?_, ?_, ?_⟩
  · simp only [newRevision]
    rw [map_setDynamicFields_keys]
    have hsub := hli.add_sub
    rw [validFiles_keys hv] at hsub
    exact hv.1.sublist hsub
  · simp only [newRevision]
    rw [map_setDynamicFields_keys]
    have hsub := hli.modified_sub
    rw [validFiles_keys hv] at hsub
    exact hv.1.sublist hsub
  · simp only [newRevision, List.map_map]
    have hcongr : List.map (Object.toObjectKey ∘ Prod.snd)
        (cur.data.filter fun entry => (files.lookup entry.1).isNone) =
        List.map Prod.fst (cur.data.filter fun entry => (files.lookup entry.1).isNone) := by
      apply List.map_congr_left
      intro e he
      exact (hwf.2 e (List.mem_of_mem_filter he)).1
    rw [hcongr]
    exact hwf.1.sublist ((List.filter_sublist _).map _)
  · intro o ho
    simp only [newRevision, List.mem_map] at ho
    obtain ⟨o1, ho1, rfl⟩ := ho
    obtain ⟨k, obj, n, hmem, hnone, heq, hdata⟩ := hli.add_spec o1 ho1
    have hk : (setDynamicFields o1).toObjectKey = k := by
      rw [setDynamicFields_toObjectKey, heq]
      exact (hv.2 _ hmem).1
    rw [hk]
    refine ⟨KeyedMap.lookup_eq_none_iff.1 hnone, ?_⟩
    simp only [newRevision]
    exact List.mem_map.2 ⟨(k, o1), hdata, rfl⟩
  · intro o ho
    simp only [newRevision, List.mem_map] at ho
    obtain ⟨o1, ho1, rfl⟩ := ho
    obtain ⟨k, obj, old, hmem, hsome, hne, heq, hdata⟩ := hli.modified_spec o1 ho1
    have hk : (setDynamicFields o1).toObjectKey = k := by
      rw [setDynamicFields_toObjectKey, heq]
      exact (hv.2 _ hmem).1
    rw [hk]
    refine ⟨?_, old, KeyedMap.mem_of_lookup hsome, ?_, ?_⟩
    · simp only [newRevision]
      exact List.mem_map.2 ⟨(k, o1), hdata, rfl⟩
    · rw [heq]; exact hne
    · rw [heq]; rfl
  · intro o
    rw [hkeys]
    simp only [newRevision, List.mem_map, List.mem_filter, Option.isNone_iff_eq_none]
    constructor
    · rintro ⟨⟨k, o'⟩, ⟨hmem, hnone⟩, rfl⟩
      have hk := (hwf.2 _ hmem).1
      simp only at hk hnone ⊢
      rw [hk]
      exact ⟨hmem, KeyedMap.lookup_eq_none_iff.1 hnone⟩
    · rintro ⟨hmem, hnot⟩
      exact ⟨(o.toObjectKey, o), ⟨hmem, KeyedMap.lookup_eq_none_iff.2 hnot⟩, rfl⟩
  · rintro ⟨k, o⟩ h
    rcases (newRevision_entry hv hwf h).2 with h1 | h1 | h1
    · exact Or.inr (Or.inr h1)
    · exact Or.inr (Or.inl h1.1)
    · exact Or.inl h1.1

theorem newRevision_docs {rev : String} {cur : Revision} {files : GoMap}
    {uuids : Nat → UID} (hv : ValidFiles files) (hwf : cur.WF) :
    (files.foldl (commitStep rev cur uuids) {}).data.all
      (fun entry => entry.2.Object.isSome) = true := by
  rw [List.all_eq_true]
  rintro ⟨k, o⟩ hmem
  have hin : (k, setDynamicFields o) ∈ (newRevision rev cur files uuids).data := by
    simp only [newRevision]
    exact List.mem_map.2 ⟨(k, o), hmem, rfl⟩
  obtain ⟨_, u, hu, _⟩ := (newRevision_entry hv hwf hin).1
  cases hdoc : o.Object with
  | none => simp [setDynamicFields, hdoc] at hu
  | some d => rfl

/-! ## The invariant holds in every reachable store -/

theorem revision_empty_wf : Revision.WF {} := by
  refine ⟨by simp [KeyedMap.keys], ?_⟩
  intro e he
  simp at he

theorem linked_empty : Linked {} {} where
  add_nodup := by simp
  modified_nodup := by simp
  deleted_nodup := by simp
  add_spec := by intro o ho; simp at ho
  modified_spec := by intro o ho; simp at ho
  deleted_spec := by intro o; simp
  data_spec := by intro e he; simp at he

theorem inv_new (url branch subDir : String) : Inv (New url branch subDir) where
  sentinels := ⟨[], rfl⟩
  wf := by
    intro r hr
    simp only [New, List.mem_cons, List.mem_singleton, List.mem_nil_iff, or_false,
      or_self] at hr
    subst hr
    exact revision_empty_wf
  linked := by
    simp only [New, List.chain'_cons, List.chain'_singleton, and_true]
    exact linked_empty

theorem inv_getLast {s : Store} (hinv : Inv s) :
    ∃ cur, s.revisions.getLast? = some cur ∧ cur ∈ s.revisions := by
  obtain ⟨rest, hrest⟩ := hinv.sentinels
  cases hlast : s.revisions.getLast? with
  | none =>
    rw [List.getLast?_eq_none_iff] at hlast
    rw [hlast] at hrest
    simp at hrest
  | some cur => exact ⟨cur, rfl, List.mem_of_getLast?_eq_some hlast⟩

theorem commit_cases {s s' : Store} {commit : String} {files : GoMap} {uuids : Nat → UID}
    (hinv : Inv s) (hv : ValidFiles files) (h : s.commit commit files uuids = some s') :
    ∃ cur, s.revisions.getLast? = some cur ∧ cur.WF ∧
      (s' = { s with currentCommit := commit } ∨
       s' = { s with
          revisions :=
            s.revisions ++ [newRevision (toString s.revisions.length) cur files uuids],
          currentCommit := commit }) := by
  obtain ⟨cur, hcur, hmem⟩ := inv_getLast hinv
  have hwf := hinv.wf cur hmem
  refine ⟨cur, hcur, hwf, ?_⟩
  rw [commit_eq, hcur] at h
  simp only [newRevision_docs hv hwf, if_true] at h
  split at h
  · left
    exact (Option.some.inj h).symm
  · right
    exact (Option.some.inj h).symm

theorem commit_isSome {s : Store} (commit : String) {files : GoMap} (uuids : Nat → UID)
    (hinv : Inv s) (hv : ValidFiles files) :
    ∃ s', s.commit commit files uuids = some s' := by
  obtain ⟨cur, hcur, hmem⟩ := inv_getLast hinv
  have hwf := hinv.wf cur hmem
  rw [commit_eq, hcur]
  simp only [newRevision_docs hv hwf, if_true]
  split
  · exact ⟨_, rfl⟩
  · exact ⟨_, rfl⟩

theorem inv_commit {s s' : Store} {commit : String} {files : GoMap} {uuids : Nat → UID}
    (hinv : Inv s) (hv : ValidFiles files) (h : s.commit commit files uuids = some s') :
    Inv s' := by
  obtain ⟨cur, hcur, hwf, hs | hs⟩ := commit_cases hinv hv h
  · subst hs
    exact ⟨hinv.sentinels, hinv.wf, hinv.linked⟩
  · subst hs
    refine ⟨?_, ?_, ?_⟩
    · obtain ⟨rest, hrest⟩ := hinv.sentinels
      exact ⟨rest ++ [newRevision (toString s.revisions.length) cur files uuids], by
        simp [hrest]⟩
    · intro r hr
      rcases List.mem_append.1 hr with hr | hr
      · exact hinv.wf r hr
      · simp only [List.mem_singleton] at hr
        subst hr
        exact newRevision_wf hv hwf
    · simp only
      rw [List.chain'_append]
      refine ⟨hinv.linked, List.chain'_singleton _, ?_⟩
      intro x hx y hy
      rw [hcur] at hx
      simp only [Option.mem_def, Option.some.injEq, List.head?_cons] at hx hy
      subst hx hy
      exact newRevision_linked hv hwf

theorem relisted_empty {r : Revision} (h : Revision.Relisted {} r) : r = {} := by
  obtain ⟨h1, h2, h3, h4⟩ := h
  obtain ⟨d, a, dl, m⟩ := r
  simp only at h1 h2 h3 h4
  have hd : d = [] := List.Perm.eq_nil h1
  subst hd h2 h3 h4
  rfl

theorem relisted_wf {r r' : Revision} (h : Revision.Relisted r r') (hwf : r.WF) :
    r'.WF := by
  obtain ⟨h1, -, -, -⟩ := h
  refine ⟨?_, ?_⟩
  · exact ((h1.map Prod.fst).nodup_iff).2 hwf.1
  · intro e he
    exact hwf.2 e (h1.mem_iff.1 he)

theorem relisted_linked {a a' b b' : Revision} (ha : Revision.Relisted a a')
    (hb : Revision.Relisted b b') (h : Linked a b) : Linked a' b' := by
  obtain ⟨ha1, -, -, -⟩ := ha
  obtain ⟨hb1, hb2, hb3, hb4⟩ := hb
  have hak : ∀ k, k ∈ KeyedMap.keys a'.data ↔ k ∈ KeyedMap.keys a.data :=
    fun k => (ha1.map Prod.fst).mem_iff
  have hbk : ∀ k, k ∈ KeyedMap.keys b'.data ↔ k ∈ KeyedMap.keys b.data :=
    fun k => (hb1.map Prod.fst).mem_iff
  refine ⟨?_, ?_, ?_, ?_, ?_, ?_, ?_⟩
  · rw [hb2]; exact h.add_nodup
  · rw [hb4]; exact h.modified_nodup
  · rw [hb3]; exact h.deleted_nodup
  · intro o ho
    rw [hb2] at ho
    obtain ⟨h1, h2⟩ := h.add_spec o ho
    exact ⟨fun hc => h1 ((hak _).1 hc), hb1.mem_iff.2 h2⟩
  · intro o ho
    rw [hb4] at ho
    obtain ⟨h1, old, h2, h3⟩ := h.modified_spec o ho
    exact ⟨hb1.mem_iff.2 h1, old, ha1.mem_iff.2 h2, h3⟩
  · intro o
    rw [hb3, h.deleted_spec o, ha1.mem_iff, hbk]
  · intro e he
    rw [hb2, hb4]
    rcases h.data_spec e (hb1.mem_iff.1 he) with h1 | h1 | h1
    · exact Or.inl h1
    · exact Or.inr (Or.inl h1)
    · exact Or.inr (Or.inr (ha1.mem_iff.2 h1))

theorem chain'_of_forall₂ {α : Type} {R S : α → α → Prop}
    (hRS : ∀ a b a' b', S a a' → S b b' → R a b → R a' b') {l l' : List α}
    (h : List.Forall₂ S l l') (hc : List.Chain' R l) : List.Chain' R l' := by
  induction h with
  | nil => exact List.chain'_nil
  | cons hab hrest ih =>
    cases hrest with
    | nil => exact List.chain'_singleton _
    | cons hab' hrest' =>
      rw [List.chain'_cons] at hc ⊢
      exact ⟨hRS _ _ _ _ hab hab' hc.1, ih hc.2⟩

theorem exists_of_forall₂_right {α : Type} {S : α → α → Prop} {l l' : List α}
    (h : List.Forall₂ S l l') {b : α} (hb : b ∈ l') : ∃ a, a ∈ l ∧ S a b := by
  induction h with
  | nil => simp at hb
  | cons hab _ ih =>
    rcases List.mem_cons.1 hb with hb | hb
    · subst hb
      exact ⟨_, List.mem_cons_self _ _, hab⟩
    · obtain ⟨a, ha, hs⟩ := ih hb
      exact ⟨a, List.mem_cons_of_mem _ ha, hs⟩

theorem inv_relist {s : Store} {revisions : List Revision} (hinv : Inv s)
    (h : List.Forall₂ Revision.Relisted s.revisions revisions) :
    Inv { s with revisions := revisions } := by
  refine ⟨?_, ?_, ?_⟩
  · obtain ⟨rest, hrest⟩ := hinv.sentinels
    rw [hrest] at h
    cases h with
    | cons h0 h' =>
      cases h' with
      | cons h1 h'' =>
        rw [relisted_empty h0, relisted_empty h1]
        exact ⟨_, rfl⟩
  · intro r' hr'
    obtain ⟨r, hr, hrel⟩ := exists_of_forall₂_right h hr'
    exact relisted_wf hrel (hinv.wf r hr)
  · exact chain'_of_forall₂
      (fun a b a' b' (ha : Revision.Relisted a a') (hb : Revision.Relisted b b')
        (hl : Linked a b) => relisted_linked ha hb hl) h hinv.linked

theorem reachable_inv {s : Store} (h : Reachable s) : Inv s := by
  induction h with
  | new url branch subDir => exact inv_new url branch subDir
  | commit commit files uuids _ hv hc ih => exact inv_commit ih hv hc
  | close _ ih => exact ⟨ih.sentinels, ih.wf, ih.linked⟩
  | relist revisions _ hrel ih => exact inv_relist ih hrel

/-! ## The sample history is reachable -/

theorem scanWeb_valid : ValidFiles scanWeb := by
  refine ⟨by simp [scanWeb, KeyedMap.keys], ?_⟩
  intro e he
  simp only [scanWeb, List.mem_singleton] at he
  subst he
  exact ⟨rfl, _, rfl, rfl⟩

theorem scanDb_valid : ValidFiles scanDb := by
  refine ⟨by simp [scanDb, KeyedMap.keys], ?_⟩
  intro e he
  simp only [scanDb, List.mem_singleton] at he
  subst he
  exact ⟨rfl, _, rfl, rfl⟩

theorem scanNone_valid : ValidFiles scanNone := by
  refine ⟨by simp [scanNone, KeyedMap.keys], ?_⟩
  intro e he
  simp [scanNone] at he

theorem storeZero_commit : storeZero.commit "c1" scanWeb uuidsOne = some storeOne := by
  rfl

theorem storeOne_commit : storeOne.commit "c2" scanDb uuidsTwo = some storeTwo := by
  rfl

theorem storeTwo_commit : storeTwo.commit "c3" scanNone uuidsTwo = some storeThree := by
  rfl

theorem storeThree_commit : storeThree.commit "c4" scanWeb uuidsTwo = some storeFour := by
  rfl

theorem storeZero_reachable : Reachable storeZero := Reachable.new "url" "main" "cfg"

theorem storeOne_reachable : Reachable storeOne :=
  Reachable.commit "c1" scanWeb uuidsOne storeZero_reachable scanWeb_valid storeZero_commit

theorem storeTwo_reachable : Reachable storeTwo :=
  Reachable.commit "c2" scanDb uuidsTwo storeOne_reachable scanDb_valid storeOne_commit

theorem storeThree_reachable : Reachable storeThree :=
  Reachable.commit "c3" scanNone uuidsTwo storeTwo_reachable scanNone_valid storeTwo_commit

theorem storeFour_reachable : Reachable storeFour :=
  Reachable.commit "c4" scanWeb uuidsTwo storeThree_reachable scanWeb_valid
    storeThree_commit

/-! ## Claims about one commit and about the log -/

theorem commit_appended {s s' : Store} {commit : String} {files : GoMap}
    {uuids : Nat → UID} {prev new : Revision} (hinv : Inv s) (hv : ValidFiles files)
    (hc : s.commit commit files uuids = some s')
    (hprev : s.revisions.getLast? = some prev)
    (happ : s'.revisions = s.revisions ++ [new]) :
    new = newRevision (toString s.revisions.length) prev files uuids ∧ prev.WF := by
  obtain ⟨cur, hcur, hwf, hs | hs⟩ := commit_cases hinv hv hc
  · subst hs
    have hlen := congrArg List.length happ
    simp at hlen
  · subst hs
    rw [hprev] at hcur
    injection hcur with hcur
    subst hcur
    simp only [List.append_cancel_left_eq, List.cons.injEq, and_true] at happ
    exact ⟨happ.symm, hwf⟩

theorem chain'_get? {α : Type} {R : α → α → Prop} {l : List α} (h : List.Chain' R l)
    {i : Nat} {a b : α} (ha : l.get? i = some a) (hb : l.get? (i + 1) = some b) :
    R a b := by
  induction l generalizing i with
  | nil => simp at ha
  | cons x rest ih =>
    cases rest with
    | nil => simp at hb
    | cons y rest' =>
      rw [List.chain'_cons] at h
      cases i with
      | zero =>
        simp only [List.get?_cons_zero, Option.some.injEq, List.get?_cons_succ] at ha hb
        subst ha hb
        exact h.1
      | succ j =>
        simp only [List.get?_cons_succ] at ha hb
        exact ih h.2 ha (by simpa using hb)

/-- C1 (content-version linkage). When a commit on a reachable store appends a revision
at index `n` (the length of the log before), every object of the new revision's data
either is the object the previous tail held under that key, with byte-equal content and
the same resourceVersion, or has the decimal string of `n` as its resourceVersion; and
the document of the object carries that resourceVersion. -/
theorem commit_content_version_linkage (s s' : Store) (commit : String) (files : GoMap)
    (uuids : Nat → UID) (prev new : Revision) (k : ObjectKey) (o : Object)
    (hs : Reachable s) (hv : ValidFiles files)
    (hc : s.commit commit files uuids = some s')
    (hprev : s.revisions.getLast? = some prev)
    (happ : s'.revisions = s.revisions ++ [new])
    (ho : (k, o) ∈ new.data) :
    ((∃ old, (k, old) ∈ prev.data ∧ old.Content = o.Content ∧
        o.ResourceVersion = old.ResourceVersion) ∨
      o.ResourceVersion = toString s.revisions.length) ∧
    ∃ u, o.Object = some u ∧ u.GetResourceVersion = o.ResourceVersion := by
  obtain ⟨hnew, hwf⟩ := commit_appended (reachable_inv hs) hv hc hprev happ
  subst hnew
  obtain ⟨hst, hcases⟩ := newRevision_entry hv hwf ho
  refine ⟨?_, ?_⟩
  · rcases hcases with h | h | h
    · exact Or.inl ⟨o, h, rfl, rfl⟩
    · exact Or.inr h.2
    · exact Or.inr h.2
  · obtain ⟨_, u, hu, _, _, hrv, _⟩ := hst
    exact ⟨u, hu, hrv⟩

/-- C1, an instance: the first commit of the sample history appends revision 2, whose
object has resourceVersion "2". -/
theorem commit_content_version_linkage_witness :
    Reachable storeZero ∧ ValidFiles scanWeb ∧
    storeZero.commit "c1" scanWeb uuidsOne = some storeOne ∧
    storeZero.revisions.getLast? = some {} ∧
    storeOne.revisions = storeZero.revisions ++ [revisionTwo] ∧
    (sampleKey "a", widgetWeb) ∈ revisionTwo.data ∧
    (((∃ old, (sampleKey "a", old) ∈ ({} : Revision).data ∧
          old.Content = widgetWeb.Content ∧
          widgetWeb.ResourceVersion = old.ResourceVersion) ∨
        widgetWeb.ResourceVersion = toString storeZero.revisions.length) ∧
      ∃ u, widgetWeb.Object = some u ∧
        u.GetResourceVersion = widgetWeb.ResourceVersion) :=
  ⟨storeZero_reachable, scanWeb_valid, storeZero_commit, rfl, rfl,
    List.mem_singleton.2 rfl,
    commit_content_version_linkage storeZero storeOne "c1" scanWeb uuidsOne {}
      revisionTwo (sampleKey "a") widgetWeb storeZero_reachable scanWeb_valid
      storeZero_commit rfl rfl (List.mem_singleton.2 rfl)⟩

/-- C2 (UID stability). In the log of a reachable store, an object whose key is in the
data of two consecutive revisions has the same UID in both, in the object and in its
document. -/
theorem uid_stability (s : Store) (i : Nat) (r r' : Revision) (k : ObjectKey)
    (o o' : Object) (hs : Reachable s) (hr : s.revisions.get? i = some r)
    (hr' : s.revisions.get? (i + 1) = some r') (ho : (k, o) ∈ r.data)
    (ho' : (k, o') ∈ r'.data) :
    o'.UID = o.UID ∧
      ∃ u u', o.Object = some u ∧ o'.Object = some u' ∧ u'.GetUID = u.GetUID := by
  have hinv := reachable_inv hs
  have hl : Linked r r' := chain'_get? hinv.linked hr hr'
  have hwf : r.WF := hinv.wf r (List.get?_mem hr)
  have hwf' : r'.WF := hinv.wf r' (List.get?_mem hr')
  have hst := hwf.2 _ ho
  have hst' := hwf'.2 _ ho'
  have huid : o'.UID = o.UID := by
    rcases hl.data_spec _ ho' with h | h | h
    · exfalso
      have hk := (hl.add_spec _ h).1
      rw [hst'.1] at hk
      exact hk (KeyedMap.mem_keys_of_mem ho)
    · obtain ⟨_, old, hold, _, huid⟩ := hl.modified_spec _ h
      rw [hst'.1] at hold
      have h1 := KeyedMap.lookup_of_mem hwf.1 hold
      have h2 := KeyedMap.lookup_of_mem hwf.1 ho
      rw [h1] at h2
      injection h2 with h2
      rw [huid, h2]
    · have h1 := KeyedMap.lookup_of_mem hwf.1 h
      have h2 := KeyedMap.lookup_of_mem hwf.1 ho
      rw [h1] at h2
      injection h2 with h2
      rw [h2]
  refine ⟨huid, ?_⟩
  obtain ⟨_, u, hu, _, _, _, hu3⟩ := hst
  obtain ⟨_, u', hu', _, _, _, hu3'⟩ := hst'
  exact ⟨u, u', hu, hu', by rw [hu3', hu3, huid]⟩

/-- C2, an instance: widget `a` keeps its UID from revision 2 to revision 3 of the sample
history, where it was modified. -/
theorem uid_stability_witness :
    Reachable storeTwo ∧ storeTwo.revisions.get? 2 = some revisionTwo ∧
    storeTwo.revisions.get? (2 + 1) = some revisionThree ∧
    (sampleKey "a", widgetWeb) ∈ revisionTwo.data ∧
    (sampleKey "a", widgetDb) ∈ revisionThree.data ∧
    (widgetDb.UID = widgetWeb.UID ∧
      ∃ u u', widgetWeb.Object = some u ∧ widgetDb.Object = some u' ∧
        u'.GetUID = u.GetUID) :=
  ⟨storeTwo_reachable, rfl, rfl, List.mem_singleton.2 rfl, List.mem_singleton.2 rfl,
    uid_stability storeTwo 2 revisionTwo revisionThree (sampleKey "a") widgetWeb widgetDb
      storeTwo_reachable rfl rfl (List.mem_singleton.2 rfl) (List.mem_singleton.2 rfl)⟩

/-- C3 (diff completeness). When a commit on a reachable store appends a revision on top
of the tail `prev`: no key of `add` or `modified` is a key of `deleted`; the keys of the
new data are exactly the keys of `add`, of `modified` and of the objects carried forward
unchanged from `prev`; and the keys of `deleted` are exactly the keys of `prev.data` that
are not keys of the new data. -/
theorem diff_completeness (s s' : Store) (commit : String) (files : GoMap)
    (uuids : Nat → UID) (prev new : Revision)
    (hs : Reachable s) (hv : ValidFiles files)
    (hc : s.commit commit files uuids = some s')
    (hprev : s.revisions.getLast? = some prev)
    (happ : s'.revisions = s.revisions ++ [new]) :
    (∀ o ∈ new.add ++ new.modified, ∀ d ∈ new.deleted,
        o.toObjectKey ≠ d.toObjectKey) ∧
    (∀ k, k ∈ KeyedMap.keys new.data ↔
        (k ∈ new.add.map Object.toObjectKey ∨ k ∈ new.modified.map Object.toObjectKey ∨
          ∃ o, (k, o) ∈ prev.data ∧ (k, o) ∈ new.data)) ∧
    (∀ k, k ∈ new.deleted.map Object.toObjectKey ↔
        (k ∈ KeyedMap.keys prev.data ∧ k ∉ KeyedMap.keys new.data)) := by
  obtain ⟨hnew, hwf⟩ := commit_appended (reachable_inv hs) hv hc hprev happ
  have hl : Linked prev new := by rw [hnew]; exact newRevision_linked hv hwf
  have hwf' : new.WF := by rw [hnew]; exact newRevision_wf hv hwf
  refine ⟨?_, ?_, ?_⟩
  · intro o ho d hd heq
    have hin : o.toObjectKey ∈ KeyedMap.keys new.data := by
      rcases List.mem_append.1 ho with h | h
      · exact KeyedMap.mem_keys_of_mem (hl.add_spec o h).2
      · exact KeyedMap.mem_keys_of_mem (hl.modified_spec o h).1
    rw [heq] at hin
    exact ((hl.deleted_spec d).1 hd).2 hin
  · intro k
    constructor
    · intro hk
      obtain ⟨o, ho⟩ := KeyedMap.exists_mem_of_mem_keys hk
      have hkey := (hwf'.2 _ ho).1
      simp only at hkey
      rcases hl.data_spec _ ho with h | h | h
      · exact Or.inl (List.mem_map.2 ⟨o, h, hkey⟩)
      · exact Or.inr (Or.inl (List.mem_map.2 ⟨o, h, hkey⟩))
      · exact Or.inr (Or.inr ⟨o, h, ho⟩)
    · rintro (h | h | ⟨o, _, h⟩)
      · obtain ⟨o, ho, rfl⟩ := List.mem_map.1 h
        exact KeyedMap.mem_keys_of_mem (hl.add_spec o ho).2
      · obtain ⟨o, ho, rfl⟩ := List.mem_map.1 h
        exact KeyedMap.mem_keys_of_mem (hl.modified_spec o ho).1
      · exact KeyedMap.mem_keys_of_mem h
  · intro k
    constructor
    · intro h
      obtain ⟨d, hd, rfl⟩ := List.mem_map.1 h
      obtain ⟨h1, h2⟩ := (hl.deleted_spec d).1 hd
      exact ⟨KeyedMap.mem_keys_of_mem h1, h2⟩
    · rintro ⟨h1, h2⟩
      obtain ⟨o, ho⟩ := KeyedMap.exists_mem_of_mem_keys h1
      have hkey := (hwf.2 _ ho).1
      simp only at hkey
      subst hkey
      exact List.mem_map.2 ⟨o, (hl.deleted_spec o).2 ⟨ho, h2⟩, rfl⟩

/-- C3, an instance: the commit of the sample history that removes widget `a`. -/
theorem diff_completeness_witness :
    Reachable storeTwo ∧ ValidFiles scanNone ∧
    storeTwo.commit "c3" scanNone uuidsTwo = some storeThree ∧
    storeTwo.revisions.getLast? = some revisionThree ∧
    storeThree.revisions = storeTwo.revisions ++ [revisionFour] ∧
    ((∀ o ∈ revisionFour.add ++ revisionFour.modified, ∀ d ∈ revisionFour.deleted,
        o.toObjectKey ≠ d.toObjectKey) ∧
    (∀ k, k ∈ KeyedMap.keys revisionFour.data ↔
        (k ∈ revisionFour.add.map Object.toObjectKey ∨
          k ∈ revisionFour.modified.map Object.toObjectKey ∨
          ∃ o, (k, o) ∈ revisionThree.data ∧ (k, o) ∈ revisionFour.data)) ∧
    (∀ k, k ∈ revisionFour.deleted.map Object.toObjectKey ↔
        (k ∈ KeyedMap.keys revisionThree.data ∧ k ∉ KeyedMap.keys revisionFour.data))) :=
  ⟨storeTwo_reachable, scanNone_valid, storeTwo_commit, rfl, rfl,
    diff_completeness storeTwo storeThree "c3" scanNone uuidsTwo revisionThree
      revisionFour storeTwo_reachable scanNone_valid storeTwo_commit rfl rfl⟩

/-- C4 (no-op elision). On a reachable store, when the scanned objects have exactly the
keys of the tail revision's data and byte-equal content on every key, `commit` returns
the same store with only `currentCommit` changed, to the scanned commit hash: the log is
unchanged. -/
theorem noop_elision (s : Store) (commit : String) (files : GoMap) (uuids : Nat → UID)
    (tail : Revision) (hs : Reachable s) (hv : ValidFiles files)
    (htail : s.revisions.getLast? = some tail)
    (hkeys : ∀ k, k ∈ KeyedMap.keys files ↔ k ∈ KeyedMap.keys tail.data)
    (hcontent : ∀ k obj old, (k, obj) ∈ files → (k, old) ∈ tail.data →
      obj.Content = old.Content) :
    s.commit commit files uuids = some { s with currentCommit := commit } := by
  have hinv := reachable_inv hs
  have hwf : tail.WF := hinv.wf tail (List.mem_of_getLast?_eq_some htail)
  have hli := loopInv_foldl (toString s.revisions.length) tail uuids files hv.1
  have hadd : (newRevision (toString s.revisions.length) tail files uuids).add = [] := by
    rw [List.eq_nil_iff_forall_not_mem]
    intro o ho
    simp only [newRevision, List.mem_map] at ho
    obtain ⟨o1, ho1, -⟩ := ho
    obtain ⟨k, obj, n, hmem, hnone, -, -⟩ := hli.add_spec o1 ho1
    exact (KeyedMap.lookup_eq_none_iff.1 hnone)
      ((hkeys k).1 (KeyedMap.mem_keys_of_mem hmem))
  have hmod :
      (newRevision (toString s.revisions.length) tail files uuids).modified = [] := by
    rw [List.eq_nil_iff_forall_not_mem]
    intro o ho
    simp only [newRevision, List.mem_map] at ho
    obtain ⟨o1, ho1, -⟩ := ho
    obtain ⟨k, obj, old, hmem, hsome, hne, -, -⟩ := hli.modified_spec o1 ho1
    exact hne (hcontent k obj old hmem (KeyedMap.mem_of_lookup hsome)).symm
  have hdel :
      (newRevision (toString s.revisions.length) tail files uuids).deleted = [] := by
    rw [List.eq_nil_iff_forall_not_mem]
    intro o ho
    simp only [newRevision, List.mem_map, List.mem_filter,
      Option.isNone_iff_eq_none] at ho
    obtain ⟨⟨k, o'⟩, ⟨hmem, hnone⟩, -⟩ := ho
    exact (KeyedMap.lookup_eq_none_iff.1 hnone)
      ((hkeys k).2 (KeyedMap.mem_keys_of_mem hmem))
  rw [commit_eq, htail]
  simp [newRevision_docs hv hwf, hadd, hmod, hdel]

/-- C4, an instance: scanning the unchanged file of widget `a` again changes only the
current commit of the sample store. -/
theorem noop_elision_witness :
    Reachable storeOne ∧ ValidFiles scanWeb ∧
    storeOne.revisions.getLast? = some revisionTwo ∧
    (∀ k, k ∈ KeyedMap.keys scanWeb ↔ k ∈ KeyedMap.keys revisionTwo.data) ∧
    (∀ k obj old, (k, obj) ∈ scanWeb → (k, old) ∈ revisionTwo.data →
      obj.Content = old.Content) ∧
    storeOne.commit "c9" scanWeb uuidsTwo =
      some { storeOne with currentCommit := "c9" } :=
  have hkeys : ∀ k, k ∈ KeyedMap.keys scanWeb ↔ k ∈ KeyedMap.keys revisionTwo.data :=
    fun _ => Iff.rfl
  have hcontent : ∀ k obj old, (k, obj) ∈ scanWeb → (k, old) ∈ revisionTwo.data →
      obj.Content = old.Content := by
    intro k obj old h1 h2
    simp only [scanWeb, revisionTwo, List.mem_singleton, Prod.mk.injEq] at h1 h2
    rw [h1.2, h2.2]
    rfl
  ⟨storeOne_reachable, scanWeb_valid, rfl, hkeys, hcontent,
    noop_elision storeOne "c9" scanWeb uuidsTwo revisionTwo storeOne_reachable
      scanWeb_valid rfl hkeys hcontent⟩

/-- C5 (append-only log). In a reachable store the log has at least two revisions and
revisions 0 and 1 are empty; a commit of scanned files returns a store whose log keeps
every existing revision at its index and is longer by at most one revision. -/
theorem append_only_log (s : Store) (commit : String) (files : GoMap) (uuids : Nat → UID)
    (hs : Reachable s) (hv : ValidFiles files) :
    2 ≤ s.revisions.length ∧
    s.revisions.get? 0 = some { data := [], add := [], deleted := [], modified := [] } ∧
    s.revisions.get? 1 = some { data := [], add := [], deleted := [], modified := [] } ∧
    ∃ s', s.commit commit files uuids = some s' ∧
      (∀ i r, s.revisions.get? i = some r → s'.revisions.get? i = some r) ∧
      s'.revisions.length ≤ s.revisions.length + 1 := by
  have hinv := reachable_inv hs
  obtain ⟨rest, hrest⟩ := hinv.sentinels
  refine ⟨by simp [hrest], by simp [hrest], by simp [hrest], ?_⟩
  obtain ⟨s', hc⟩ := commit_isSome commit uuids hinv hv
  refine ⟨s', hc, ?_⟩
  obtain ⟨cur, -, -, h | h⟩ := commit_cases hinv hv hc
  · subst h
    exact ⟨fun i r hr => hr, by simp⟩
  · subst h
    refine ⟨?_, by simp⟩
    intro i r hr
    have hi : i < s.revisions.length := by
      by_contra hcon
      rw [List.get?_eq_none.2 (by omega)] at hr
      simp at hr
    simp only [List.get?_eq_getElem?] at hr ⊢
    rw [List.getElem?_append_left hi]
    exact hr

/-- C5, an instance: the store that `New` returns, and its first commit. -/
theorem append_only_log_witness :
    Reachable storeZero ∧ ValidFiles scanWeb ∧
    (2 ≤ storeZero.revisions.length ∧
    storeZero.revisions.get? 0 =
      some { data := [], add := [], deleted := [], modified := [] } ∧
    storeZero.revisions.get? 1 =
      some { data := [], add := [], deleted := [], modified := [] } ∧
    ∃ s', storeZero.commit "c1" scanWeb uuidsOne = some s' ∧
      (∀ i r, storeZero.revisions.get? i = some r → s'.revisions.get? i = some r) ∧
      s'.revisions.length ≤ storeZero.revisions.length + 1) :=
  ⟨storeZero_reachable, scanWeb_valid,
    append_only_log storeZero "c1" scanWeb uuidsOne storeZero_reachable scanWeb_valid⟩

/-! ## The watch engine -/

/-- C8 (watch starting revision). `getRevision` returns 0 for the empty resourceVersion;
for a non-empty one that `strconv.Atoi` parses as `n`, it fails with BadRequest when
`n >= len(revisions)` and returns `n + 1` otherwise; for one that does not parse it
returns an error. -/
theorem getRevision_spec (s : Store) :
    s.getRevision "" = .ok 0 ∧
    (∀ rv n, rv ≠ "" → Atoi rv = some n → (s.revisions.length : Int) ≤ n →
      ∃ reason, s.getRevision rv = .error (Error.BadRequest reason)) ∧
    (∀ rv n, rv ≠ "" → Atoi rv = some n → n < (s.revisions.length : Int) →
      s.getRevision rv = .ok (n + 1)) ∧
    (∀ rv, rv ≠ "" → Atoi rv = none → ∃ err, s.getRevision rv = .error err) := by
  refine ⟨rfl, ?_, ?_, ?_⟩
  · intro rv n hrv hn hle
    refine ⟨"invalid resourceVersion " ++ rv, ?_⟩
    simp only [Store.getRevision, hrv, if_false, hn]
    rw [if_pos (by simpa using hle)]
  · intro rv n hrv hn hlt
    simp only [Store.getRevision, hrv, if_false, hn]
    rw [if_neg (by simpa using hlt)]
  · intro rv hrv hn
    exact ⟨Error.Other ("strconv.Atoi: parsing " ++ rv), by
      simp only [Store.getRevision, hrv, if_false, hn]⟩

/-- C8, instances on the three-revision sample store: "" starts at 0, "1" starts at 2,
"3" is a BadRequest, "x" is an error. -/
theorem getRevision_spec_witness :
    storeOne.getRevision "" = .ok 0 ∧
    storeOne.getRevision "1" = .ok (1 + 1) ∧
    (∃ reason, storeOne.getRevision "3" = .error (Error.BadRequest reason)) ∧
    (∃ err, storeOne.getRevision "x" = .error err) :=
  ⟨(getRevision_spec storeOne).1,
    (getRevision_spec storeOne).2.2.1 "1" 1 (by decide) (by decide) (by decide),
    (getRevision_spec storeOne).2.1 "3" 3 (by decide) (by decide) (by decide),
    (getRevision_spec storeOne).2.2.2 "x" (by decide) (by decide)⟩

theorem sendAll_eq {α : Type} (gvk : GroupVersionKind) (event : EventType)
    (convert : Unstructured → Except String α) (selector : Selector) (objs : List Object)
    (hdoc : ∀ o ∈ objs, ∃ u, o.Object = some u) :
    sendAll gvk event convert selector objs =
      some (eventsOf gvk selector convert event objs) := by
  induction objs with
  | nil => rfl
  | cons obj objs ih =>
    have ih' := ih fun o ho => hdoc o (List.mem_cons_of_mem _ ho)
    obtain ⟨u, hu⟩ := hdoc obj (List.mem_cons_self _ _)
    unfold sendAll
    by_cases hg : gvk.Group ≠ obj.Group ∨ gvk.Kind ≠ obj.Kind
    · rw [if_pos hg, ih']
      have hsel : selected gvk selector obj = false := by
        simp only [selected]
        rcases hg with h | h
        · simp [Ne.symm h]
        · simp [Ne.symm h]
      simp [eventsOf, List.filter_cons, hsel]
    · rw [if_neg hg]
      simp only [not_or, not_not] at hg
      simp only [hu]
      by_cases hm : selector.Matches u.GetLabels = true
      · have hsel : selected gvk selector obj = true := by
          simp [selected, hg.1.symm, hg.2.symm, hu, hm]
        rw [if_neg (by simp [hm]), ih']
        cases hc : convert u with
        | error err =>
          simp [eventsOf, List.filter_cons, hsel, hu, eventFor, hc]
        | ok ret =>
          simp [eventsOf, List.filter_cons, hsel, hu, eventFor, hc]
      · have hsel : selected gvk selector obj = false := by
          simp [selected, hu, hm]
        rw [if_pos hm, ih']
        simp [eventsOf, List.filter_cons, hsel]

theorem stamped_doc {k : ObjectKey} {o : Object} (h : Stamped k o) :
    ∃ u, o.Object = some u := by
  obtain ⟨_, u, hu, _⟩ := h
  exact ⟨u, hu⟩

theorem inv_pred {s : Store} (hinv : Inv s) {i : Nat} {r' : Revision}
    (hr' : s.revisions.get? (i + 1) = some r') :
    ∃ r, s.revisions.get? i = some r ∧ Linked r r' ∧ r.WF ∧ r'.WF := by
  have hlt : i + 1 < s.revisions.length := by
    by_contra hcon
    rw [List.get?_eq_none.2 (by omega)] at hr'
    simp at hr'
  have hr : s.revisions.get? i = some (s.revisions.get ⟨i, by omega⟩) :=
    List.get?_eq_get (by omega)
  exact ⟨_, hr, chain'_get? hinv.linked hr hr', hinv.wf _ (List.get?_mem hr),
    hinv.wf _ (List.get?_mem hr')⟩

theorem inv_documented {s : Store} (hinv : Inv s) {r : Revision} (hr : r ∈ s.revisions) :
    r.Documented := by
  obtain ⟨i, hi⟩ := List.get?_of_mem hr
  cases i with
  | zero =>
    obtain ⟨rest, hrest⟩ := hinv.sentinels
    rw [hrest] at hi
    simp only [List.get?_cons_zero, Option.some.injEq] at hi
    subst hi
    intro o ho
    simp at ho
  | succ j =>
    obtain ⟨r0, -, hl, hwf0, hwf⟩ := inv_pred hinv hi
    intro o ho
    simp only [List.mem_append] at ho
    rcases ho with (ho | ho) | ho
    · exact hwf.2 _ (hl.add_spec o ho).2
    · exact hwf.2 _ (hl.modified_spec o ho).1
    · exact hwf0.2 _ ((hl.deleted_spec o).1 ho).1

theorem readEventsLoop_eq {α : Type} (revisions : List Revision) (gvk : GroupVersionKind)
    (convert : Unstructured → Except String α) (selector : Selector)
    (hdoc : ∀ r ∈ revisions, r.Documented) (fuel rev : Nat)
    (hfuel : revisions.length - rev ≤ fuel) (hrev : rev ≤ revisions.length) :
    readEventsLoop revisions gvk convert selector fuel rev =
      some (((revisions.drop rev).map (revisionEvents gvk selector convert)).flatten,
        revisions.length) := by
  induction fuel generalizing rev with
  | zero =>
    have hlen : rev = revisions.length := by omega
    subst hlen
    simp [readEventsLoop]
  | succ fuel ih =>
    unfold readEventsLoop
    by_cases hlt : rev < revisions.length
    · have hget : revisions.get? rev = some revisions[rev] := by
        rw [List.get?_eq_getElem?, List.getElem?_eq_getElem hlt]
      have hd := hdoc _ (List.get?_mem hget)
      have hsome : ∀ o ∈ revisions[rev].add ++ revisions[rev].modified ++
          revisions[rev].deleted, ∃ u, o.Object = some u :=
        fun o ho => stamped_doc (hd o ho)
      rw [hget]
      simp only
      rw [sendAll_eq _ _ _ _ _ fun o ho =>
          hsome o (List.mem_append_left _ (List.mem_append_left _ ho)),
        sendAll_eq _ _ _ _ _ fun o ho =>
          hsome o (List.mem_append_left _ (List.mem_append_right _ ho)),
        sendAll_eq _ _ _ _ _ fun o ho => hsome o (List.mem_append_right _ ho),
        ih (rev + 1) (by omega) (by omega)]
      simp only
      rw [List.drop_eq_getElem_cons hlt]
      simp only [List.map_cons, List.flatten_cons, revisionEvents, List.append_assoc]
    · have hlen : rev = revisions.length := by omega
      subst hlen
      simp

theorem readEvents_eq {α : Type} (s : Store) (gvk : GroupVersionKind)
    (convert : Unstructured → Except String α) (selector : Selector) (rev : Nat)
    (hs : Reachable s) (hrev : rev ≤ s.revisions.length) :
    s.readEvents gvk convert (rev : Int) selector =
      some (((s.revisions.drop rev).map (revisionEvents gvk selector convert)).flatten,
        (s.revisions.length : Int)) := by
  have hinv := reachable_inv hs
  unfold Store.readEvents
  rw [if_neg (by omega)]
  simp only [Int.toNat_ofNat]
  rw [readEventsLoop_eq s.revisions gvk convert selector
    (fun r hr => inv_documented hinv hr) _ rev (le_refl _) hrev]
  rfl

/-- C9 (event emission order and filter). On a reachable store, `readEvents` started at a
cursor within the log returns; it has sent, for each revision from the cursor to the tail
in ascending order, the events of `add` as Added, then those of `modified` as Modified,
then those of `deleted` as Deleted, each list in its order and restricted to the objects
whose group and kind equal the watch's and whose labels match the selector (one event per
kept object: the converted document, or an Error event when it does not convert); and the
cursor it returns is `len(revisions)`. -/
theorem readEvents_spec {α : Type} (s : Store) (gvk : GroupVersionKind)
    (convert : Unstructured → Except String α) (selector : Selector) (rev : Nat)
    (hs : Reachable s) (hrev : rev ≤ s.revisions.length) :
    s.readEvents gvk convert (rev : Int) selector =
      some (((s.revisions.drop rev).map fun revision =>
          eventsOf gvk selector convert EventType.Added revision.add ++
          eventsOf gvk selector convert EventType.Modified revision.modified ++
          eventsOf gvk selector convert EventType.Deleted revision.deleted).flatten,
        (s.revisions.length : Int)) :=
  readEvents_eq s gvk convert selector rev hs hrev

/-- C9, an instance: a watcher of widgets reading the sample log from cursor 1 receives
Added for revision 2 and Modified for revision 3, and its cursor becomes 4. -/
theorem readEvents_spec_witness :
    Reachable storeTwo ∧ 1 ≤ storeTwo.revisions.length ∧
    storeTwo.readEvents widgetKind (fun u => Except.ok u) ((1 : Nat) : Int)
        selectorEverything =
      some (((storeTwo.revisions.drop 1).map fun revision =>
          eventsOf widgetKind selectorEverything (fun u => Except.ok u) EventType.Added
            revision.add ++
          eventsOf widgetKind selectorEverything (fun u => Except.ok u) EventType.Modified
            revision.modified ++
          eventsOf widgetKind selectorEverything (fun u => Except.ok u) EventType.Deleted
            revision.deleted).flatten,
        (storeTwo.revisions.length : Int)) :=
  ⟨storeTwo_reachable, by decide,
    readEvents_spec storeTwo widgetKind (fun u => Except.ok u) selectorEverything 1
      storeTwo_reachable (by decide)⟩

/-! ## Reads through the client -/

theorem store_get_find {s : Store} {tail : Revision} (gvk : GroupVersionKind)
    (namespace_ name : String) (htail : s.revisions.getLast? = some tail) :
    s.get gvk namespace_ name =
      some (match tail.data.find? fun entry =>
          decide (entry.1.Kind = gvk.Kind ∧ entry.1.Group = gvk.Group ∧
            entry.1.Namespace = namespace_ ∧ entry.1.Name = name) with
        | some entry => entry.2
        | none => Object.zero) := by
  unfold Store.get
  rw [htail]
  simp only
  split <;> rfl

theorem store_Get_ne_nil (s : Store) (gvk : GroupVersionKind) (namespace_ name : String) :
    s.Get gvk namespace_ name ≠ some ClientObject.nilInterface := by
  unfold Store.Get
  cases s.get gvk namespace_ name <;> simp

theorem client_get_never_not_found {α : Type} (s : Store)
    (objectKind gvk : GroupVersionKind) (schemeKind : Except Error GroupVersionKind)
    (namespace_ name : String) (obj : α)
    (convert : α → Option Unstructured → Except String α)
    (hgvk : GVK objectKind schemeKind = .ok gvk) (group resource missing : String) :
    Client.Get s objectKind schemeKind namespace_ name obj convert ≠
      some (.error (Error.NotFound group resource missing)) := by
  unfold Client.Get
  rw [hgvk]
  simp only
  have hne := store_Get_ne_nil s gvk namespace_ name
  cases hget : s.Get gvk namespace_ name with
  | none => simp
  | some ret =>
    cases ret with
    | nilInterface => exact absurd hget hne
    | unstructured pointer =>
      simp only
      cases convert obj pointer <;> simp

theorem client_get_present {α : Type} {s : Store} {tail : Revision} {o : Object}
    (gvk : GroupVersionKind) (schemeKind : Except Error GroupVersionKind)
    (namespace_ name : String) (obj : α)
    (convert : α → Option Unstructured → Except String α) (hs : Reachable s)
    (hkind : gvk.Kind ≠ "") (htrim : trimList gvk = gvk)
    (htail : s.revisions.getLast? = some tail)
    (ho : ({ Kind := gvk.Kind, Group := gvk.Group, Name := name,
             Namespace := namespace_ }, o) ∈ tail.data) :
    Client.Get s gvk schemeKind namespace_ name obj convert =
      some (match convert obj o.Object with
        | .ok filled => .ok filled
        | .error message => .error (Error.Other message)) := by
  have hinv := reachable_inv hs
  have hwf := hinv.wf tail (List.mem_of_getLast?_eq_some htail)
  have hfind : (tail.data.find? fun entry =>
      decide (entry.1.Kind = gvk.Kind ∧ entry.1.Group = gvk.Group ∧
        entry.1.Namespace = namespace_ ∧ entry.1.Name = name)) =
      some ({ Kind := gvk.Kind, Group := gvk.Group, Name := name,
              Namespace := namespace_ }, o) := by
    cases hf : tail.data.find? fun entry =>
      decide (entry.1.Kind = gvk.Kind ∧ entry.1.Group = gvk.Group ∧
        entry.1.Namespace = namespace_ ∧ entry.1.Name = name) with
    | none =>
      rw [List.find?_eq_none] at hf
      exact absurd (by simp) (hf _ ho)
    | some e =>
      have hp := List.find?_some hf
      have hm := List.mem_of_find?_eq_some hf
      obtain ⟨⟨kd, gp, nm, nsp⟩, v⟩ := e
      simp only [decide_eq_true_eq] at hp
      obtain ⟨h1, h2, h3, h4⟩ := hp
      subst h1 h2 h3 h4
      have h1 := KeyedMap.lookup_of_mem hwf.1 hm
      have h2 := KeyedMap.lookup_of_mem hwf.1 ho
      rw [h1] at h2
      injection h2 with h2
      rw [h2]
  unfold Client.Get GVK
  rw [if_pos hkind, htrim]
  simp only [Store.Get, store_get_find gvk namespace_ name htail, hfind, Option.map_some']
  cases convert obj o.Object <;> rfl

/-- C10, at the failing input: the store that `New` returns holds no object, and
`Client.Get` of widget `default/a` returns no error and leaves the caller's object as it
was. `Store.Get` returns an interface that holds a nil `*unstructured.Unstructured`, so
the test `ret == nil` is false and the NotFound branch is not taken. -/
theorem client_get_absent_key :
    storeZero.revisions.getLast? = some {} ∧
    storeZero.Get widgetKind "default" "a" = some (ClientObject.unstructured none) ∧
    Client.Get storeZero widgetKind (.ok widgetKind) "default" "a"
        ({ name := "caller" } : Unstructured) jsonInto =
      some (.ok { name := "caller" }) := by
  refine ⟨rfl, rfl, rfl⟩

/-! ## Replaying a watch stream -/

theorem KeyedMap.lookup_insert {α : Type} (m : KeyedMap α) (k k' : ObjectKey) (v : α) :
    (m.insert k v).lookup k' = if k = k' then some v else m.lookup k' := by
  induction m with
  | nil => simp [KeyedMap.insert, KeyedMap.lookup]
  | cons e rest ih =>
    obtain ⟨k0, v0⟩ := e
    by_cases h0 : k0 = k
    · subst h0
      simp only [KeyedMap.insert, if_true, KeyedMap.lookup]
      by_cases h1 : k0 = k'
      · simp [h1]
      · simp [h1]
    · simp only [KeyedMap.insert, h0, if_false, KeyedMap.lookup, ih]
      by_cases h1 : k0 = k'
      · subst h1
        have : ¬ k = k0 := fun h => h0 h.symm
        simp [this]
      · simp [h1]

theorem KeyedMap.lookup_erase {α : Type} (m : KeyedMap α) (k k' : ObjectKey) :
    (m.erase k).lookup k' = if k = k' then none else m.lookup k' := by
  induction m with
  | nil => simp [KeyedMap.erase, KeyedMap.lookup]
  | cons e rest ih =>
    obtain ⟨k0, v0⟩ := e
    simp only [KeyedMap.erase] at ih ⊢
    by_cases h0 : k0 = k
    · subst h0
      simp only [List.filter_cons, ne_eq, not_true_eq_false, decide_False, Bool.false_eq_true,
        if_false, ih, KeyedMap.lookup]
      by_cases h1 : k0 = k'
      · simp [h1]
      · simp [h1]
    · simp only [List.filter_cons, ne_eq, h0, not_false_eq_true, decide_True, if_true,
        KeyedMap.lookup, ih]
      by_cases h1 : k0 = k'
      · subst h1
        have : ¬ k = k0 := fun h => h0 h.symm
        simp [this]
      · simp [h1]

theorem KeyedMap.keys_insert_nodup {α : Type} (m : KeyedMap α) (k : ObjectKey) (v : α)
    (h : m.keys.Nodup) : (m.insert k v).keys.Nodup := by
  by_cases hk : k ∈ m.keys
  · have hkeys : (m.insert k v).keys = m.keys := by
      clear h
      induction m with
      | nil => simp [KeyedMap.keys] at hk
      | cons e rest ih =>
        obtain ⟨k0, v0⟩ := e
        by_cases h0 : k0 = k
        · subst h0
          simp [KeyedMap.insert, KeyedMap.keys]
        · have hk' : k ∈ KeyedMap.keys rest := by
            simp only [KeyedMap.keys, List.map_cons, List.mem_cons] at hk
            rcases hk with hk | hk
            · exact absurd hk.symm h0
            · exact hk
          have ih' := ih hk'
          simp only [KeyedMap.keys] at ih' ⊢
          simp [KeyedMap.insert, h0, ih']
    rw [hkeys]
    exact h
  · rw [KeyedMap.insert_of_not_mem v hk]
    simp only [KeyedMap.keys, List.map_append, List.map_cons, List.map_nil]
    rw [List.nodup_append]
    refine ⟨h, by simp, ?_⟩
    intro x hx hx'
    simp only [List.mem_singleton] at hx'
    subst hx'
    exact hk hx

theorem KeyedMap.keys_erase_nodup {α : Type} (m : KeyedMap α) (k : ObjectKey)
    (h : m.keys.Nodup) : (m.erase k).keys.Nodup :=
  h.sublist ((List.filter_sublist _).map _)

theorem KeyedMap.mem_iff_lookup {α : Type} {m : KeyedMap α} (h : m.keys.Nodup)
    (k : ObjectKey) (v : α) : (k, v) ∈ m ↔ m.lookup k = some v :=
  ⟨KeyedMap.lookup_of_mem h, KeyedMap.mem_of_lookup⟩

theorem lookup_applyEvent {α : Type} (keyOf : α → ObjectKey) (m : KeyedMap α)
    (event : EventType) (a : α) (k : ObjectKey) :
    (applyEvent keyOf m { type := event, object := EventObject.converted a }).lookup k =
      if keyOf a = k then applied event a (m.lookup k) else m.lookup k := by
  cases event
  · simp only [applyEvent, KeyedMap.lookup_insert, applied]
  · simp only [applyEvent, KeyedMap.lookup_insert, applied]
  · simp only [applyEvent, KeyedMap.lookup_erase, applied]
  · simp [applyEvent, applied]

theorem applyEvent_nodup {α : Type} (keyOf : α → ObjectKey) (m : KeyedMap α) (e : Event α)
    (h : m.keys.Nodup) : (applyEvent keyOf m e).keys.Nodup := by
  obtain ⟨t, obj⟩ := e
  cases obj with
  | errStatus msg => cases t <;> exact h
  | converted a =>
    cases t
    · exact KeyedMap.keys_insert_nodup m _ a h
    · exact KeyedMap.keys_insert_nodup m _ a h
    · exact KeyedMap.keys_erase_nodup m _ h
    · exact h

theorem foldl_applyEvent_nodup {α : Type} (keyOf : α → ObjectKey) (es : List (Event α))
    (m : KeyedMap α) (h : m.keys.Nodup) :
    (es.foldl (applyEvent keyOf) m).keys.Nodup := by
  induction es generalizing m with
  | nil => exact h
  | cons e es ih => exact ih _ (applyEvent_nodup keyOf m e h)

theorem eventsOf_cons {α : Type} (gvk : GroupVersionKind) (selector : Selector)
    (decode : Unstructured → α) (event : EventType) (o : Object) (objs : List Object) :
    eventsOf gvk selector (fun u => Except.ok (decode u)) event (o :: objs) =
      (if selected gvk selector o then
          match o.Object with
          | some u => [{ type := event, object := EventObject.converted (decode u) }]
          | none => []
        else []) ++
        eventsOf gvk selector (fun u => Except.ok (decode u)) event objs := by
  unfold eventsOf
  by_cases hsel : selected gvk selector o = true
  · cases hu : o.Object with
    | none => simp [List.filter_cons, hsel, hu]
    | some u => simp [List.filter_cons, hsel, hu, eventFor]
  · simp [List.filter_cons, hsel]

theorem segment_untouched {α : Type} (gvk : GroupVersionKind) (selector : Selector)
    (decode : Unstructured → α) (keyOf : α → ObjectKey)
    (hkey : ∀ u, keyOf (decode u) = u.key) (event : EventType) (k : ObjectKey)
    (objs : List Object) (m : KeyedMap α)
    (hst : ∀ o ∈ objs, Stamped o.toObjectKey o)
    (hne : ∀ o ∈ objs, selected gvk selector o = true → o.toObjectKey ≠ k) :
    ((eventsOf gvk selector (fun u => Except.ok (decode u)) event objs).foldl
      (applyEvent keyOf) m).lookup k = m.lookup k := by
  induction objs generalizing m with
  | nil => rfl
  | cons o objs ih =>
    have ih' := fun m => ih m (fun o' ho' => hst o' (List.mem_cons_of_mem _ ho'))
      (fun o' ho' => hne o' (List.mem_cons_of_mem _ ho'))
    rw [eventsOf_cons, List.foldl_append, ih']
    by_cases hsel : selected gvk selector o = true
    · obtain ⟨_, u, hu, hku, _⟩ := hst o (List.mem_cons_self _ _)
      have hk := hne o (List.mem_cons_self _ _) hsel
      simp only [hsel, if_true, hu, List.foldl_cons, List.foldl_nil]
      rw [lookup_applyEvent, if_neg]
      rw [hkey, hku]
      exact hk
    · simp [hsel]

theorem segment_touched {α : Type} (gvk : GroupVersionKind) (selector : Selector)
    (decode : Unstructured → α) (keyOf : α → ObjectKey)
    (hkey : ∀ u, keyOf (decode u) = u.key) (event : EventType) (objs : List Object)
    (m : KeyedMap α) (o : Object) (u : Unstructured)
    (hst : ∀ o ∈ objs, Stamped o.toObjectKey o)
    (hnd : (objs.map Object.toObjectKey).Nodup) (ho : o ∈ objs)
    (hsel : selected gvk selector o = true) (hu : o.Object = some u) :
    ((eventsOf gvk selector (fun u => Except.ok (decode u)) event objs).foldl
      (applyEvent keyOf) m).lookup o.toObjectKey =
      applied event (decode u) (m.lookup o.toObjectKey) := by
  induction objs generalizing m with
  | nil => simp at ho
  | cons o' objs ih =>
    simp only [List.map_cons, List.nodup_cons] at hnd
    have hst' : ∀ x ∈ objs, Stamped x.toObjectKey x :=
      fun x hx => hst x (List.mem_cons_of_mem _ hx)
    rw [eventsOf_cons, List.foldl_append]
    rcases List.mem_cons.1 ho with heq | hmem
    · subst heq
      rw [segment_untouched gvk selector decode keyOf hkey event _ objs _ hst']
      · obtain ⟨_, u', hu', hku, _⟩ := hst o (List.mem_cons_self _ _)
        rw [hu] at hu'
        injection hu' with hu'
        subst hu'
        simp only [hsel, if_true, hu, List.foldl_cons, List.foldl_nil]
        rw [lookup_applyEvent, if_pos]
        rw [hkey, hku]
      · intro x hx _ hxk
        exact hnd.1 (List.mem_map.2 ⟨x, hx, hxk⟩)
    · rw [ih _ hst' hnd.2 hmem]
      have hne : o'.toObjectKey ≠ o.toObjectKey := by
        intro hk
        exact hnd.1 (List.mem_map.2 ⟨o, hmem, hk.symm⟩)
      by_cases hsel' : selected gvk selector o' = true
      · obtain ⟨_, u', hu', hku, _⟩ := hst o' (List.mem_cons_self _ _)
        simp only [hsel', if_true, hu', List.foldl_cons, List.foldl_nil]
        rw [lookup_applyEvent, if_neg]
        rw [hkey, hku]
        exact hne
      · simp [hsel']

theorem replay_step {α : Type} (gvk : GroupVersionKind) (selector : Selector)
    (decode : Unstructured → α) (keyOf : α → ObjectKey)
    (hkey : ∀ u, keyOf (decode u) = u.key) {r r' : Revision}
    (h : WatchStep gvk selector r r') (m : KeyedMap α)
    (hm : ∀ k, m.lookup k = viewOf gvk selector decode r.data k) (k : ObjectKey) :
    ((revisionEvents gvk selector (fun u => Except.ok (decode u)) r').foldl
      (applyEvent keyOf) m).lookup k = viewOf gvk selector decode r'.data k := by
  obtain ⟨hl, hwf, hwf', hstab⟩ := h
  have hstA : ∀ o ∈ r'.add, Stamped o.toObjectKey o :=
    fun o ho => hwf'.2 _ (hl.add_spec o ho).2
  have hstM : ∀ o ∈ r'.modified, Stamped o.toObjectKey o :=
    fun o ho => hwf'.2 _ (hl.modified_spec o ho).1
  have hstD : ∀ o ∈ r'.deleted, Stamped o.toObjectKey o :=
    fun o ho => hwf.2 _ ((hl.deleted_spec o).1 ho).1
  have hA : ∀ o ∈ r'.add, o.toObjectKey = k →
      r'.data.lookup k = some o ∧ r.data.lookup k = none := by
    intro o ho hk
    obtain ⟨h1, h2⟩ := hl.add_spec o ho
    rw [hk] at h1 h2
    exact ⟨KeyedMap.lookup_of_mem hwf'.1 h2, KeyedMap.lookup_eq_none_iff.2 h1⟩
  have hM : ∀ o ∈ r'.modified, o.toObjectKey = k →
      r'.data.lookup k = some o ∧
        ∃ old, r.data.lookup k = some old ∧
          selected gvk selector o = selected gvk selector old := by
    intro o ho hk
    obtain ⟨h1, old, h2, _⟩ := hl.modified_spec o ho
    have h3 := hstab o ho old h2
    rw [hk] at h1 h2
    exact ⟨KeyedMap.lookup_of_mem hwf'.1 h1, old, KeyedMap.lookup_of_mem hwf.1 h2, h3⟩
  have hD : ∀ o ∈ r'.deleted, o.toObjectKey = k →
      r.data.lookup k = some o ∧ r'.data.lookup k = none := by
    intro o ho hk
    obtain ⟨h1, h2⟩ := (hl.deleted_spec o).1 ho
    rw [hk] at h1 h2
    exact ⟨KeyedMap.lookup_of_mem hwf.1 h1, KeyedMap.lookup_eq_none_iff.2 h2⟩
  have untA := fun (hne : ∀ o ∈ r'.add, selected gvk selector o = true →
      o.toObjectKey ≠ k) (m : KeyedMap α) =>
    segment_untouched gvk selector decode keyOf hkey EventType.Added k r'.add m hstA hne
  have untM := fun (hne : ∀ o ∈ r'.modified, selected gvk selector o = true →
      o.toObjectKey ≠ k) (m : KeyedMap α) =>
    segment_untouched gvk selector decode keyOf hkey EventType.Modified k r'.modified m
      hstM hne
  have untD := fun (hne : ∀ o ∈ r'.deleted, selected gvk selector o = true →
      o.toObjectKey ≠ k) (m : KeyedMap α) =>
    segment_untouched gvk selector decode keyOf hkey EventType.Deleted k r'.deleted m
      hstD hne
  simp only [revisionEvents, List.foldl_append]
  cases hlk' : r'.data.lookup k with
  | none =>
    have hview : viewOf gvk selector decode r'.data k = none := by simp [viewOf, hlk']
    rw [hview]
    have hneA : ∀ o ∈ r'.add, selected gvk selector o = true → o.toObjectKey ≠ k := by
      intro o ho _ hk
      rw [(hA o ho hk).1] at hlk'
      simp at hlk'
    have hneM : ∀ o ∈ r'.modified, selected gvk selector o = true →
        o.toObjectKey ≠ k := by
      intro o ho _ hk
      rw [(hM o ho hk).1] at hlk'
      simp at hlk'
    cases hlk : r.data.lookup k with
    | none =>
      rw [untD, untM hneM, untA hneA, hm]
      · simp [viewOf, hlk]
      · intro o ho _ hk
        rw [(hD o ho hk).1] at hlk
        simp at hlk
    | some old =>
      have hold := KeyedMap.mem_of_lookup hlk
      have holdk : old.toObjectKey = k := (hwf.2 _ hold).1
      have hdel : old ∈ r'.deleted := by
        rw [hl.deleted_spec, holdk]
        exact ⟨hold, KeyedMap.lookup_eq_none_iff.1 hlk'⟩
      by_cases hsel : selected gvk selector old = true
      · obtain ⟨u, hu⟩ := stamped_doc (hstD old hdel)
        have ht := segment_touched gvk selector decode keyOf hkey EventType.Deleted
          r'.deleted
          ((eventsOf gvk selector (fun u => Except.ok (decode u)) EventType.Modified
            r'.modified).foldl (applyEvent keyOf)
            ((eventsOf gvk selector (fun u => Except.ok (decode u)) EventType.Added
              r'.add).foldl (applyEvent keyOf) m))
          old u hstD hl.deleted_nodup hdel hsel hu
        rw [holdk] at ht
        rw [ht]
        rfl
      · rw [untD, untM hneM, untA hneA, hm]
        · simp [viewOf, hlk, hsel]
        · intro o ho hso hk
          rw [(hD o ho hk).1] at hlk
          injection hlk with hlk
          subst hlk
          exact hsel hso
  | some o =>
    have ho := KeyedMap.mem_of_lookup hlk'
    obtain ⟨u, hu⟩ : ∃ u, o.Object = some u := stamped_doc (hwf'.2 _ ho)
    have hok : o.toObjectKey = k := (hwf'.2 _ ho).1
    have hneD : ∀ o ∈ r'.deleted, selected gvk selector o = true →
        o.toObjectKey ≠ k := by
      intro o' ho' _ hk
      rw [(hD o' ho' hk).2] at hlk'
      simp at hlk'
    rw [untD hneD]
    by_cases hmod : o ∈ r'.modified
    · obtain ⟨_, old, hold, hsame⟩ := hM o hmod hok
      by_cases hsel : selected gvk selector o = true
      · have ht := segment_touched gvk selector decode keyOf hkey EventType.Modified
          r'.modified
          ((eventsOf gvk selector (fun u => Except.ok (decode u)) EventType.Added
              r'.add).foldl (applyEvent keyOf) m)
          o u hstM hl.modified_nodup hmod hsel hu
        rw [hok] at ht
        rw [ht]
        simp [applied, viewOf, hlk', hsel, hu]
      · rw [untM, untA, hm]
        · rw [hsame] at hsel
          simp [viewOf, hlk', hold, hsel, hsame]
        · intro o' ho' _ hk
          rw [(hA o' ho' hk).2] at hold
          simp at hold
        · intro o' ho' hso' hk
          rw [(hM o' ho' hk).1] at hlk'
          injection hlk' with hlk'
          subst hlk'
          exact hsel hso'
    · have hneM : ∀ o ∈ r'.modified, selected gvk selector o = true →
          o.toObjectKey ≠ k := by
        intro o' ho' _ hk
        rw [(hM o' ho' hk).1] at hlk'
        injection hlk' with hlk'
        subst hlk'
        exact hmod ho'
      rw [untM hneM]
      by_cases hadd : o ∈ r'.add
      · by_cases hsel : selected gvk selector o = true
        · have ht := segment_touched gvk selector decode keyOf hkey EventType.Added
            r'.add m o u hstA hl.add_nodup hadd hsel hu
          rw [hok] at ht
          rw [ht]
          simp [applied, viewOf, hlk', hsel, hu]
        · rw [untA, hm]
          · simp [viewOf, hlk', (hA o hadd hok).2, hsel]
          · intro o' ho' hso' hk
            rw [(hA o' ho' hk).1] at hlk'
            injection hlk' with hlk'
            subst hlk'
            exact hsel hso'
      · rw [untA, hm]
        · rcases hl.data_spec _ ho with h1 | h1 | h1
          · exact absurd h1 hadd
          · exact absurd h1 hmod
          · simp [viewOf, hlk', KeyedMap.lookup_of_mem hwf.1 h1]
        · intro o' ho' _ hk
          rw [(hA o' ho' hk).1] at hlk'
          injection hlk' with hlk'
          subst hlk'
          exact hadd ho'

theorem replay_chain {α : Type} (gvk : GroupVersionKind) (selector : Selector)
    (decode : Unstructured → α) (keyOf : α → ObjectKey)
    (hkey : ∀ u, keyOf (decode u) = u.key) (r : Revision) (rest : List Revision)
    (hchain : List.Chain (WatchStep gvk selector) r rest) (m : KeyedMap α)
    (hm : ∀ k, m.lookup k = viewOf gvk selector decode r.data k) (k : ObjectKey) :
    (((rest.map (revisionEvents gvk selector fun u => Except.ok (decode u))).flatten).foldl
      (applyEvent keyOf) m).lookup k =
      viewOf gvk selector decode ((r :: rest).getLast (List.cons_ne_nil _ _)).data k := by
  induction rest generalizing r m with
  | nil => simpa using hm k
  | cons r' rest ih =>
    rw [List.chain_cons] at hchain
    simp only [List.map_cons, List.flatten_cons, List.foldl_append]
    rw [ih r' hchain.2 _
      (fun k' => replay_step gvk selector decode keyOf hkey hchain.1 m hm k')]
    simp [List.getLast_cons]

theorem chain'_of_get? {α : Type} {R S : α → α → Prop} {l : List α}
    (h : List.Chain' R l)
    (hRS : ∀ i a b, l.get? i = some a → l.get? (i + 1) = some b → R a b → S a b) :
    List.Chain' S l := by
  induction l with
  | nil => exact List.chain'_nil
  | cons x rest ih =>
    cases rest with
    | nil => exact List.chain'_singleton _
    | cons y rest' =>
      rw [List.chain'_cons] at h ⊢
      refine ⟨hRS 0 x y rfl rfl h.1, ih h.2 ?_⟩
      intro i a b ha hb hab
      exact hRS (i + 1) a b (by simpa using ha) (by simpa using hb) hab

theorem selected_congr {gvk : GroupVersionKind} {selector : Selector} {k : ObjectKey}
    {o old : Object} {u u0 : Unstructured} (ho : o.toObjectKey = k)
    (hold : old.toObjectKey = k) (hu : o.Object = some u) (hu0 : old.Object = some u0)
    (hm : selector.Matches u.GetLabels = selector.Matches u0.GetLabels) :
    selected gvk selector o = selected gvk selector old := by
  have hg : o.Group = old.Group := by
    rw [show o.Group = o.toObjectKey.Group from rfl, ho, ← hold]
  have hk : o.Kind = old.Kind := by
    rw [show o.Kind = o.toObjectKey.Kind from rfl, ho, ← hold]
  simp only [selected, hg, hk, hu, hu0, hm]

theorem chain'_watchStep {s : Store} (gvk : GroupVersionKind) {selector : Selector}
    (hinv : Inv s) (hstable : SelectorStable s selector) :
    List.Chain' (WatchStep gvk selector) s.revisions := by
  refine chain'_of_get? hinv.linked ?_
  intro i r r' hr hr' hl
  have hwf := hinv.wf r (List.get?_mem hr)
  have hwf' := hinv.wf r' (List.get?_mem hr')
  refine ⟨hl, hwf, hwf', ?_⟩
  intro o ho old hold
  have hst := hwf'.2 _ (hl.modified_spec o ho).1
  have hst0 := hwf.2 _ hold
  obtain ⟨u, hu⟩ := stamped_doc hst
  obtain ⟨u0, hu0⟩ := stamped_doc hst0
  exact selected_congr rfl hst0.1 hu hu0 (hstable i r r' hr hr' o ho old u u0 hold hu hu0)

theorem getRevision_zero {s : Store} (hinv : Inv s) : s.getRevision "0" = .ok 1 := by
  obtain ⟨rest, hrest⟩ := hinv.sentinels
  have hatoi : Atoi "0" = some 0 := by decide
  have hne : ¬ ("0" = "") := by decide
  simp only [Store.getRevision, hne, if_false, hatoi, hrest, List.length_cons]
  rw [if_neg (by omega)]
  rfl

theorem viewOf_eq_some {α : Type} {gvk : GroupVersionKind} {selector : Selector}
    {decode : Unstructured → α} {data : GoMap} (hnd : KeyedMap.keys data |>.Nodup)
    (k : ObjectKey) (a : α) :
    viewOf gvk selector decode data k = some a ↔
      ∃ obj u, (k, obj) ∈ data ∧ obj.Group = gvk.Group ∧ obj.Kind = gvk.Kind ∧
        obj.Object = some u ∧ selector.Matches u.GetLabels = true ∧ a = decode u := by
  constructor
  · intro h
    unfold viewOf at h
    cases hl : data.lookup k with
    | none => simp [hl] at h
    | some o =>
      simp only [hl] at h
      by_cases hsel : selected gvk selector o = true
      · rw [if_pos hsel] at h
        cases hu : o.Object with
        | none => simp [hu] at h
        | some u =>
          simp only [hu, Option.map_some', Option.some.injEq] at h
          simp only [selected, hu, Bool.and_eq_true, decide_eq_true_eq] at hsel
          exact ⟨o, u, KeyedMap.mem_of_lookup hl, hsel.1.1, hsel.1.2, hu, hsel.2, h.symm⟩
      · rw [if_neg hsel] at h
        simp at h
  · rintro ⟨obj, u, hmem, hg, hk, hu, hm, rfl⟩
    unfold viewOf
    rw [KeyedMap.lookup_of_mem hnd hmem]
    simp [selected, hg, hk, hu, hm]

theorem watch_replay_of_stable {α : Type} (s : Store) (gvk : GroupVersionKind)
    (selector : Selector) (decode : Unstructured → α) (keyOf : α → ObjectKey)
    (hs : Reachable s) (hkey : ∀ u, keyOf (decode u) = u.key)
    (hstable : SelectorStable s selector) :
    WatchReplay s gvk selector decode keyOf := by
  have hinv := reachable_inv hs
  obtain ⟨rest, hrest⟩ := hinv.sentinels
  have hchain := chain'_watchStep gvk hinv hstable
  have hne : s.revisions ≠ [] := by rw [hrest]; simp
  have hlast : s.revisions.getLast? = some (s.revisions.getLast hne) :=
    List.getLast?_eq_getLast _ hne
  have hwf := hinv.wf _ (List.getLast_mem hne)
  have hread := readEvents_eq s gvk (fun u => Except.ok (decode u)) selector 1 hs
    (by rw [hrest]; simp)
  refine ⟨1, _, _, _, getRevision_zero hinv, hread, hlast,
    foldl_applyEvent_nodup keyOf _ [] (by simp [KeyedMap.keys]), ?_⟩
  intro k a
  have hnd : (replay keyOf (((s.revisions.drop 1).map
      (revisionEvents gvk selector fun u => Except.ok (decode u))).flatten)).keys.Nodup :=
    foldl_applyEvent_nodup keyOf _ [] (by simp [KeyedMap.keys])
  rw [KeyedMap.mem_iff_lookup hnd, ← viewOf_eq_some hwf.1]
  have hlook : (replay keyOf (((s.revisions.drop 1).map
      (revisionEvents gvk selector fun u => Except.ok (decode u))).flatten)).lookup k =
      viewOf gvk selector decode (s.revisions.getLast hne).data k := by
    have hc : List.Chain (WatchStep gvk selector) {} ({} :: rest) := by
      rw [hrest] at hchain
      exact hchain
    have := replay_chain gvk selector decode keyOf hkey {} ({} :: rest) hc []
      (fun k' => by simp [viewOf, KeyedMap.lookup]) k
    simp only [hrest, List.drop_succ_cons, List.drop_zero]
    exact this
  rw [hlook]

/-- C6 (watch replay), amended. On a reachable store, for a watch kind and a selector
whose verdict no modification recorded in the log changes, and a prototype into which
every document decodes keeping its key: the events a watcher started at resourceVersion
"0" receives, applied in order to an empty keyed map, yield exactly the decoded objects of
the tail revision whose group and kind equal the watch's and whose labels match the
selector. -/
theorem watch_replay {α : Type} (s : Store) (gvk : GroupVersionKind)
    (selector : Selector) (decode : Unstructured → α) (keyOf : α → ObjectKey)
    (hs : Reachable s) (hkey : ∀ u, keyOf (decode u) = u.key)
    (hstable : SelectorStable s selector) :
    WatchReplay s gvk selector decode keyOf :=
  watch_replay_of_stable s gvk selector decode keyOf hs hkey hstable

/-- C6, an instance: the sample log after the modification of widget `a`, watched with
the selector that matches everything. -/
theorem watch_replay_witness :
    Reachable storeTwo ∧ (∀ u : Unstructured, Unstructured.key (id u) = u.key) ∧
    SelectorStable storeTwo selectorEverything ∧
    WatchReplay storeTwo widgetKind selectorEverything id Unstructured.key :=
  ⟨storeTwo_reachable, fun _ => rfl, fun _ _ _ _ _ _ _ _ _ _ _ _ _ => rfl,
    watch_replay storeTwo widgetKind selectorEverything id Unstructured.key
      storeTwo_reachable (fun _ => rfl) (fun _ _ _ _ _ _ _ _ _ _ _ _ _ => rfl)⟩

/-- C6 as stated fails: in the sample log widget `a` is added with label `tier=web`
(revision 2) and modified to `tier=db` (revision 3). A watcher with selector `tier=web`
started at "0" receives the Added event only, as the Modified event does not pass the
filter; its map still holds widget `a`, while no object of the tail matches. -/
theorem watch_replay_counterexample :
    Reachable storeTwo ∧
    storeTwo.readEvents widgetKind (fun u => Except.ok (id u)) 1 selectorWeb =
      some ([{ type := EventType.Added, object := EventObject.converted docWeb }], 4) ∧
    ¬ WatchReplay storeTwo widgetKind selectorWeb id Unstructured.key := by
  have hread : storeTwo.readEvents widgetKind (fun u => Except.ok (id u)) 1 selectorWeb =
      some ([{ type := EventType.Added, object := EventObject.converted docWeb }], 4) := by
    rfl
  refine ⟨storeTwo_reachable, hread, ?_⟩
  rintro ⟨start, events, cursor, tail, h1, h2, h3, -, h5⟩
  have hstart : storeTwo.getRevision "0" = .ok 1 := rfl
  rw [hstart] at h1
  injection h1 with h1
  subst h1
  rw [hread] at h2
  injection h2 with h2
  injection h2 with h2 _
  subst h2
  have htail : storeTwo.revisions.getLast? = some revisionThree := rfl
  rw [htail] at h3
  injection h3 with h3
  subst h3
  have hmem : (sampleKey "a", docWeb) ∈
      replay Unstructured.key
        [{ type := EventType.Added, object := EventObject.converted docWeb }] :=
    List.mem_singleton.2 rfl
  obtain ⟨obj, u, hobj, -, -, hu, hm, -⟩ := (h5 (sampleKey "a") docWeb).1 hmem
  simp only [revisionThree, List.mem_singleton, Prod.mk.injEq] at hobj
  rw [hobj.2] at hu
  injection hu with hu
  subst hu
  exact absurd hm (by decide)

/-! ## At most one Added per key -/

theorem addedFresh_append {α : Type} (keyOf : α → ObjectKey) (es1 es2 : List (Event α))
    (live : List ObjectKey) :
    AddedFresh keyOf live (es1 ++ es2) ↔
      AddedFresh keyOf live es1 ∧
        AddedFresh keyOf (es1.foldl (liveStep keyOf) live) es2 := by
  induction es1 generalizing live with
  | nil => simp [AddedFresh]
  | cons e es ih =>
    simp only [List.cons_append, AddedFresh, List.foldl_cons, List.append_eq, ih, and_assoc]

theorem addedFresh_between {α : Type} (keyOf : α → ObjectKey) (between after : List (Event α))
    (b : α) (live : List ObjectKey) (hk : keyOf b ∈ live)
    (h : AddedFresh keyOf live
      (between ++ { type := EventType.Added, object := EventObject.converted b } :: after)) :
    ∃ c, ({ type := EventType.Deleted, object := EventObject.converted c } : Event α) ∈
        between ∧ keyOf c = keyOf b := by
  induction between generalizing live with
  | nil =>
    simp only [List.nil_append, AddedFresh] at h
    exact absurd hk (h.1 b rfl)
  | cons e es ih =>
    simp only [List.cons_append, AddedFresh] at h
    obtain ⟨t, obj⟩ := e
    cases obj with
    | errStatus msg =>
      obtain ⟨c, hc, hkc⟩ := ih live hk (by cases t <;> exact h.2)
      exact ⟨c, List.mem_cons_of_mem _ hc, hkc⟩
    | converted x =>
      cases t with
      | Added =>
        obtain ⟨c, hc, hkc⟩ := ih (keyOf x :: live) (List.mem_cons_of_mem _ hk) h.2
        exact ⟨c, List.mem_cons_of_mem _ hc, hkc⟩
      | Modified =>
        obtain ⟨c, hc, hkc⟩ := ih live hk h.2
        exact ⟨c, List.mem_cons_of_mem _ hc, hkc⟩
      | Error =>
        obtain ⟨c, hc, hkc⟩ := ih live hk h.2
        exact ⟨c, List.mem_cons_of_mem _ hc, hkc⟩
      | Deleted =>
        by_cases hx : keyOf x = keyOf b
        · exact ⟨x, List.mem_cons_self _ _, hx⟩
        · have hk' : keyOf b ∈ live.filter fun k => k ≠ keyOf x := by
            rw [List.mem_filter]
            exact ⟨hk, by simpa using fun hh => hx hh.symm⟩
          obtain ⟨c, hc, hkc⟩ := ih _ hk' h.2
          exact ⟨c, List.mem_cons_of_mem _ hc, hkc⟩

theorem addedAtMostOnce_of_fresh {α : Type} (keyOf : α → ObjectKey)
    (events : List (Event α)) (live : List ObjectKey)
    (h : AddedFresh keyOf live events) : AddedAtMostOnce keyOf events := by
  intro before between after a b hes hk
  subst hes
  simp only [List.append_assoc, List.singleton_append] at h
  rw [addedFresh_append] at h
  have h2 := h.2
  simp only [AddedFresh] at h2
  obtain ⟨c, hc, hkc⟩ := addedFresh_between keyOf between after b _
    (by rw [← hk]; exact List.mem_cons_self _ _) h2.2
  exact ⟨c, hc, hkc.trans hk.symm⟩

theorem segment_live {α : Type} (gvk : GroupVersionKind) (selector : Selector)
    (decode : Unstructured → α) (keyOf : α → ObjectKey)
    (hkey : ∀ u, keyOf (decode u) = u.key) (event : EventType) (objs : List Object)
    (live : List ObjectKey) (hst : ∀ o ∈ objs, Stamped o.toObjectKey o) (k : ObjectKey) :
    k ∈ (eventsOf gvk selector (fun u => Except.ok (decode u)) event objs).foldl
        (liveStep keyOf) live ↔
      match event with
      | EventType.Added =>
        k ∈ live ∨ ∃ o ∈ objs, selected gvk selector o = true ∧ o.toObjectKey = k
      | EventType.Deleted =>
        k ∈ live ∧ ¬ ∃ o ∈ objs, selected gvk selector o = true ∧ o.toObjectKey = k
      | _ => k ∈ live := by
  induction objs generalizing live with
  | nil => cases event <;> simp [eventsOf]
  | cons o objs ih =>
    have ih' := fun live => ih live fun x hx => hst x (List.mem_cons_of_mem _ hx)
    have hex : (∃ x ∈ o :: objs, selected gvk selector x = true ∧ x.toObjectKey = k) ↔
        ((selected gvk selector o = true ∧ o.toObjectKey = k) ∨
          ∃ x ∈ objs, selected gvk selector x = true ∧ x.toObjectKey = k) := by
      constructor
      · rintro ⟨x, hx, hp⟩
        rcases List.mem_cons.1 hx with rfl | hx
        · exact Or.inl hp
        · exact Or.inr ⟨x, hx, hp⟩
      · rintro (hp | ⟨x, hx, hp⟩)
        · exact ⟨o, List.mem_cons_self _ _, hp⟩
        · exact ⟨x, List.mem_cons_of_mem _ hx, hp⟩
    obtain ⟨_, u, hu, hku, _⟩ := hst o (List.mem_cons_self _ _)
    have hko : keyOf (decode u) = o.toObjectKey := by rw [hkey, hku]
    cases event
    · rw [eventsOf_cons, List.foldl_append, ih']
      simp only
      rw [hex]
      by_cases hsel : selected gvk selector o = true
      · simp only [hsel, if_true, hu, List.foldl_cons, List.foldl_nil, liveStep,
          List.mem_cons, hko, true_and]
        constructor
        · rintro ((h | h) | h)
          · exact Or.inr (Or.inl h.symm)
          · exact Or.inl h
          · exact Or.inr (Or.inr h)
        · rintro (h | h | h)
          · exact Or.inl (Or.inr h)
          · exact Or.inl (Or.inl h.symm)
          · exact Or.inr h
      · simp [hsel]
    · rw [eventsOf_cons, List.foldl_append, ih']
      by_cases hsel : selected gvk selector o = true
      · simp only [hsel, if_true, hu, List.foldl_cons, List.foldl_nil, liveStep]
      · simp [hsel]
    · rw [eventsOf_cons, List.foldl_append, ih']
      simp only
      rw [hex]
      by_cases hsel : selected gvk selector o = true
      · simp only [hsel, if_true, hu, List.foldl_cons, List.foldl_nil, liveStep,
          List.mem_filter, hko, true_and]
        constructor
        · rintro ⟨⟨h1, h2⟩, h3⟩
          refine ⟨h1, ?_⟩
          rintro (h | h)
          · simp [h] at h2
          · exact h3 h
        · rintro ⟨h1, h2⟩
          refine ⟨⟨h1, ?_⟩, fun h => h2 (Or.inr h)⟩
          simp only [ne_eq, decide_not, Bool.not_eq_true', decide_eq_false_iff_not]
          intro h
          exact h2 (Or.inl h.symm)
      · simp [hsel]
    · rw [eventsOf_cons, List.foldl_append, ih']
      by_cases hsel : selected gvk selector o = true
      · simp only [hsel, if_true, hu, List.foldl_cons, List.foldl_nil, liveStep]
      · simp [hsel]

theorem segment_fresh {α : Type} (gvk : GroupVersionKind) (selector : Selector)
    (decode : Unstructured → α) (keyOf : α → ObjectKey)
    (hkey : ∀ u, keyOf (decode u) = u.key) (event : EventType) (objs : List Object)
    (live : List ObjectKey) (hst : ∀ o ∈ objs, Stamped o.toObjectKey o)
    (hnd : (objs.map Object.toObjectKey).Nodup)
    (hfresh : event = EventType.Added →
      ∀ o ∈ objs, selected gvk selector o = true → o.toObjectKey ∉ live) :
    AddedFresh keyOf live
      (eventsOf gvk selector (fun u => Except.ok (decode u)) event objs) := by
  induction objs generalizing live with
  | nil => simp [eventsOf, AddedFresh]
  | cons o objs ih =>
    simp only [List.map_cons, List.nodup_cons] at hnd
    have hst' : ∀ x ∈ objs, Stamped x.toObjectKey x :=
      fun x hx => hst x (List.mem_cons_of_mem _ hx)
    rw [eventsOf_cons, addedFresh_append]
    by_cases hsel : selected gvk selector o = true
    · obtain ⟨_, u, hu, hku, _⟩ := hst o (List.mem_cons_self _ _)
      have hko : keyOf (decode u) = o.toObjectKey := by rw [hkey, hku]
      simp only [hsel, if_true, hu, List.foldl_cons, List.foldl_nil, AddedFresh, and_true]
      refine ⟨?_, ih _ hst' hnd.2 ?_⟩
      · intro a ha
        simp only [Event.mk.injEq, EventObject.converted.injEq] at ha
        rw [← ha.2, hko]
        exact hfresh ha.1 o (List.mem_cons_self _ _) hsel
      · intro hev x hx hxs
        subst hev
        simp only [liveStep, List.mem_cons, not_or, hko]
        refine ⟨?_, hfresh rfl x (List.mem_cons_of_mem _ hx) hxs⟩
        intro hxo
        exact hnd.1 (List.mem_map.2 ⟨x, hx, hxo⟩)
    · simp only [hsel, Bool.false_eq_true, if_false, List.foldl_nil, AddedFresh, true_and]
      exact ih _ hst' hnd.2
        (fun hev x hx hxs => hfresh hev x (List.mem_cons_of_mem _ hx) hxs)

theorem fresh_step {α : Type} (gvk : GroupVersionKind) (selector : Selector)
    (decode : Unstructured → α) (keyOf : α → ObjectKey)
    (hkey : ∀ u, keyOf (decode u) = u.key) {r r' : Revision}
    (h : WatchStep gvk selector r r') (live : List ObjectKey)
    (hlive : ∀ k ∈ live, ∃ o, (k, o) ∈ r.data ∧ selected gvk selector o = true) :
    AddedFresh keyOf live (revisionEvents gvk selector (fun u => Except.ok (decode u)) r') ∧
      ∀ k ∈ (revisionEvents gvk selector (fun u => Except.ok (decode u)) r').foldl
          (liveStep keyOf) live,
        ∃ o, (k, o) ∈ r'.data ∧ selected gvk selector o = true := by
  obtain ⟨hl, hwf, hwf', hstab⟩ := h
  have hstA : ∀ o ∈ r'.add, Stamped o.toObjectKey o :=
    fun o ho => hwf'.2 _ (hl.add_spec o ho).2
  have hstM : ∀ o ∈ r'.modified, Stamped o.toObjectKey o :=
    fun o ho => hwf'.2 _ (hl.modified_spec o ho).1
  have hstD : ∀ o ∈ r'.deleted, Stamped o.toObjectKey o :=
    fun o ho => hwf.2 _ ((hl.deleted_spec o).1 ho).1
  refine ⟨?_, ?_⟩
  · simp only [revisionEvents]
    rw [addedFresh_append, addedFresh_append]
    refine ⟨⟨?_, ?_⟩, ?_⟩
    · refine segment_fresh gvk selector decode keyOf hkey _ _ _ hstA hl.add_nodup ?_
      intro _ o ho _ hk
      obtain ⟨old, hold, _⟩ := hlive _ hk
      exact (hl.add_spec o ho).1 (KeyedMap.mem_keys_of_mem hold)
    · exact segment_fresh gvk selector decode keyOf hkey _ _ _ hstM hl.modified_nodup
        (fun hev => by cases hev)
    · exact segment_fresh gvk selector decode keyOf hkey _ _ _ hstD hl.deleted_nodup
        (fun hev => by cases hev)
  · intro k hk
    simp only [revisionEvents, List.foldl_append] at hk
    rw [segment_live gvk selector decode keyOf hkey EventType.Deleted _ _ hstD] at hk
    simp only at hk
    obtain ⟨hk1, hnodel⟩ := hk
    rw [segment_live gvk selector decode keyOf hkey EventType.Modified _ _ hstM] at hk1
    simp only at hk1
    rw [segment_live gvk selector decode keyOf hkey EventType.Added _ _ hstA] at hk1
    simp only at hk1
    rcases hk1 with hk1 | ⟨o, ho, hsel, hok⟩
    · obtain ⟨old, hold, hselold⟩ := hlive k hk1
      have holdk : old.toObjectKey = k := (hwf.2 _ hold).1
      by_cases hin : k ∈ KeyedMap.keys r'.data
      · obtain ⟨o, ho⟩ := KeyedMap.exists_mem_of_mem_keys hin
        have hok : o.toObjectKey = k := (hwf'.2 _ ho).1
        refine ⟨o, ho, ?_⟩
        rcases hl.data_spec _ ho with h1 | h1 | h1
        · exfalso
          have := (hl.add_spec o h1).1
          rw [hok] at this
          exact this (KeyedMap.mem_keys_of_mem hold)
        · rw [hstab o h1 old (by rw [hok]; exact hold)]
          exact hselold
        · have e1 := KeyedMap.lookup_of_mem hwf.1 h1
          have e2 := KeyedMap.lookup_of_mem hwf.1 hold
          rw [e1] at e2
          injection e2 with e2
          rw [e2]
          exact hselold
      · exfalso
        apply hnodel
        refine ⟨old, ?_, hselold, holdk⟩
        rw [hl.deleted_spec, holdk]
        exact ⟨hold, hin⟩
    · subst hok
      exact ⟨o, (hl.add_spec o ho).2, hsel⟩

theorem fresh_chain {α : Type} (gvk : GroupVersionKind) (selector : Selector)
    (decode : Unstructured → α) (keyOf : α → ObjectKey)
    (hkey : ∀ u, keyOf (decode u) = u.key) (r : Revision) (rest : List Revision)
    (hchain : List.Chain (WatchStep gvk selector) r rest) (live : List ObjectKey)
    (hlive : ∀ k ∈ live, ∃ o, (k, o) ∈ r.data ∧ selected gvk selector o = true) :
    AddedFresh keyOf live
      ((rest.map (revisionEvents gvk selector fun u => Except.ok (decode u))).flatten) := by
  induction rest generalizing r live with
  | nil => simp [AddedFresh]
  | cons r' rest ih =>
    rw [List.chain_cons] at hchain
    obtain ⟨h1, h2⟩ := fresh_step gvk selector decode keyOf hkey hchain.1 live hlive
    simp only [List.map_cons, List.flatten_cons]
    rw [addedFresh_append]
    exact ⟨h1, ih r' hchain.2 _ h2⟩

theorem fresh_drop {α : Type} (gvk : GroupVersionKind) (selector : Selector)
    (decode : Unstructured → α) (keyOf : α → ObjectKey)
    (hkey : ∀ u, keyOf (decode u) = u.key) (l : List Revision)
    (hchain : List.Chain' (WatchStep gvk selector) l) (hhead : ∃ rest, l = {} :: rest)
    (n : Nat) :
    AddedFresh keyOf []
      (((l.drop n).map
        (revisionEvents gvk selector fun u => Except.ok (decode u))).flatten) := by
  cases n with
  | zero =>
    obtain ⟨rest, rfl⟩ := hhead
    have hempty : revisionEvents gvk selector (fun u => Except.ok (decode u)) {} =
        ([] : List (Event α)) := by
      simp [revisionEvents, eventsOf]
    simp only [List.drop_zero, List.map_cons, List.flatten_cons, hempty, List.nil_append]
    exact fresh_chain gvk selector decode keyOf hkey {} rest hchain []
      (fun k hk => by simp at hk)
  | succ j =>
    by_cases hj : j < l.length
    · have hc := hchain.drop j
      rw [List.drop_eq_getElem_cons hj] at hc
      exact fresh_chain gvk selector decode keyOf hkey _ _ hc []
        (fun k hk => by simp at hk)
    · rw [List.drop_eq_nil_of_le (by omega)]
      simp [AddedFresh]

theorem getRevision_le {s : Store} {resourceVersion : String} {start : Int}
    (h : s.getRevision resourceVersion = .ok start) : start ≤ s.revisions.length := by
  unfold Store.getRevision at h
  by_cases hrv : resourceVersion = ""
  · rw [if_pos hrv] at h
    injection h with h
    omega
  · rw [if_neg hrv] at h
    cases ha : Atoi resourceVersion with
    | none => simp [ha] at h
    | some ret =>
      simp only [ha] at h
      by_cases hge : ret ≥ (s.revisions.length : Int)
      · rw [if_pos hge] at h
        cases h
      · rw [if_neg hge] at h
        injection h with h
        omega

theorem watch_added_once_of_stable {α : Type} (s : Store) (gvk : GroupVersionKind)
    (selector : Selector) (decode : Unstructured → α) (keyOf : α → ObjectKey)
    (hs : Reachable s) (hkey : ∀ u, keyOf (decode u) = u.key)
    (hstable : SelectorStable s selector) :
    WatchAddedOnce s gvk selector decode keyOf := by
  intro resourceVersion start events cursor hrv hread
  have hinv := reachable_inv hs
  have hle := getRevision_le hrv
  by_cases hneg : start < 0
  · simp [Store.readEvents, hneg] at hread
  · have hstart : start = ((start.toNat : Nat) : Int) := by omega
    rw [hstart, readEvents_eq s gvk (fun u => Except.ok (decode u)) selector start.toNat hs
      (by omega)] at hread
    injection hread with hread
    injection hread with hev _
    rw [← hev]
    refine addedAtMostOnce_of_fresh keyOf _ [] ?_
    obtain ⟨rest, hrest⟩ := hinv.sentinels
    exact fresh_drop gvk selector decode keyOf hkey s.revisions
      (chain'_watchStep gvk hinv hstable) ⟨_, hrest⟩ start.toNat

/-- C7 (at-most-once Added), amended. On a reachable store, for a watch kind and a
selector whose verdict no modification recorded in the log changes, and a prototype into
which every document decodes keeping its key: whatever accepted resourceVersion the
watcher starts from, the events it receives hold no two Added events for the same key
without a Deleted event for that key between them. -/
theorem watch_added_once {α : Type} (s : Store) (gvk : GroupVersionKind)
    (selector : Selector) (decode : Unstructured → α) (keyOf : α → ObjectKey)
    (hs : Reachable s) (hkey : ∀ u, keyOf (decode u) = u.key)
    (hstable : SelectorStable s selector) :
    WatchAddedOnce s gvk selector decode keyOf :=
  watch_added_once_of_stable s gvk selector decode keyOf hs hkey hstable

/-- The selector that matches everything is stable on every log. -/
theorem selectorEverything_stable (s : Store) : SelectorStable s selectorEverything :=
  fun _ _ _ _ _ _ _ _ _ _ _ _ _ => rfl

/-- C7, an instance: the sample log in which widget `a` is added, modified, deleted and
added again, watched with the selector that matches everything. -/
theorem watch_added_once_witness :
    Reachable storeFour ∧ (∀ u : Unstructured, Unstructured.key (id u) = u.key) ∧
    SelectorStable storeFour selectorEverything ∧
    WatchAddedOnce storeFour widgetKind selectorEverything id Unstructured.key :=
  ⟨storeFour_reachable, fun _ => rfl, selectorEverything_stable storeFour,
    watch_added_once storeFour widgetKind selectorEverything id Unstructured.key
      storeFour_reachable (fun _ => rfl) (selectorEverything_stable storeFour)⟩

/-- C7 as stated fails: in the sample log widget `a` is added with label `tier=web`
(revision 2), modified to `tier=db` (revision 3), deleted (revision 4) and added again
with `tier=web` (revision 5). A watcher with selector `tier=web` started at "0" receives
the two Added events and nothing between them: the Deleted event carries the object as
last stored, labelled `tier=db`, and does not pass the filter. -/
theorem watch_added_once_counterexample :
    Reachable storeFour ∧
    storeFour.getRevision "0" = .ok 1 ∧
    storeFour.readEvents widgetKind (fun u => Except.ok (id u)) 1 selectorWeb =
      some ([{ type := EventType.Added, object := EventObject.converted docWeb },
             { type := EventType.Added, object := EventObject.converted docAgain }], 6) ∧
    ¬ WatchAddedOnce storeFour widgetKind selectorWeb id Unstructured.key := by
  have hread : storeFour.readEvents widgetKind (fun u => Except.ok (id u)) 1 selectorWeb =
      some ([{ type := EventType.Added, object := EventObject.converted docWeb },
             { type := EventType.Added, object := EventObject.converted docAgain }], 6) := by
    rfl
  refine ⟨storeFour_reachable, rfl, hread, ?_⟩
  intro h
  obtain ⟨c, hc, -⟩ := h "0" 1 _ 6 rfl hread [] [] [] docWeb docAgain rfl rfl
  simp at hc

/-! ## The map that `add` hands to `commit` -/

theorem KeyedMap.mem_insert {α : Type} {m : KeyedMap α} {k : ObjectKey} {v : α}
    {e : ObjectKey × α} (h : e ∈ m.insert k v) : e = (k, v) ∨ e ∈ m := by
  induction m with
  | nil =>
    simp only [KeyedMap.insert, List.mem_singleton] at h
    exact Or.inl h
  | cons x rest ih =>
    obtain ⟨k0, v0⟩ := x
    by_cases h0 : k0 = k
    · simp only [KeyedMap.insert, h0, if_true, List.mem_cons] at h
      rcases h with h | h
      · exact Or.inl h
      · exact Or.inr (List.mem_cons_of_mem _ h)
    · simp only [KeyedMap.insert, h0, if_false, List.mem_cons] at h
      rcases h with h | h
      · exact Or.inr (by rw [h]; exact List.mem_cons_self _ _)
      · rcases ih h with h | h
        · exact Or.inl h
        · exact Or.inr (List.mem_cons_of_mem _ h)

theorem addStep_valid (readFile : String → Option Bytes)
    (unmarshal : Bytes → Option Unstructured) (newFiles : GoMap) (file : String)
    (h : ValidFiles newFiles) : ValidFiles (addStep readFile unmarshal newFiles file) := by
  unfold addStep
  cases readFile file with
  | none => exact h
  | some bytes =>
    simp only
    cases hdoc : unmarshal bytes with
    | none => exact h
    | some unstr =>
      simp only
      by_cases hskip : unstr.GroupVersionKind.Kind = "" ∨ unstr.GetName = "" ∨
          unstr.GroupVersionKind.Version = ""
      · rw [if_pos hskip]
        exact h
      · rw [if_neg hskip]
        refine ⟨KeyedMap.keys_insert_nodup _ _ _ h.1, ?_⟩
        intro e he
        rcases KeyedMap.mem_insert he with rfl | he
        · exact ⟨rfl, unstr, rfl, rfl⟩
        · exact h.2 e he

theorem add_files_valid (readFile : String → Option Bytes)
    (unmarshal : Bytes → Option Unstructured) (files : List String) :
    ValidFiles (files.foldl (addStep readFile unmarshal) []) := by
  have hgen : ∀ (newFiles : GoMap), ValidFiles newFiles →
      ValidFiles (files.foldl (addStep readFile unmarshal) newFiles) := by
    induction files with
    | nil => exact fun _ h => h
    | cons file files ih =>
      exact fun newFiles h => ih _ (addStep_valid readFile unmarshal newFiles file h)
  exact hgen [] ⟨by simp [KeyedMap.keys], fun e he => by simp at he⟩

theorem reachable_add {s s' : Store} (commit : String) (files : List String)
    (readFile : String → Option Bytes) (unmarshal : Bytes → Option Unstructured)
    (uuids : Nat → UID) (hs : Reachable s)
    (h : s.add commit files readFile unmarshal uuids = some s') : Reachable s' :=
  Reachable.commit commit _ uuids hs (add_files_valid readFile unmarshal files) h

/-! ## List -/

theorem listItems_eq (gvk : GroupVersionKind) (namespace_ : String)
    (selector : Option Selector) (data : GoMap)
    (hst : ∀ entry ∈ data, Stamped entry.1 entry.2) :
    listItems gvk namespace_ selector data =
      some (((data.map Prod.snd).filter (listed gvk namespace_ selector)).map
        Object.Object) := by
  induction data with
  | nil => rfl
  | cons e rest ih =>
    obtain ⟨key, obj⟩ := e
    have ih' := ih fun entry h => hst entry (List.mem_cons_of_mem _ h)
    obtain ⟨hkey, u, hu, -⟩ := hst (key, obj) (List.mem_cons_self _ _)
    simp only at hkey hu
    have hK : key.Kind = obj.Kind := by rw [← hkey]
    have hG : key.Group = obj.Group := by rw [← hkey]
    unfold listItems
    by_cases hc : key.Kind = gvk.Kind ∧ key.Group = gvk.Group ∧
        (namespace_ = "" ∨ obj.Namespace = namespace_)
    · rw [if_pos hc]
      rw [hK, hG] at hc
      cases selector with
      | none =>
        simp only [ih', Option.map_some', List.map_cons]
        have hl : listed gvk namespace_ none obj = true := by
          simp [listed, hc.1, hc.2.1, hc.2.2]
        simp [List.filter_cons, hl]
      | some sel =>
        simp only [hu]
        by_cases hm : sel.Matches u.GetLabels = true
        · rw [if_pos hm]
          have hl : listed gvk namespace_ (some sel) obj = true := by
            simp [listed, hc.1, hc.2.1, hc.2.2, hu, hm]
          simp [ih', List.filter_cons, hl, hu]
        · rw [if_neg hm]
          have hl : listed gvk namespace_ (some sel) obj = false := by
            simp [listed, hu, hm]
          simp [ih', List.filter_cons, hl]
    · rw [if_neg hc]
      rw [hK, hG] at hc
      have hl : listed gvk namespace_ selector obj = false := by
        simp only [listed]
        by_cases h1 : obj.Kind = gvk.Kind
        · by_cases h2 : obj.Group = gvk.Group
          · have h3 : ¬ (namespace_ = "" ∨ obj.Namespace = namespace_) :=
              fun h => hc ⟨h1, h2, h⟩
            simp only [not_or] at h3
            simp [h3.1, h3.2]
          · simp [h2]
        · simp [h1]
      simp [ih', List.filter_cons, hl]

/-- C16 (list contents). On a reachable store, `Store.List` returns a list document whose
items are the documents of exactly the objects of the tail revision's data, in the order
of the map, whose group and kind equal the GVK's, whose namespace equals the one asked
for (every namespace when it is empty) and whose labels match the selector (every object
when the selector is nil); its kind is the GVK's kind followed by "List" and its
resourceVersion is the decimal tail index `len(revisions) - 1`. -/
theorem list_contents (s : Store) (gvk : GroupVersionKind) (namespace_ : String)
    (selector : Option Selector) (tail : Revision) (hs : Reachable s)
    (htail : s.revisions.getLast? = some tail) :
    s.List gvk namespace_ selector =
      some { kind := gvk.Kind ++ "List",
             items := ((tail.data.map Prod.snd).filter fun obj =>
                 decide (obj.Kind = gvk.Kind) && decide (obj.Group = gvk.Group) &&
                 (decide (namespace_ = "") || decide (obj.Namespace = namespace_)) &&
                 match selector, obj.Object with
                 | none, _ => true
                 | some sel, some u => sel.Matches u.GetLabels
                 | some _, none => false).map Object.Object,
             resourceVersion := toString (s.revisions.length - 1) } := by
  have hinv := reachable_inv hs
  have hwf := hinv.wf tail (List.mem_of_getLast?_eq_some htail)
  unfold Store.List
  rw [htail]
  simp only
  rw [listItems_eq gvk namespace_ selector tail.data hwf.2]
  rfl

/-- C16, an instance: listing the widgets labelled `tier=web` in namespace `default` of
the sample store gives the document of widget `a` at resourceVersion "2". -/
theorem list_contents_witness :
    Reachable storeOne ∧ storeOne.revisions.getLast? = some revisionTwo ∧
    storeOne.List widgetKind "default" (some selectorWeb) =
      some { kind := "WidgetList", items := [some docWeb], resourceVersion := "2" } :=
  ⟨storeOne_reachable, rfl,
    (list_contents storeOne widgetKind "default" (some selectorWeb) revisionTwo
      storeOne_reachable rfl).trans rfl⟩

/-! ## The watch cursor -/

/-- C19, at the failing input: for the resourceVersion "-2" `getRevision` returns the
start index -1 without an error, and `readEvents` started there panics on
`s.revisions[-1]`. -/
theorem getRevision_negative_cursor :
    storeOne.getRevision "-2" = .ok (-1) ∧
    storeOne.readEvents widgetKind (fun u => Except.ok u) (-1) selectorEverything = none ∧
    ¬ (0 : Int) ≤ -1 := by
  refine ⟨rfl, rfl, by decide⟩

/-! ## File paths -/

theorem splitSlash_ne_nil (l : List Char) : splitSlash l ≠ [] := by
  cases l with
  | nil => simp [splitSlash]
  | cons c cs =>
    unfold splitSlash
    by_cases hc : c = '/'
    · simp [hc]
    · rw [if_neg hc]
      cases splitSlash cs <;> simp

theorem splitSlash_append (a b : List Char) :
    splitSlash (a ++ '/' :: b) = splitSlash a ++ splitSlash b := by
  induction a with
  | nil => simp [splitSlash]
  | cons c a ih =>
    by_cases hc : c = '/'
    · simp [splitSlash, hc, ih]
    · have hl : splitSlash (c :: (a ++ '/' :: b)) =
          match splitSlash (a ++ '/' :: b) with
          | seg :: rest => (c :: seg) :: rest
          | [] => [[c]] := by
        rw [splitSlash, if_neg hc]
      have hr : splitSlash (c :: a) =
          match splitSlash a with
          | seg :: rest => (c :: seg) :: rest
          | [] => [[c]] := by
        rw [splitSlash, if_neg hc]
      rw [List.cons_append, hl, hr, ih]
      cases hs : splitSlash a with
      | nil => exact absurd hs (splitSlash_ne_nil a)
      | cons seg rest => rfl

theorem splitSlash_simple (c : List Char) (h : '/' ∉ c) : splitSlash c = [c] := by
  induction c with
  | nil => rfl
  | cons x c ih =>
    simp only [List.mem_cons, not_or] at h
    have hx : ¬ x = '/' := fun hx => h.1 hx.symm
    simp [splitSlash, hx, ih h.2]

theorem splitSlash_noSlash (l seg : List Char) (h : seg ∈ splitSlash l) : '/' ∉ seg := by
  induction l generalizing seg with
  | nil =>
    simp only [splitSlash, List.mem_singleton] at h
    subst h
    simp
  | cons c cs ih =>
    unfold splitSlash at h
    by_cases hc : c = '/'
    · rw [if_pos hc] at h
      rcases List.mem_cons.1 h with h | h
      · subst h
        simp
      · exact ih seg h
    · rw [if_neg hc] at h
      cases hs : splitSlash cs with
      | nil => exact absurd hs (splitSlash_ne_nil cs)
      | cons s rest =>
        rw [hs] at h ih
        simp only [List.mem_cons] at h
        rcases h with h | h
        · subst h
          have := ih s (List.mem_cons_self _ _)
          simp only [List.mem_cons, not_or]
          exact ⟨fun hh => hc hh.symm, this⟩
        · exact ih seg (List.mem_cons_of_mem _ h)

theorem joinSlash_cons (x : List Char) (rest : List (List Char)) (h : rest ≠ []) :
    joinSlash (x :: rest) = x ++ '/' :: joinSlash rest := by
  cases rest with
  | nil => exact absurd rfl h
  | cons y ys => rfl

theorem joinSlash_append (a b : List (List Char)) (ha : a ≠ []) (hb : b ≠ []) :
    joinSlash (a ++ b) = joinSlash a ++ '/' :: joinSlash b := by
  induction a with
  | nil => exact absurd rfl ha
  | cons x rest ih =>
    cases rest with
    | nil =>
      simp only [List.singleton_append]
      rw [joinSlash_cons x b hb]
      rfl
    | cons y ys =>
      have h1 : (y :: ys) ++ b ≠ [] := by simp
      rw [List.cons_append, joinSlash_cons x _ h1, ih (by simp),
        joinSlash_cons x (y :: ys) (by simp)]
      simp

theorem splitSlash_joinSlash (l : List (List Char)) (hne : l ≠ [])
    (h : ∀ seg ∈ l, '/' ∉ seg) : splitSlash (joinSlash l) = l := by
  induction l with
  | nil => exact absurd rfl hne
  | cons x rest ih =>
    cases rest with
    | nil => exact splitSlash_simple x (h x (List.mem_cons_self _ _))
    | cons y ys =>
      rw [joinSlash_cons x _ (by simp), splitSlash_append,
        splitSlash_simple x (h x (List.mem_cons_self _ _)),
        ih (by simp) fun seg hs => h seg (List.mem_cons_of_mem _ hs)]
      rfl

theorem cleanStep_push (rooted : Bool) (stack : List (List Char)) (c : List Char)
    (h1 : c ≠ []) (h2 : c ≠ ['.']) (h3 : c ≠ ['.', '.']) :
    cleanStep rooted stack c = stack ++ [c] := by
  simp [cleanStep, h1, h2, h3]

theorem cleanStep_empty (rooted : Bool) (stack : List (List Char)) :
    cleanStep rooted stack [] = stack := by
  simp [cleanStep]

theorem foldl_cleanStep_simple (rooted : Bool) (stack cs : List (List Char))
    (h : ∀ c ∈ cs, c ≠ ['.'] ∧ c ≠ ['.', '.']) :
    cs.foldl (cleanStep rooted) stack = stack ++ cs.filter fun c => c ≠ [] := by
  induction cs generalizing stack with
  | nil => simp
  | cons c cs ih =>
    have ih' := fun stack => ih stack fun c' hc' => h c' (List.mem_cons_of_mem _ hc')
    rw [List.foldl_cons]
    by_cases hc : c = []
    · subst hc
      rw [cleanStep_empty, ih']
      simp [List.filter_cons]
    · obtain ⟨h2, h3⟩ := h c (List.mem_cons_self _ _)
      rw [cleanStep_push rooted stack c hc h2 h3, ih']
      simp [List.filter_cons, hc]

theorem cleanStep_noSlash (rooted : Bool) (stack : List (List Char)) (seg : List Char)
    (hstack : ∀ s ∈ stack, '/' ∉ s) (hseg : '/' ∉ seg) :
    ∀ s ∈ cleanStep rooted stack seg, '/' ∉ s := by
  have hpush : ∀ s ∈ stack ++ [seg], '/' ∉ s := by
    intro s hs
    rcases List.mem_append.1 hs with hs | hs
    · exact hstack s hs
    · simp only [List.mem_singleton] at hs
      subst hs
      exact hseg
  have hpop : ∀ s ∈ stack.dropLast, '/' ∉ s :=
    fun s hs => hstack s (List.dropLast_subset _ hs)
  unfold cleanStep
  split
  · exact hstack
  · split
    · split
      · split
        · exact hpush
        · exact hpop
      · split
        · exact hstack
        · exact hpush
    · exact hpush

theorem cleanStack_noSlash (path : List Char) : ∀ s ∈ cleanStack path, '/' ∉ s := by
  unfold cleanStack
  have hgen : ∀ (segs : List (List Char)) (stack : List (List Char)),
      (∀ s ∈ segs, '/' ∉ s) → (∀ s ∈ stack, '/' ∉ s) →
      ∀ s ∈ segs.foldl (cleanStep (path.head? = some '/')) stack, '/' ∉ s := by
    intro segs
    induction segs with
    | nil => exact fun stack _ hstack => hstack
    | cons seg segs ih =>
      intro stack hsegs hstack
      exact ih _ (fun s hs => hsegs s (List.mem_cons_of_mem _ hs))
        (cleanStep_noSlash _ stack seg hstack (hsegs seg (List.mem_cons_self _ _)))
  exact hgen _ [] (fun s hs => splitSlash_noSlash path s hs) (fun s hs => by simp at hs)

theorem cleanStack_join (d sd : List Char) (cs : List (List Char)) (hd : d ≠ [])
    (hcs : ∀ c ∈ cs, '/' ∉ c ∧ c ≠ ['.'] ∧ c ≠ ['.', '.']) :
    (joinSlash (d :: sd :: cs)).head? = d.head? ∧
    cleanStack (joinSlash (d :: sd :: cs)) =
      cleanStack (joinSlash [d, sd]) ++ cs.filter fun c => c ≠ [] := by
  have hhead : ∀ rest : List Char, (d ++ rest).head? = d.head? := by
    intro rest
    cases d with
    | nil => exact absurd rfl hd
    | cons x xs => rfl
  cases cs with
  | nil => exact ⟨by rw [joinSlash_cons d _ (by simp)]; exact hhead _, by simp⟩
  | cons c cs' =>
    have hj : joinSlash (d :: sd :: c :: cs') =
        joinSlash [d, sd] ++ '/' :: joinSlash (c :: cs') := by
      have := joinSlash_append [d, sd] (c :: cs') (by simp) (by simp)
      simpa using this
    have hb : joinSlash [d, sd] = d ++ '/' :: sd := rfl
    refine ⟨by rw [joinSlash_cons d _ (by simp)]; exact hhead _, ?_⟩
    have hh : (joinSlash (d :: sd :: c :: cs')).head? = (joinSlash [d, sd]).head? := by
      rw [joinSlash_cons d _ (by simp), hb, hhead, hhead]
    unfold cleanStack
    rw [hh, hj, splitSlash_append,
      splitSlash_joinSlash (c :: cs') (by simp) (fun seg hs => (hcs seg hs).1),
      List.foldl_append]
    exact foldl_cleanStep_simple _ _ _ fun x hx => (hcs x hx).2

theorem string_data_ne_nil {s : String} (h : s ≠ "") : s.data ≠ [] := by
  intro hd
  exact h (String.ext hd)

theorem simpleName_data {s : String} (h : SimpleName s) :
    '/' ∉ s.data ∧ s.data ≠ ['.'] ∧ s.data ≠ ['.', '.'] :=
  ⟨h.1, fun hd => h.2.1 (String.ext hd), fun hd => h.2.2 (String.ext hd)⟩

theorem join_root_data (dir subDir : String) (hdir : dir ≠ "") :
    (filepath.Join [dir, subDir]).data =
      renderPath (dir.data.head? = some '/')
        (cleanStack (joinSlash [dir.data, subDir.data])) := by
  have hhead : (joinSlash [dir.data, subDir.data]).head? = dir.data.head? :=
    (cleanStack_join dir.data subDir.data [] (string_data_ne_nil hdir)
      (fun c hc => by simp at hc)).1
  simp only [filepath.Join, List.dropWhile, hdir, decide_False, List.map_cons, List.map_nil,
    filepath.Clean]
  simp only [hhead]

theorem createFile_data (dir subDir : String) (gvk : GroupVersionKind)
    (namespace_ name : String) (hdir : dir ≠ "")
    (hs : ∀ c ∈ [gvk.Group, gvk.Version, gvk.Kind, namespace_, name], SimpleName c) :
    (createFile dir subDir gvk namespace_ name).data =
      renderPath (dir.data.head? = some '/')
        (cleanStack (joinSlash [dir.data, subDir.data]) ++
          ([gvk.Group, gvk.Version, gvk.Kind, namespace_, name].map String.data).filter
            fun c => c ≠ []) ++ ".yaml".data := by
  have hcs : ∀ c ∈ [gvk.Group, gvk.Version, gvk.Kind, namespace_, name].map String.data,
      '/' ∉ c ∧ c ≠ ['.'] ∧ c ≠ ['.', '.'] := by
    intro c hc
    obtain ⟨x, hx, rfl⟩ := List.mem_map.1 hc
    exact simpleName_data (hs x hx)
  obtain ⟨hhead, hstack⟩ := cleanStack_join dir.data subDir.data _
    (string_data_ne_nil hdir) hcs
  simp only [createFile, filepath.Join, List.dropWhile, hdir, decide_False,
    String.data_append, filepath.Clean]
  rw [← hstack]
  simp only [List.map_cons, List.map_nil] at hhead ⊢
  simp only [hhead]

theorem joinSlash_append_foldl (stack cs : List (List Char)) (h : stack ≠ []) :
    joinSlash (stack ++ cs) = cs.foldl (fun acc c => acc ++ '/' :: c) (joinSlash stack) := by
  induction cs using List.reverseRecOn with
  | nil => simp
  | append_singleton cs c ih =>
    rw [← List.append_assoc, joinSlash_append (stack ++ cs) [c] (by simp [h]) (by simp),
      ih, List.foldl_append]
    rfl

theorem foldl_slash_append (pre acc : List Char) (cs : List (List Char)) :
    cs.foldl (fun acc c => acc ++ '/' :: c) (pre ++ acc) =
      pre ++ cs.foldl (fun acc c => acc ++ '/' :: c) acc := by
  induction cs generalizing acc with
  | nil => rfl
  | cons c cs ih =>
    simp only [List.foldl_cons, List.append_assoc]
    exact ih _

theorem renderPath_append (rooted : Bool) (stack cs : List (List Char)) (h : stack ≠ []) :
    renderPath rooted (stack ++ cs) =
      cs.foldl (fun acc c => acc ++ '/' :: c) (renderPath rooted stack) := by
  have h' : stack ++ cs ≠ [] := by simp [h]
  simp only [renderPath, h, h', if_false]
  rw [joinSlash_append_foldl stack cs h, foldl_slash_append]

theorem foldl_string_data (root : String) (cs : List String) :
    (cs.foldl (fun path c => path ++ "/" ++ c) root).data =
      (cs.map String.data).foldl (fun acc c => acc ++ '/' :: c) root.data := by
  induction cs generalizing root with
  | nil => rfl
  | cons c cs ih =>
    simp only [List.foldl_cons, List.map_cons]
    rw [ih]
    simp [String.data_append]

theorem filter_data (cs : List String) :
    (cs.filter fun c => c ≠ "").map String.data =
      (cs.map String.data).filter fun c => c ≠ [] := by
  induction cs with
  | nil => rfl
  | cons c cs ih =>
    by_cases hc : c = ""
    · subst hc
      simpa [List.filter_cons] using ih
    · have hd := string_data_ne_nil hc
      simp only [List.filter_cons, ne_eq, hc, not_false_eq_true, decide_True, if_true,
        List.map_cons, hd, ih]

theorem root_stack_ne_nil (dir subDir : String) (hdir : dir ≠ "")
    (hroot : filepath.Join [dir, subDir] ≠ "/" ∧ filepath.Join [dir, subDir] ≠ ".") :
    cleanStack (joinSlash [dir.data, subDir.data]) ≠ [] := by
  intro hnil
  have hdata := join_root_data dir subDir hdir
  rw [hnil] at hdata
  by_cases hr : dir.data.head? = some '/'
  · exact hroot.1 (String.ext (by rw [hdata]; simp [renderPath, hr]))
  · exact hroot.2 (String.ext (by rw [hdata]; simp [renderPath, hr]))

/-- C15 (path determinism), amended. For a non-empty working directory whose cleaned join
with subDir, `root`, is neither `/` nor `.`, and components that hold no separator and
are neither `.` nor `..`: the file `Store.Create` writes is `root`, then one segment for
each non-empty component among group, version, kind, namespace and name, in that order,
then `.yaml`. An empty component (a group without a value) contributes no segment; when
all five are non-empty the file is
`root/<group>/<version>/<kind>/<namespace>/<name>.yaml`. -/
theorem create_file_path (dir subDir : String) (gvk : GroupVersionKind)
    (namespace_ name : String) (hdir : dir ≠ "")
    (hroot : filepath.Join [dir, subDir] ≠ "/" ∧ filepath.Join [dir, subDir] ≠ ".")
    (hs : ∀ c ∈ [gvk.Group, gvk.Version, gvk.Kind, namespace_, name], SimpleName c) :
    createFile dir subDir gvk namespace_ name =
      (([gvk.Group, gvk.Version, gvk.Kind, namespace_, name].filter fun c => c ≠ "").foldl
        (fun path c => path ++ "/" ++ c) (filepath.Join [dir, subDir])) ++ ".yaml" ∧
    (gvk.Group ≠ "" → gvk.Version ≠ "" → gvk.Kind ≠ "" → namespace_ ≠ "" → name ≠ "" →
      createFile dir subDir gvk namespace_ name =
        filepath.Join [dir, subDir] ++ "/" ++ gvk.Group ++ "/" ++ gvk.Version ++ "/" ++
          gvk.Kind ++ "/" ++ namespace_ ++ "/" ++ name ++ ".yaml") := by
  have hmain : createFile dir subDir gvk namespace_ name =
      (([gvk.Group, gvk.Version, gvk.Kind, namespace_, name].filter fun c => c ≠ "").foldl
        (fun path c => path ++ "/" ++ c) (filepath.Join [dir, subDir])) ++ ".yaml" := by
    apply String.ext
    rw [createFile_data dir subDir gvk namespace_ name hdir hs, String.data_append,
      foldl_string_data, filter_data, join_root_data dir subDir hdir,
      renderPath_append _ _ _ (root_stack_ne_nil dir subDir hdir hroot)]
  refine ⟨hmain, ?_⟩
  intro h1 h2 h3 h4 h5
  rw [hmain]
  simp [List.filter_cons, h1, h2, h3, h4, h5]

/-- C15, instances: a widget of group `example.com`, and a ConfigMap of the core group
(empty group), whose file has no segment for the group. -/
theorem create_file_path_witness :
    createFile "/repo" "cfg" { Group := "example.com", Version := "v1", Kind := "Widget" }
        "default" "a" =
      "/repo/cfg" ++ "/" ++ "example.com" ++ "/" ++ "v1" ++ "/" ++ "Widget" ++ "/" ++
        "default" ++ "/" ++ "a" ++ ".yaml" ∧
    createFile "/repo" "cfg" { Group := "", Version := "v1", Kind := "ConfigMap" }
        "default" "a" =
      "/repo/cfg/v1/ConfigMap/default/a.yaml" :=
  ⟨(create_file_path "/repo" "cfg"
      { Group := "example.com", Version := "v1", Kind := "Widget" } "default" "a"
      (by decide) (by decide) (by
        intro c hc
        simp only [List.mem_cons, List.mem_singleton, List.mem_nil_iff, or_false] at hc
        rcases hc with rfl | rfl | rfl | rfl | rfl <;> exact ⟨by decide, by decide, by decide⟩)).2
      (by decide) (by decide) (by decide) (by decide) (by decide),
    (create_file_path "/repo" "cfg" { Group := "", Version := "v1", Kind := "ConfigMap" }
      "default" "a" (by decide) (by decide) (by
        intro c hc
        simp only [List.mem_cons, List.mem_singleton, List.mem_nil_iff, or_false] at hc
        rcases hc with rfl | rfl | rfl | rfl | rfl <;>
          exact ⟨by decide, by decide, by decide⟩)).1.trans (by decide)⟩

/-- C15 as stated fails: for a ConfigMap of the core group (empty group)
`filepath.Join` drops the empty element, so the file has four segments under subDir and
is not the path with an empty group segment. -/
theorem create_file_path_counterexample :
    createFile "/repo" "cfg" { Group := "", Version := "v1", Kind := "ConfigMap" }
        "default" "a" = "/repo/cfg/v1/ConfigMap/default/a.yaml" ∧
    specPath "/repo" "cfg" { Group := "", Version := "v1", Kind := "ConfigMap" }
        "default" "a" = "/repo/cfg//v1/ConfigMap/default/a.yaml" ∧
    createFile "/repo" "cfg" { Group := "", Version := "v1", Kind := "ConfigMap" }
        "default" "a" ≠
      specPath "/repo" "cfg" { Group := "", Version := "v1", Kind := "ConfigMap" }
        "default" "a" := by
  refine ⟨by decide, by decide, by decide⟩

theorem joinSlash_injective (a b : List (List Char)) (ha : a ≠ []) (hb : b ≠ [])
    (hsa : ∀ seg ∈ a, '/' ∉ seg) (hsb : ∀ seg ∈ b, '/' ∉ seg)
    (h : joinSlash a = joinSlash b) : a = b := by
  rw [← splitSlash_joinSlash a ha hsa, ← splitSlash_joinSlash b hb hsb, h]

theorem renderPath_injective (rooted : Bool) (a b : List (List Char)) (ha : a ≠ [])
    (hb : b ≠ []) (hsa : ∀ seg ∈ a, '/' ∉ seg) (hsb : ∀ seg ∈ b, '/' ∉ seg)
    (h : renderPath rooted a = renderPath rooted b) : a = b := by
  simp only [renderPath, ha, hb, if_false] at h
  exact joinSlash_injective a b ha hb hsa hsb (List.append_cancel_left h)

theorem filter_data_nonempty (cs : List String) (h : ∀ c ∈ cs, c ≠ "") :
    ((cs.map String.data).filter fun c => c ≠ []) = cs.map String.data := by
  rw [List.filter_eq_self]
  intro c hc
  obtain ⟨x, hx, rfl⟩ := List.mem_map.1 hc
  simpa using string_data_ne_nil (h x hx)

theorem joinSlash_ne_nil (a : List (List Char)) (ha : a ≠ [])
    (hne : ∀ seg ∈ a, seg ≠ []) : joinSlash a ≠ [] := by
  cases a with
  | nil => exact absurd rfl ha
  | cons x rest =>
    cases rest with
    | nil => exact hne x (List.mem_cons_self _ _)
    | cons y rest => simp [joinSlash]

theorem renderPath_nil_ne (rooted : Bool) (b : List (List Char)) (hb : b ≠ [])
    (hsb : ∀ seg ∈ b, '/' ∉ seg ∧ seg ≠ [] ∧ seg ≠ ['.']) :
    renderPath rooted [] ≠ renderPath rooted b := by
  intro h
  simp only [renderPath, hb, if_true, if_false] at h
  cases rooted with
  | true =>
    simp only [if_true, List.singleton_append, List.cons.injEq, true_and] at h
    exact joinSlash_ne_nil b hb (fun seg hseg => (hsb seg hseg).2.1) h.symm
  | false =>
    simp only [Bool.false_eq_true, if_false, List.nil_append] at h
    have hsplit := splitSlash_joinSlash b hb (fun seg hseg => (hsb seg hseg).1)
    rw [← h] at hsplit
    have hmem : ['.'] ∈ b := by
      rw [← hsplit]
      simp [splitSlash]
    exact (hsb _ hmem).2.2 rfl

theorem renderPath_injective_simple (rooted : Bool) (a b : List (List Char))
    (hsa : ∀ seg ∈ a, '/' ∉ seg ∧ seg ≠ [] ∧ seg ≠ ['.'])
    (hsb : ∀ seg ∈ b, '/' ∉ seg ∧ seg ≠ [] ∧ seg ≠ ['.'])
    (h : renderPath rooted a = renderPath rooted b) : a = b := by
  by_cases ha : a = []
  · by_cases hb : b = []
    · rw [ha, hb]
    · rw [ha] at h
      exact absurd h (renderPath_nil_ne rooted b hb hsb)
  · by_cases hb : b = []
    · rw [hb] at h
      exact absurd h.symm (renderPath_nil_ne rooted a ha hsa)
    · exact renderPath_injective rooted a b ha hb (fun seg hseg => (hsa seg hseg).1)
        (fun seg hseg => (hsb seg hseg).1) h

theorem createFile_eq_iff (dir subDir : String) (gvk gvk' : GroupVersionKind)
    (namespace_ name namespace_' name' : String) (hdir : dir ≠ "")
    (hs : ∀ c ∈ [gvk.Group, gvk.Version, gvk.Kind, namespace_, name], SimpleName c)
    (hs' : ∀ c ∈ [gvk'.Group, gvk'.Version, gvk'.Kind, namespace_', name'],
      SimpleName c) :
    createFile dir subDir gvk namespace_ name =
        createFile dir subDir gvk' namespace_' name' ↔
      ([gvk.Group, gvk.Version, gvk.Kind, namespace_, name].filter fun c => c ≠ "") =
        [gvk'.Group, gvk'.Version, gvk'.Kind, namespace_', name'].filter fun c => c ≠ "" := by
  have hseg : ∀ (cs : List String), (∀ c ∈ cs, SimpleName c) →
      ∀ seg ∈ (cs.map String.data).filter (fun c => c ≠ []),
        '/' ∉ seg ∧ seg ≠ [] ∧ seg ≠ ['.'] := by
    intro cs hcs seg hseg
    obtain ⟨hmem, hne⟩ := List.mem_filter.1 hseg
    obtain ⟨x, hx, rfl⟩ := List.mem_map.1 hmem
    have hd := simpleName_data (hcs x hx)
    exact ⟨hd.1, by simpa using hne, hd.2.1⟩
  constructor
  · intro h
    have hd := congrArg String.data h
    rw [createFile_data dir subDir gvk namespace_ name hdir hs,
      createFile_data dir subDir gvk' namespace_' name' hdir hs'] at hd
    have hrender := List.append_cancel_right hd
    have hfilter : (([gvk.Group, gvk.Version, gvk.Kind, namespace_, name].map
          String.data).filter fun c => c ≠ []) =
        ([gvk'.Group, gvk'.Version, gvk'.Kind, namespace_', name'].map String.data).filter
          fun c => c ≠ [] := by
      by_cases hstack : cleanStack (joinSlash [dir.data, subDir.data]) = []
      · rw [hstack, List.nil_append, List.nil_append] at hrender
        exact renderPath_injective_simple _ _ _ (hseg _ hs) (hseg _ hs') hrender
      · have hslash : ∀ (cs : List String), (∀ c ∈ cs, SimpleName c) →
            ∀ seg ∈ cleanStack (joinSlash [dir.data, subDir.data]) ++
              (cs.map String.data).filter (fun c => c ≠ []), '/' ∉ seg := by
          intro cs hcs seg hmem
          rcases List.mem_append.1 hmem with hmem | hmem
          · exact cleanStack_noSlash _ seg hmem
          · exact (hseg cs hcs seg hmem).1
        exact List.append_cancel_left
          (renderPath_injective _ _ _ (by simp [hstack]) (by simp [hstack])
            (hslash _ hs) (hslash _ hs') hrender)
    rw [← filter_data, ← filter_data] at hfilter
    exact List.map_injective_iff.2 (fun a b hab => String.ext hab) hfilter
  · intro h
    apply String.ext
    rw [createFile_data dir subDir gvk namespace_ name hdir hs,
      createFile_data dir subDir gvk' namespace_' name' hdir hs',
      ← filter_data, ← filter_data, h]

theorem filter_group_free {g v k n m g' v' k' n' m' : String}
    (hv : v ≠ "") (hk : k ≠ "") (hn : n ≠ "") (hm : m ≠ "")
    (hv' : v' ≠ "") (hk' : k' ≠ "") (hn' : n' ≠ "") (hm' : m' ≠ "") :
    (([g, v, k, n, m].filter fun c => c ≠ "") = [g', v', k', n', m'].filter fun c => c ≠ "") ↔
      g = g' ∧ v = v' ∧ k = k' ∧ n = n' ∧ m = m' := by
  by_cases hg : g = ""
  · by_cases hg' : g' = ""
    · simp [List.filter_cons, hg, hg', hv, hk, hn, hm, hv', hk', hn', hm']
    · have hne : ¬ "" = g' := fun h => hg' h.symm
      simp [List.filter_cons, hg, hg', hv, hk, hn, hm, hv', hk', hn', hm', hne]
  · by_cases hg' : g' = ""
    · simp [List.filter_cons, hg, hg', hv, hk, hn, hm, hv', hk', hn', hm']
    · simp [List.filter_cons, hg, hg', hv, hk, hn, hm, hv', hk', hn', hm']

theorem filter_namespace_free {g v k n m g' v' k' n' m' : String}
    (hg : g ≠ "") (hv : v ≠ "") (hk : k ≠ "") (hm : m ≠ "")
    (hg' : g' ≠ "") (hv' : v' ≠ "") (hk' : k' ≠ "") (hm' : m' ≠ "") :
    (([g, v, k, n, m].filter fun c => c ≠ "") = [g', v', k', n', m'].filter fun c => c ≠ "") ↔
      g = g' ∧ v = v' ∧ k = k' ∧ n = n' ∧ m = m' := by
  by_cases hn : n = ""
  · by_cases hn' : n' = ""
    · simp [List.filter_cons, hg, hn, hn', hv, hk, hm, hg', hv', hk', hm']
    · have hne : ¬ "" = n' := fun h => hn' h.symm
      simp [List.filter_cons, hg, hn, hn', hv, hk, hm, hg', hv', hk', hm', hne]
  · by_cases hn' : n' = ""
    · simp [List.filter_cons, hg, hn, hn', hv, hk, hm, hg', hv', hk', hm']
    · simp [List.filter_cons, hg, hn, hn', hv, hk, hm, hg', hv', hk', hm']

theorem gvk_tuple_eq (gvk gvk' : GroupVersionKind) (n m n' m' : String) :
    (gvk.Group = gvk'.Group ∧ gvk.Version = gvk'.Version ∧ gvk.Kind = gvk'.Kind ∧
        n = n' ∧ m = m') ↔ (gvk = gvk' ∧ n = n' ∧ m = m') := by
  obtain ⟨g, v, k⟩ := gvk
  obtain ⟨g', v', k'⟩ := gvk'
  simp only [GroupVersionKind.mk.injEq]
  tauto

/-- C20 (path injectivity), amended. For a non-empty working directory and components
that hold no separator and are neither `.` nor `..`, two tuples (group, version, kind,
namespace, name) get the same file from `Store.Create` exactly when their non-empty
components, in order, are the same. So the file determines the tuple among the objects
whose version, kind, namespace and name are not empty, the group being empty or not
(the objects of the core group are among them), and among the objects whose group,
version, kind and name are not empty, the namespace being empty or not. -/
theorem create_file_injective (dir subDir : String) (gvk gvk' : GroupVersionKind)
    (namespace_ name namespace_' name' : String) (hdir : dir ≠ "")
    (hs : ∀ c ∈ [gvk.Group, gvk.Version, gvk.Kind, namespace_, name], SimpleName c)
    (hs' : ∀ c ∈ [gvk'.Group, gvk'.Version, gvk'.Kind, namespace_', name'],
      SimpleName c) :
    (createFile dir subDir gvk namespace_ name =
        createFile dir subDir gvk' namespace_' name' ↔
      ([gvk.Group, gvk.Version, gvk.Kind, namespace_, name].filter fun c => c ≠ "") =
        [gvk'.Group, gvk'.Version, gvk'.Kind, namespace_', name'].filter
          fun c => c ≠ "") ∧
    (gvk.Version ≠ "" → gvk.Kind ≠ "" → namespace_ ≠ "" → name ≠ "" →
      gvk'.Version ≠ "" → gvk'.Kind ≠ "" → namespace_' ≠ "" → name' ≠ "" →
      (createFile dir subDir gvk namespace_ name =
          createFile dir subDir gvk' namespace_' name' ↔
        gvk = gvk' ∧ namespace_ = namespace_' ∧ name = name')) ∧
    (gvk.Group ≠ "" → gvk.Version ≠ "" → gvk.Kind ≠ "" → name ≠ "" →
      gvk'.Group ≠ "" → gvk'.Version ≠ "" → gvk'.Kind ≠ "" → name' ≠ "" →
      (createFile dir subDir gvk namespace_ name =
          createFile dir subDir gvk' namespace_' name' ↔
        gvk = gvk' ∧ namespace_ = namespace_' ∧ name = name')) := by
  have hiff := createFile_eq_iff dir subDir gvk gvk' namespace_ name namespace_' name'
    hdir hs hs'
  refine ⟨hiff, ?_, ?_⟩
  · intro hv hk hn hm hv' hk' hn' hm'
    rw [hiff, filter_group_free hv hk hn hm hv' hk' hn' hm']
    exact gvk_tuple_eq gvk gvk' namespace_ name namespace_' name'
  · intro hg hv hk hm hg' hv' hk' hm'
    rw [hiff, filter_namespace_free hg hv hk hm hg' hv' hk' hm']
    exact gvk_tuple_eq gvk gvk' namespace_ name namespace_' name'

/-- C20, an instance: the ConfigMap `a` of the core group and the Deployment `a` of the
group `apps`, in the same namespace, have different files; so have the ConfigMap and the
Secret of that name, both of the core group. -/
theorem create_file_injective_witness :
    createFile "/repo" "cfg" { Group := "", Version := "v1", Kind := "ConfigMap" }
        "default" "a" ≠
      createFile "/repo" "cfg" { Group := "apps", Version := "v1", Kind := "Deployment" }
        "default" "a" ∧
    createFile "/repo" "cfg" { Group := "", Version := "v1", Kind := "ConfigMap" }
        "default" "a" ≠
      createFile "/repo" "cfg" { Group := "", Version := "v1", Kind := "Secret" }
        "default" "a" :=
  ⟨fun h => absurd
      (((create_file_injective "/repo" "cfg"
        { Group := "", Version := "v1", Kind := "ConfigMap" }
        { Group := "apps", Version := "v1", Kind := "Deployment" }
        "default" "a" "default" "a" (by decide)
        (by
          intro c hc
          simp only [List.mem_cons, List.mem_singleton, List.mem_nil_iff, or_false] at hc
          rcases hc with rfl | rfl | rfl | rfl | rfl <;>
            exact ⟨by decide, by decide, by decide⟩)
        (by
          intro c hc
          simp only [List.mem_cons, List.mem_singleton, List.mem_nil_iff, or_false] at hc
          rcases hc with rfl | rfl | rfl | rfl | rfl <;>
            exact ⟨by decide, by decide, by decide⟩)).2.1
        (by decide) (by decide) (by decide) (by decide)
        (by decide) (by decide) (by decide) (by decide)).1 h).1
      (by decide),
    fun h => absurd
      (((create_file_injective "/repo" "cfg"
        { Group := "", Version := "v1", Kind := "ConfigMap" }
        { Group := "", Version := "v1", Kind := "Secret" }
        "default" "a" "default" "a" (by decide)
        (by
          intro c hc
          simp only [List.mem_cons, List.mem_singleton, List.mem_nil_iff, or_false] at hc
          rcases hc with rfl | rfl | rfl | rfl | rfl <;>
            exact ⟨by decide, by decide, by decide⟩)
        (by
          intro c hc
          simp only [List.mem_cons, List.mem_singleton, List.mem_nil_iff, or_false] at hc
          rcases hc with rfl | rfl | rfl | rfl | rfl <;>
            exact ⟨by decide, by decide, by decide⟩)).2.1
        (by decide) (by decide) (by decide) (by decide)
        (by decide) (by decide) (by decide) (by decide)).1 h).1
      (by decide)⟩

/-- C20 as stated fails: the Secret `a` of the core group in namespace `Widget` and the
cluster-scoped object `a` of group `v1`, version `Secret`, kind `Widget` have the same
file, because `filepath.Join` drops the empty group of the first and the empty namespace
of the second. Components with a separator, or equal to `.`, share files too: namespace
`a/b` with name `c` and namespace `a` with name `b/c`; namespace `.` and no namespace. -/
theorem create_file_injective_counterexample :
    createFile "/repo" "cfg" { Group := "", Version := "v1", Kind := "Secret" } "Widget"
        "a" = "/repo/cfg/v1/Secret/Widget/a.yaml" ∧
    createFile "/repo" "cfg" { Group := "v1", Version := "Secret", Kind := "Widget" } ""
        "a" = "/repo/cfg/v1/Secret/Widget/a.yaml" ∧
    ¬ PathInjective "/repo" "cfg" ∧
    createFile "/repo" "cfg" widgetKind "a/b" "c" =
      createFile "/repo" "cfg" widgetKind "a" "b/c" ∧
    createFile "/repo" "cfg" widgetKind "." "a" =
      createFile "/repo" "cfg" widgetKind "" "a" := by
  refine ⟨by decide, by decide, ?_, by decide, by decide⟩
  intro h
  have := (h { Group := "", Version := "v1", Kind := "Secret" } "Widget" "a"
    { Group := "v1", Version := "Secret", Kind := "Widget" } "" "a" (by decide)).2.1
  exact absurd this (by decide)

/-! ## Git rollback -/

/-- C17 (git rollback on failure). With the directory made and the file written,
`Repo.Add` runs `git add`; when that fails it removes the file and returns the error;
when `git commit` fails it runs `git reset --hard origin/HEAD`, does not push and returns
the commit error; when `git push` fails it runs the same reset and returns the push
error; in these two cases, and on success, it does not remove the file. `Repo.Delete`
does the same after `git rm -f`, and returns at once when that fails. -/
theorem git_rollback (env : Env) (r : Repo) (path : String) (data : Bytes)
    (hmk : env.mkdirAll (filepath.Dir path) = none)
    (hwr : env.writeFile path data = none) :
    (∀ e, env.gitExit ["add", path] = some e →
      (r.Add env path data).2 = some e ∧
      (r.Add env path data).1.trace =
        r.trace ++ [Action.MkdirAll (filepath.Dir path), Action.WriteFile path data,
          Action.Git ["add", path], Action.Remove path]) ∧
    (∀ e, env.gitExit ["add", path] = none →
      env.gitExit ["commit", "-m", "controller update"] = some e →
      (r.Add env path data).2 = some e ∧
      (r.Add env path data).1.trace =
        r.trace ++ [Action.MkdirAll (filepath.Dir path), Action.WriteFile path data,
          Action.Git ["add", path], Action.Git ["commit", "-m", "controller update"],
          Action.Git ["reset", "--hard", "origin/HEAD"]]) ∧
    (∀ e, env.gitExit ["add", path] = none →
      env.gitExit ["commit", "-m", "controller update"] = none →
      env.gitExit ["push"] = some e →
      (r.Add env path data).2 = some e ∧
      (r.Add env path data).1.trace =
        r.trace ++ [Action.MkdirAll (filepath.Dir path), Action.WriteFile path data,
          Action.Git ["add", path], Action.Git ["commit", "-m", "controller update"],
          Action.Git ["push"], Action.Git ["reset", "--hard", "origin/HEAD"]]) ∧
    (env.gitExit ["add", path] = none →
      env.gitExit ["commit", "-m", "controller update"] = none →
      env.gitExit ["push"] = none →
      (r.Add env path data).2 = none ∧
      (r.Add env path data).1.trace =
        r.trace ++ [Action.MkdirAll (filepath.Dir path), Action.WriteFile path data,
          Action.Git ["add", path], Action.Git ["commit", "-m", "controller update"],
          Action.Git ["push"]]) ∧
    (Action.Remove path ∈ ((r.Add env path data).1.trace.drop r.trace.length) ↔
      env.gitExit ["add", path] ≠ none) ∧
    (∀ e, env.gitExit ["rm", "-f", path] = some e →
      (r.Delete env path).2 = some e ∧
      (r.Delete env path).1.trace = r.trace ++ [Action.Git ["rm", "-f", path]]) ∧
    (∀ e, env.gitExit ["rm", "-f", path] = none →
      env.gitExit ["commit", "-m", "controller update"] = some e →
      (r.Delete env path).2 = some e ∧
      (r.Delete env path).1.trace =
        r.trace ++ [Action.Git ["rm", "-f", path],
          Action.Git ["commit", "-m", "controller update"],
          Action.Git ["reset", "--hard", "origin/HEAD"]]) ∧
    (∀ e, env.gitExit ["rm", "-f", path] = none →
      env.gitExit ["commit", "-m", "controller update"] = none →
      env.gitExit ["push"] = some e →
      (r.Delete env path).2 = some e ∧
      (r.Delete env path).1.trace =
        r.trace ++ [Action.Git ["rm", "-f", path],
          Action.Git ["commit", "-m", "controller update"], Action.Git ["push"],
          Action.Git ["reset", "--hard", "origin/HEAD"]]) := by
  refine ⟨?_, ?_, ?_, ?_, ?_, ?_, ?_, ?_⟩
  · intro e h1
    simp [Repo.Add, Repo.git, hmk, hwr, h1]
  · intro e h1 h2
    cases h4 : env.gitExit ["reset", "--hard", "origin/HEAD"] <;>
      simp [Repo.Add, Repo.git, Repo.commitAndPush, hmk, hwr, h1, h2, h4]
  · intro e h1 h2 h3
    cases h4 : env.gitExit ["reset", "--hard", "origin/HEAD"] <;>
      simp [Repo.Add, Repo.git, Repo.commitAndPush, hmk, hwr, h1, h2, h3, h4]
  · intro h1 h2 h3
    simp [Repo.Add, Repo.git, Repo.commitAndPush, hmk, hwr, h1, h2, h3]
  · cases h1 : env.gitExit ["add", path] with
    | some e => simp [Repo.Add, Repo.git, hmk, hwr, h1]
    | none =>
      cases h2 : env.gitExit ["commit", "-m", "controller update"] with
      | some e =>
        cases h4 : env.gitExit ["reset", "--hard", "origin/HEAD"] <;>
          simp [Repo.Add, Repo.git, Repo.commitAndPush, hmk, hwr, h1, h2, h4]
      | none =>
        cases h3 : env.gitExit ["push"] with
        | some e =>
          cases h4 : env.gitExit ["reset", "--hard", "origin/HEAD"] <;>
            simp [Repo.Add, Repo.git, Repo.commitAndPush, hmk, hwr, h1, h2, h3, h4]
        | none => simp [Repo.Add, Repo.git, Repo.commitAndPush, hmk, hwr, h1, h2, h3]
  · intro e h1
    simp [Repo.Delete, Repo.git, h1]
  · intro e h1 h2
    cases h4 : env.gitExit ["reset", "--hard", "origin/HEAD"] <;>
      simp [Repo.Delete, Repo.git, Repo.commitAndPush, h1, h2, h4]
  · intro e h1 h2 h3
    cases h4 : env.gitExit ["reset", "--hard", "origin/HEAD"] <;>
      simp [Repo.Delete, Repo.git, Repo.commitAndPush, h1, h2, h3, h4]

/-! ## The write pipeline: error contracts -/

theorem store_get_absent {s : Store} {tail : Revision} (gvk : GroupVersionKind)
    (namespace_ name : String) (htail : s.revisions.getLast? = some tail)
    (h : ∀ o, ({ Kind := gvk.Kind, Group := gvk.Group, Name := name,
                 Namespace := namespace_ }, o) ∉ tail.data) :
    s.get gvk namespace_ name = some Object.zero := by
  rw [store_get_find gvk namespace_ name htail]
  have hfind : (tail.data.find? fun entry =>
      decide (entry.1.Kind = gvk.Kind ∧ entry.1.Group = gvk.Group ∧
        entry.1.Namespace = namespace_ ∧ entry.1.Name = name)) = none := by
    rw [List.find?_eq_none]
    rintro ⟨⟨kd, gp, nm, nsp⟩, o⟩ hmem hp
    simp only [decide_eq_true_eq] at hp
    obtain ⟨h1, h2, h3, h4⟩ := hp
    subst h1 h2 h3 h4
    exact h o hmem
  rw [hfind]

theorem store_get_present {s : Store} {tail : Revision} {o : Object}
    (gvk : GroupVersionKind) (namespace_ name : String) (hwf : tail.WF)
    (htail : s.revisions.getLast? = some tail)
    (ho : ({ Kind := gvk.Kind, Group := gvk.Group, Name := name,
             Namespace := namespace_ }, o) ∈ tail.data) :
    s.get gvk namespace_ name = some o := by
  rw [store_get_find gvk namespace_ name htail]
  cases hf : tail.data.find? fun entry =>
    decide (entry.1.Kind = gvk.Kind ∧ entry.1.Group = gvk.Group ∧
      entry.1.Namespace = namespace_ ∧ entry.1.Name = name) with
  | none =>
    rw [List.find?_eq_none] at hf
    exact absurd (by simp) (hf _ ho)
  | some e =>
    have hp := List.find?_some hf
    have hm := List.mem_of_find?_eq_some hf
    obtain ⟨⟨kd, gp, nm, nsp⟩, v⟩ := e
    simp only [decide_eq_true_eq] at hp
    obtain ⟨h1, h2, h3, h4⟩ := hp
    subst h1 h2 h3 h4
    have e1 := KeyedMap.lookup_of_mem hwf.1 hm
    have e2 := KeyedMap.lookup_of_mem hwf.1 ho
    rw [e1] at e2
    injection e2 with e2
    rw [e2]

theorem save_error_other {env : Env} {s s' : Store} {repo repo' : Repo}
    {gvk : GroupVersionKind} {object : Unstructured} {path : String} {generation : Bool}
    {e : Error}
    (h : s.save env repo gvk object path generation = some (s', repo', .error e)) :
    ∃ message, e = Error.Other message := by
  unfold Store.save at h
  simp only at h
  split at h
  · simp only [Option.some.injEq, Prod.mk.injEq, Except.error.injEq] at h
    exact ⟨_, h.2.2.symm⟩
  · split at h
    · simp only [Option.some.injEq, Prod.mk.injEq, Except.error.injEq] at h
      exact ⟨_, h.2.2.symm⟩
    · split at h
      · simp at h
      · rename_i s1 r1 err hsu
        simp only [Option.some.injEq, Prod.mk.injEq, Except.error.injEq] at h
        unfold Store.scanAndUpdate at hsu
        split at hsu
        · simp only [Option.some.injEq, Prod.mk.injEq] at hsu
          exact ⟨_, by rw [← h.2.2, ← hsu.2.2]⟩
        · split at hsu
          · simp at hsu
          · simp at hsu
      · split at h
        · simp at h
        · simp at h

theorem tail_documented {s : Store} {tail : Revision} {k : ObjectKey} {o : Object}
    (hs : Reachable s) (htail : s.revisions.getLast? = some tail)
    (ho : (k, o) ∈ tail.data) : Stamped k o :=
  ((reachable_inv hs).wf tail (List.mem_of_getLast?_eq_some htail)).2 (k, o) ho

theorem tail_wf {s : Store} {tail : Revision} (hs : Reachable s)
    (htail : s.revisions.getLast? = some tail) : tail.WF :=
  (reachable_inv hs).wf tail (List.mem_of_getLast?_eq_some htail)

theorem create_named (env : Env) (s : Store) (repo : Repo) (gvk : GroupVersionKind)
    (object : Unstructured) (hname : object.GetName ≠ "") :
    s.Create env repo gvk object =
      match s.get gvk object.GetNamespace object.GetName with
      | none => none
      | some existing =>
        if existing.Object ≠ none then
          some (s, repo, .error (Error.AlreadyExists gvk.Group gvk.Kind object.GetName))
        else
          s.save env repo gvk object
            (createFile repo.Dir s.subDir gvk object.GetNamespace object.GetName) true := by
  unfold Store.Create
  simp only [hname, false_and, if_false]

/-- Claim C13. For an object with a non-empty name and a reachable store, `Store.Create`
returns AlreadyExists when the tail revision holds an object under the key
(kind, group, name, namespace), and it returns it with the store and the repository
(files and trace of commands) as they were; when the tail holds none, `Create` is the
`save` at the file of the key, and no result of it is an AlreadyExists error. -/
theorem create_rejects_taken_keys (env : Env) (s : Store) (repo : Repo)
    (gvk : GroupVersionKind) (object : Unstructured) (tail : Revision)
    (hs : Reachable s) (hname : object.GetName ≠ "")
    (htail : s.revisions.getLast? = some tail) :
    ((∃ o, (({ Kind := gvk.Kind, Group := gvk.Group, Name := object.GetName,
               Namespace := object.GetNamespace } : ObjectKey), o) ∈ tail.data) →
      s.Create env repo gvk object =
        some (s, repo, .error (Error.AlreadyExists gvk.Group gvk.Kind object.GetName))) ∧
    ((¬ ∃ o, (({ Kind := gvk.Kind, Group := gvk.Group, Name := object.GetName,
                 Namespace := object.GetNamespace } : ObjectKey), o) ∈ tail.data) →
      s.Create env repo gvk object =
          s.save env repo gvk object
            (createFile repo.Dir s.subDir gvk object.GetNamespace object.GetName) true ∧
        ∀ s' repo' group resource name,
          s.Create env repo gvk object ≠
            some (s', repo', .error (Error.AlreadyExists group resource name))) := by
  rw [create_named env s repo gvk object hname]
  constructor
  · rintro ⟨o, ho⟩
    rw [store_get_present gvk _ _ (tail_wf hs htail) htail ho]
    obtain ⟨u, hu⟩ := stamped_doc (tail_documented hs htail ho)
    simp [hu]
  · intro hno
    have habs : ∀ o, (({ Kind := gvk.Kind, Group := gvk.Group, Name := object.GetName,
                         Namespace := object.GetNamespace } : ObjectKey), o) ∉ tail.data :=
      fun o ho => hno ⟨o, ho⟩
    rw [store_get_absent gvk _ _ htail habs]
    simp only [Object.zero, ne_eq, not_true_eq_false, if_false, true_and]
    intro s' repo' group resource name hsave
    obtain ⟨message, hm⟩ := save_error_other hsave
    cases hm

theorem create_rejects_taken_keys_witness :
    storeOne.Create sampleEnv sampleRepo widgetKind (sampleDoc "a" []) =
      some (storeOne, sampleRepo, .error (Error.AlreadyExists "example.com" "Widget" "a")) :=
  (create_rejects_taken_keys sampleEnv storeOne sampleRepo widgetKind (sampleDoc "a" [])
    revisionTwo storeOne_reachable (by decide) rfl).1
    ⟨widgetWeb, by simp [revisionTwo, sampleKey, widgetKind, sampleDoc,
      Unstructured.GetName, Unstructured.GetNamespace]⟩

/-- Claim C11. On a reachable store, `Store.Update` returns NotFound when the tail
revision has no object under the caller's key, and only then; when it has one, `Update`
returns Conflict when the caller's resourceVersion differs from the stored one, and only
then; both errors come with the store and the repository (files and trace of commands)
as they were; and with equal resourceVersions `Update` is `save` at the stored path. -/
theorem update_error_contract (env : Env) (s : Store) (repo : Repo)
    (gvk : GroupVersionKind) (obj : Unstructured) (generation : Bool) (tail : Revision)
    (hs : Reachable s) (htail : s.revisions.getLast? = some tail) :
    ((∀ o, (({ Kind := gvk.Kind, Group := gvk.Group, Name := obj.GetName,
               Namespace := obj.GetNamespace } : ObjectKey), o) ∉ tail.data) →
      s.Update env repo gvk obj generation =
        some (s, repo, .error (Error.NotFound gvk.Group gvk.Kind obj.GetName))) ∧
    (∀ o, (({ Kind := gvk.Kind, Group := gvk.Group, Name := obj.GetName,
              Namespace := obj.GetNamespace } : ObjectKey), o) ∈ tail.data →
      (obj.GetResourceVersion ≠ o.ResourceVersion →
        s.Update env repo gvk obj generation =
          some (s, repo, .error (Error.Conflict gvk.Group gvk.Kind obj.GetName
            ("resourceVersion " ++ obj.GetResourceVersion ++ " does not match requested " ++
              o.ResourceVersion)))) ∧
      (obj.GetResourceVersion = o.ResourceVersion →
        s.Update env repo gvk obj generation =
          s.save env repo gvk obj o.Path generation)) ∧
    (∀ s' repo' group resource name,
      s.Update env repo gvk obj generation =
          some (s', repo', .error (Error.NotFound group resource name)) →
        ∀ o, (({ Kind := gvk.Kind, Group := gvk.Group, Name := obj.GetName,
                 Namespace := obj.GetNamespace } : ObjectKey), o) ∉ tail.data) ∧
    (∀ s' repo' group resource name message,
      s.Update env repo gvk obj generation =
          some (s', repo', .error (Error.Conflict group resource name message)) →
        ∃ o, (({ Kind := gvk.Kind, Group := gvk.Group, Name := obj.GetName,
                 Namespace := obj.GetNamespace } : ObjectKey), o) ∈ tail.data ∧
          obj.GetResourceVersion ≠ o.ResourceVersion) := by
  have habsent : (∀ o, (({ Kind := gvk.Kind, Group := gvk.Group, Name := obj.GetName,
                           Namespace := obj.GetNamespace } : ObjectKey), o) ∉ tail.data) →
      s.Update env repo gvk obj generation =
        some (s, repo, .error (Error.NotFound gvk.Group gvk.Kind obj.GetName)) := by
    intro habs
    unfold Store.Update
    rw [store_get_absent gvk _ _ htail habs]
    simp [Object.zero]
  have hpresent : ∀ o, (({ Kind := gvk.Kind, Group := gvk.Group, Name := obj.GetName,
                           Namespace := obj.GetNamespace } : ObjectKey), o) ∈ tail.data →
      (obj.GetResourceVersion ≠ o.ResourceVersion →
        s.Update env repo gvk obj generation =
          some (s, repo, .error (Error.Conflict gvk.Group gvk.Kind obj.GetName
            ("resourceVersion " ++ obj.GetResourceVersion ++ " does not match requested " ++
              o.ResourceVersion)))) ∧
      (obj.GetResourceVersion = o.ResourceVersion →
        s.Update env repo gvk obj generation =
          s.save env repo gvk obj o.Path generation) := by
    intro o ho
    obtain ⟨u, hu⟩ := stamped_doc (tail_documented hs htail ho)
    unfold Store.Update
    rw [store_get_present gvk _ _ (tail_wf hs htail) htail ho]
    constructor
    · intro hne
      simp [hu, hne]
    · intro heq
      simp [hu, heq]
  refine ⟨habsent, hpresent, ?_, ?_⟩
  · intro s' repo' group resource name hup o ho
    by_cases hrv : obj.GetResourceVersion = o.ResourceVersion
    · rw [(hpresent o ho).2 hrv] at hup
      obtain ⟨message, hm⟩ := save_error_other hup
      cases hm
    · rw [(hpresent o ho).1 hrv] at hup
      simp at hup
  · intro s' repo' group resource name message hup
    by_cases hex : ∃ o, (({ Kind := gvk.Kind, Group := gvk.Group, Name := obj.GetName,
                            Namespace := obj.GetNamespace } : ObjectKey), o) ∈ tail.data
    · obtain ⟨o, ho⟩ := hex
      refine ⟨o, ho, ?_⟩
      intro hrv
      rw [(hpresent o ho).2 hrv] at hup
      obtain ⟨m, hm⟩ := save_error_other hup
      cases hm
    · rw [habsent fun o ho => hex ⟨o, ho⟩] at hup
      simp at hup

theorem update_error_contract_witness :
    storeOne.Update sampleEnv sampleRepo widgetKind (sampleDoc "a" []) true =
      some (storeOne, sampleRepo, .error (Error.Conflict "example.com" "Widget" "a"
        "resourceVersion  does not match requested 2")) :=
  ((update_error_contract sampleEnv storeOne sampleRepo widgetKind (sampleDoc "a" []) true
    revisionTwo storeOne_reachable rfl).2.1 widgetWeb
    (by simp [revisionTwo, sampleKey, widgetKind, sampleDoc,
      Unstructured.GetName, Unstructured.GetNamespace])).1 (by decide)

/-! ## Status updates -/

theorem git_rollback_witness :
    (sampleRepo.Add commitFailsEnv "/repo/cfg/b.yaml" [3]).2 = some "exit status 1" ∧
    (sampleRepo.Add commitFailsEnv "/repo/cfg/b.yaml" [3]).1.trace =
      sampleRepo.trace ++ [Action.MkdirAll (filepath.Dir "/repo/cfg/b.yaml"),
        Action.WriteFile "/repo/cfg/b.yaml" [3],
        Action.Git ["add", "/repo/cfg/b.yaml"],
        Action.Git ["commit", "-m", "controller update"],
        Action.Git ["reset", "--hard", "origin/HEAD"]] :=
  (git_rollback commitFailsEnv sampleRepo "/repo/cfg/b.yaml" [3] rfl rfl).2.1
    "exit status 1" (by decide) (by decide)

theorem statusFrame_iff (existing newStatus : Unstructured) :
    StatusFrame existing newStatus ↔
      newStatus.GetResourceVersion = existing.GetResourceVersion := by
  obtain ⟨g, v, kd, n, nm, gn, ls, r, ui, gen, st, rest⟩ := existing
  simp [StatusFrame, statusObject, Unstructured.SetResourceVersion,
    Unstructured.GetResourceVersion]

/-- Claim C18, as the code has it. A caller's object without a kind is refused by the
conversion at the head of `statusWriter.Update`: the error is returned and
`Store.Update` is not called. For a caller's object with a kind whose key is in the tail
of a reachable store, what `statusWriter.Update` hands to `Store.Update` is the stored
document with `status` and `metadata.resourceVersion` both taken from the caller, and
the call is made with the generation flag false. It is the stored document with only
`status` replaced exactly when the caller's resourceVersion is the stored one, in which
case `Store.Update` saves at the stored path without adding to the generation;
otherwise the call returns Conflict. -/
theorem status_update_frame (env : Env) (s : Store) (repo : Repo)
    (schemeKind : Except Error GroupVersionKind) (obj : Unstructured)
    (convert : Unstructured → Option Unstructured → Except String Unstructured)
    (tail : Revision) (hs : Reachable s) (htail : s.revisions.getLast? = some tail) :
    (obj.kind = "" →
      ∃ message, statusWriter.Update env s repo schemeKind obj convert =
        some (s, repo, .error (Error.Other message))) ∧
    (obj.kind ≠ "" → ∀ gvk o, trimList obj.GroupVersionKind = gvk →
      (({ Kind := gvk.Kind, Group := gvk.Group, Name := obj.GetName,
          Namespace := obj.GetNamespace } : ObjectKey), o) ∈ tail.data →
      ∃ existing, o.Object = some existing ∧
        statusObject existing obj =
          { existing with resourceVersion := obj.resourceVersion, status := obj.status } ∧
        (StatusFrame existing obj ↔ obj.GetResourceVersion = o.ResourceVersion) ∧
        statusWriter.Update env s repo schemeKind obj convert =
          (match s.Update env repo gvk (statusObject existing obj) false with
            | none => none
            | some (s, repo, .error err) => some (s, repo, .error err)
            | some (s, repo, .ok ret) =>
              match convert obj ret with
              | .ok filled => some (s, repo, .ok filled)
              | .error message => some (s, repo, .error (Error.Other message))) ∧
        (obj.GetResourceVersion = o.ResourceVersion →
          s.Update env repo gvk (statusObject existing obj) false =
            s.save env repo gvk (statusObject existing obj) o.Path false ∧
          ((statusObject existing obj).SetGroupVersionKind gvk).generation =
            existing.generation) ∧
        (obj.GetResourceVersion ≠ o.ResourceVersion →
          statusWriter.Update env s repo schemeKind obj convert =
            some (s, repo, .error (Error.Conflict gvk.Group gvk.Kind obj.GetName
              ("resourceVersion " ++ obj.GetResourceVersion ++
                " does not match requested " ++ o.ResourceVersion))))) := by
  constructor
  · intro hkind
    exact ⟨"Object Kind is missing", by simp [statusWriter.Update, convertCaller, hkind]⟩
  intro hkind gvk o hgvk ho
  have hst := tail_documented hs htail ho
  obtain ⟨hkey, existing, hu, hukey, -, hrv, -⟩ := hst
  have hname : (statusObject existing obj).GetName = obj.GetName := by
    have := congrArg ObjectKey.Name hukey
    simpa [Unstructured.key, statusObject, Unstructured.GetName,
      Unstructured.SetResourceVersion] using this
  have hns : (statusObject existing obj).GetNamespace = obj.GetNamespace := by
    have := congrArg ObjectKey.Namespace hukey
    simpa [Unstructured.key, statusObject, Unstructured.GetNamespace,
      Unstructured.SetResourceVersion] using this
  have hsrv : (statusObject existing obj).GetResourceVersion = obj.GetResourceVersion := rfl
  have hget := store_get_present gvk obj.GetNamespace obj.GetName (tail_wf hs htail) htail ho
  have hGVK : GVK obj.GroupVersionKind schemeKind = .ok gvk := by
    have hk : obj.GroupVersionKind.Kind ≠ "" := hkind
    simp only [GVK, hk, ne_eq, not_false_eq_true, if_true, hgvk]
  have hupd : statusWriter.Update env s repo schemeKind obj convert =
        (match s.Update env repo gvk (statusObject existing obj) false with
          | none => none
          | some (s, repo, .error err) => some (s, repo, .error err)
          | some (s, repo, .ok ret) =>
            match convert obj ret with
            | .ok filled => some (s, repo, .ok filled)
            | .error message => some (s, repo, .error (Error.Other message))) := by
    unfold statusWriter.Update
    simp only [convertCaller, hkind, if_false, hGVK, Store.Get, hget, Option.map_some', hu]
  have hupdate : ∀ generation, s.Update env repo gvk (statusObject existing obj) generation =
      if obj.GetResourceVersion ≠ o.ResourceVersion then
        some (s, repo, .error (Error.Conflict gvk.Group gvk.Kind obj.GetName
          ("resourceVersion " ++ obj.GetResourceVersion ++ " does not match requested " ++
            o.ResourceVersion)))
      else s.save env repo gvk (statusObject existing obj) o.Path generation := by
    intro generation
    unfold Store.Update
    rw [hname, hns, hget, hsrv]
    simp [hu]
  refine ⟨existing, hu, rfl, ?_, hupd, ?_, ?_⟩
  · rw [statusFrame_iff, hrv]
  · intro heq
    refine ⟨?_, rfl⟩
    rw [hupdate]
    simp [heq]
  · intro hne
    rw [hupd, hupdate]
    simp [hne]

theorem status_update_frame_witness :
    ∃ existing, widgetWeb.Object = some existing ∧
      statusObject existing freshStatus =
        { existing with resourceVersion := "2", status := "ready" } ∧
      StatusFrame existing freshStatus := by
  obtain ⟨existing, h1, h2, h3, -⟩ :=
    (status_update_frame sampleEnv storeOne sampleRepo (.ok widgetKind) freshStatus
      jsonInto revisionTwo storeOne_reachable rfl).2 (by decide) widgetKind widgetWeb
      (by with_unfolding_all rfl)
      (by simp [revisionTwo, sampleKey, widgetKind, freshStatus, sampleDoc,
        Unstructured.GetName, Unstructured.GetNamespace])
  exact ⟨existing, h1, h2, h3.2 rfl⟩

/-- Claim C18 as stated fails. Widget `a` is stored at resourceVersion "2" and the
caller's object carries "1": what `statusWriter.Update` hands to `Store.Update` differs
from the stored document in `metadata.resourceVersion` as well as in `status`, and the
call returns Conflict. And for a caller's object of the same key that carries no kind,
nothing is handed to `Store.Update`: the conversion error is returned. -/
theorem status_update_frame_counterexample :
    storeOne.Get widgetKind staleStatus.GetNamespace staleStatus.GetName =
        some (ClientObject.unstructured (some docWeb)) ∧
      ¬ StatusFrame docWeb staleStatus ∧
      (statusObject docWeb staleStatus).resourceVersion = "1" ∧
      docWeb.resourceVersion = "2" ∧
      statusWriter.Update sampleEnv storeOne sampleRepo (.ok widgetKind) staleStatus
          jsonInto =
        some (storeOne, sampleRepo, .error (Error.Conflict "example.com" "Widget" "a"
          "resourceVersion 1 does not match requested 2")) ∧
      storeOne.Get widgetKind untypedStatus.GetNamespace untypedStatus.GetName =
        some (ClientObject.unstructured (some docWeb)) ∧
      ∃ message, statusWriter.Update sampleEnv storeOne sampleRepo (.ok widgetKind)
          untypedStatus jsonInto =
        some (storeOne, sampleRepo, .error (Error.Other message)) := by
  refine ⟨rfl, ?_, rfl, rfl, by with_unfolding_all rfl, rfl, _, rfl⟩
  rw [statusFrame_iff]
  decide

/-! ## The working tree and the scan -/

theorem FileTree.read_mem {tree : FileTree} {path : String} {content : Bytes}
    (h : tree.read path = some content) : (path, content) ∈ tree := by
  induction tree with
  | nil => simp [FileTree.read] at h
  | cons e rest ih =>
    obtain ⟨p, c⟩ := e
    by_cases hp : p = path
    · subst hp
      simp only [FileTree.read, if_true, Option.some.injEq] at h
      simp [h]
    · simp only [FileTree.read, hp, if_false] at h
      exact List.mem_cons_of_mem _ (ih h)

theorem FileTree.mem_remove {tree : FileTree} {path : String} {e : String × Bytes} :
    e ∈ tree.remove path ↔ e ∈ tree ∧ e.1 ≠ path := by
  simp [FileTree.remove]

theorem FileTree.read_remove_self (tree : FileTree) (path : String) :
    (tree.remove path).read path = none := by
  cases h : (tree.remove path).read path with
  | none => rfl
  | some c => exact absurd rfl (FileTree.mem_remove.1 (FileTree.read_mem h)).2

theorem FileTree.mem_place {entry x : String × Bytes} {tree : FileTree} :
    x ∈ FileTree.place entry tree ↔ x = entry ∨ x ∈ tree := by
  induction tree with
  | nil => simp [FileTree.place]
  | cons e rest ih =>
    simp only [FileTree.place]
    split
    · simp
    · simp only [List.mem_cons, ih]
      tauto

theorem FileTree.read_place_self (entry : String × Bytes) (tree : FileTree)
    (h : tree.read entry.1 = none) :
    (FileTree.place entry tree).read entry.1 = some entry.2 := by
  induction tree with
  | nil => simp [FileTree.place, FileTree.read]
  | cons e rest ih =>
    obtain ⟨p, c⟩ := e
    have hp : p ≠ entry.1 := by
      intro hp
      simp [FileTree.read, hp] at h
    have hrest : FileTree.read rest entry.1 = none := by
      simpa [FileTree.read, hp] using h
    simp only [FileTree.place]
    split
    · simp [FileTree.read]
    · simp [FileTree.read, hp, ih hrest]

theorem FileTree.read_write_self (tree : FileTree) (path : String) (data : Bytes) :
    (tree.write path data).read path = some data :=
  FileTree.read_place_self (path, data) _ (FileTree.read_remove_self tree path)

theorem FileTree.mem_write {tree : FileTree} {path : String} {data : Bytes}
    {x : String × Bytes} :
    x ∈ tree.write path data ↔ x = (path, data) ∨ (x ∈ tree ∧ x.1 ≠ path) := by
  simp [FileTree.write, FileTree.mem_place, FileTree.mem_remove]

theorem startsWith_append (p r : List Char) : startsWith (p ++ r) p = true := by
  induction p with
  | nil => cases r <;> rfl
  | cons c cs ih => simp [startsWith, ih]

theorem endsWith_append (a b : List Char) : endsWith (a ++ b) b = true := by
  simp [endsWith, List.reverse_append, startsWith_append]

theorem scan_ok (env : Env) (s : Store) (repo : Repo)
    (hhead : env.gitExit ["rev-parse", "HEAD"] = none) (hwalk : env.walkDir = none) :
    s.scan env repo =
      ({ repo with trace := repo.trace ++ [Action.Git ["rev-parse", "HEAD"]] },
        .ok (env.headOutput,
          (repo.tree.filter fun entry =>
            underRoot (filepath.Join [repo.Dir, s.subDir]) entry.1 &&
              yamlFile entry.1).map Prod.fst)) := by
  simp [Store.scan, Repo.Head, Repo.git, hhead, hwalk, gitEffect]

theorem scanAndUpdate_ok (env : Env) (s : Store) (repo : Repo)
    (hhead : env.gitExit ["rev-parse", "HEAD"] = none) (hwalk : env.walkDir = none) :
    s.scanAndUpdate env repo =
      (s.add env.headOutput
        ((repo.tree.filter fun entry =>
          underRoot (filepath.Join [repo.Dir, s.subDir]) entry.1 &&
            yamlFile entry.1).map Prod.fst)
        repo.tree.read env.unmarshal env.uuids).map fun s' =>
        (s', { repo with trace := repo.trace ++ [Action.Git ["rev-parse", "HEAD"]] },
          none) := by
  unfold Store.scanAndUpdate
  rw [scan_ok env s repo hhead hwalk]
  simp only
  cases s.add env.headOutput
      ((repo.tree.filter fun entry =>
        underRoot (filepath.Join [repo.Dir, s.subDir]) entry.1 &&
          yamlFile entry.1).map Prod.fst)
      repo.tree.read env.unmarshal env.uuids <;> rfl

theorem twinStore_scan :
    storeZero.scanAndUpdate sampleEnv twinRepo =
      some (twinStore,
        { twinRepo with trace := [Action.Git ["rev-parse", "HEAD"]] }, none) := by
  rfl

theorem twinStore_reachable : Reachable twinStore :=
  reachable_add "c9" ["/repo/cfg/a.yaml", "/repo/cfg/z.yaml"] twinRepo.tree.read
    sampleUnmarshal uuidsTwo storeZero_reachable (by rfl)

/-! ## What a scan commits -/

theorem addStep_lookup {readFile : String → Option Bytes}
    {unmarshal : Bytes → Option Unstructured} {newFiles : GoMap} {file : String}
    {key : ObjectKey} {o : Object}
    (h : (addStep readFile unmarshal newFiles file).lookup key = some o) :
    newFiles.lookup key = some o ∨
      ∃ bytes u, readFile file = some bytes ∧ unmarshal bytes = some u ∧ u.key = key ∧
        o = fileObject file bytes u := by
  unfold addStep at h
  cases hread : readFile file with
  | none =>
    rw [hread] at h
    exact Or.inl h
  | some bytes =>
    rw [hread] at h
    simp only at h
    cases hdoc : unmarshal bytes with
    | none =>
      rw [hdoc] at h
      exact Or.inl h
    | some u =>
      rw [hdoc] at h
      simp only at h
      split at h
      · exact Or.inl h
      · rw [KeyedMap.lookup_insert] at h
        split at h
        · rename_i hk
          injection h with h
          exact Or.inr ⟨bytes, u, rfl, hdoc, hk, h.symm⟩
        · exact Or.inl h

theorem foldl_addStep_lookup {readFile : String → Option Bytes}
    {unmarshal : Bytes → Option Unstructured} (files : List String) {key : ObjectKey}
    {o : Object} :
    ∀ (newFiles : GoMap),
      (files.foldl (addStep readFile unmarshal) newFiles).lookup key = some o →
      newFiles.lookup key = some o ∨
        ∃ file ∈ files, ∃ bytes u, readFile file = some bytes ∧ unmarshal bytes = some u ∧
          u.key = key ∧ o = fileObject file bytes u := by
  induction files with
  | nil => exact fun newFiles h => Or.inl h
  | cons file files ih =>
    intro newFiles h
    rw [List.foldl_cons] at h
    rcases ih _ h with h1 | ⟨f, hf, bytes, u, h2⟩
    · rcases addStep_lookup h1 with h3 | ⟨bytes, u, h3⟩
      · exact Or.inl h3
      · exact Or.inr ⟨file, List.mem_cons_self _ _, bytes, u, h3⟩
    · exact Or.inr ⟨f, List.mem_cons_of_mem _ hf, bytes, u, h2⟩

theorem addStep_lookup_isSome (readFile : String → Option Bytes)
    (unmarshal : Bytes → Option Unstructured) (newFiles : GoMap) (file : String)
    (key : ObjectKey) (h : (newFiles.lookup key).isSome) :
    ((addStep readFile unmarshal newFiles file).lookup key).isSome := by
  unfold addStep
  cases readFile file with
  | none => exact h
  | some bytes =>
    simp only
    cases unmarshal bytes with
    | none => exact h
    | some u =>
      simp only
      split
      · exact h
      · rw [KeyedMap.lookup_insert]
        split
        · rfl
        · exact h

theorem foldl_addStep_isSome (readFile : String → Option Bytes)
    (unmarshal : Bytes → Option Unstructured) (files : List String) (key : ObjectKey) :
    ∀ (newFiles : GoMap), (newFiles.lookup key).isSome →
      ((files.foldl (addStep readFile unmarshal) newFiles).lookup key).isSome := by
  induction files with
  | nil => exact fun _ h => h
  | cons file files ih =>
    intro newFiles h
    exact ih _ (addStep_lookup_isSome readFile unmarshal newFiles file key h)

theorem foldl_addStep_present {readFile : String → Option Bytes}
    {unmarshal : Bytes → Option Unstructured} {files : List String} {file : String}
    {bytes : Bytes} {u : Unstructured} (hfile : file ∈ files)
    (hread : readFile file = some bytes) (hdoc : unmarshal bytes = some u)
    (hkind : u.GroupVersionKind.Kind ≠ "") (hname : u.GetName ≠ "")
    (hversion : u.GroupVersionKind.Version ≠ "") :
    ∀ (newFiles : GoMap),
      ((files.foldl (addStep readFile unmarshal) newFiles).lookup u.key).isSome := by
  induction files with
  | nil => simp at hfile
  | cons f files ih =>
    intro newFiles
    rw [List.foldl_cons]
    rcases List.mem_cons.1 hfile with heq | hmem
    · subst heq
      apply foldl_addStep_isSome
      unfold addStep
      rw [hread]
      simp only
      rw [hdoc]
      simp only [hkind, hname, hversion, or_self, if_false]
      rw [KeyedMap.lookup_insert]
      simp [Unstructured.key]
    · exact ih hmem _

theorem foldl_addStep_unique {readFile : String → Option Bytes}
    {unmarshal : Bytes → Option Unstructured} {files : List String} {file : String}
    {bytes : Bytes} {u : Unstructured} (hfile : file ∈ files)
    (hread : readFile file = some bytes) (hdoc : unmarshal bytes = some u)
    (hkind : u.GroupVersionKind.Kind ≠ "") (hname : u.GetName ≠ "")
    (hversion : u.GroupVersionKind.Version ≠ "")
    (hother : ∀ f ∈ files, f ≠ file → ∀ b d, readFile f = some b → unmarshal b = some d →
      d.key ≠ u.key) :
    (files.foldl (addStep readFile unmarshal) []).lookup u.key =
      some (fileObject file bytes u) := by
  have hsome := foldl_addStep_present hfile hread hdoc hkind hname hversion []
  cases hl : (files.foldl (addStep readFile unmarshal) []).lookup u.key with
  | none => rw [hl] at hsome; simp at hsome
  | some o =>
    rcases foldl_addStep_lookup files [] hl with h0 | ⟨f, hf, b, d, hb, hd, hkey, ho⟩
    · simp [KeyedMap.lookup] at h0
    · by_cases hff : f = file
      · subst hff
        rw [hread] at hb
        injection hb with hb
        subst hb
        rw [hdoc] at hd
        injection hd with hd
        subst hd
        rw [ho]
      · exact absurd hkey (hother f hf hff b d hb hd)

theorem foldl_addStep_absent {readFile : String → Option Bytes}
    {unmarshal : Bytes → Option Unstructured} {files : List String} {key : ObjectKey}
    (hother : ∀ f ∈ files, ∀ b d, readFile f = some b → unmarshal b = some d →
      d.key ≠ key) :
    (files.foldl (addStep readFile unmarshal) []).lookup key = none := by
  cases hl : (files.foldl (addStep readFile unmarshal) []).lookup key with
  | none => rfl
  | some o =>
    rcases foldl_addStep_lookup files [] hl with h0 | ⟨f, hf, b, d, hb, hd, hkey, -⟩
    · simp [KeyedMap.lookup] at h0
    · exact absurd hkey (hother f hf b d hb hd)

theorem commit_tail_cases {s s' : Store} {commit : String} {files : GoMap}
    {uuids : Nat → UID} {cur : Revision} (hinv : Inv s) (hv : ValidFiles files)
    (hc : s.commit commit files uuids = some s')
    (hcur : s.revisions.getLast? = some cur) :
    (s' = { s with currentCommit := commit } ∧
      (newRevision (toString s.revisions.length) cur files uuids).add = [] ∧
      (newRevision (toString s.revisions.length) cur files uuids).deleted = [] ∧
      (newRevision (toString s.revisions.length) cur files uuids).modified = []) ∨
    s' = { s with
      revisions :=
        s.revisions ++ [newRevision (toString s.revisions.length) cur files uuids],
      currentCommit := commit } := by
  have hwf := hinv.wf cur (List.mem_of_getLast?_eq_some hcur)
  rw [commit_eq, hcur] at hc
  simp only [newRevision_docs hv hwf, if_true] at hc
  split at hc
  · rename_i hempty
    injection hc with hc
    exact Or.inl ⟨hc.symm, List.length_eq_zero.1 hempty.1,
      List.length_eq_zero.1 hempty.2.1, List.length_eq_zero.1 hempty.2.2⟩
  · injection hc with hc
    exact Or.inr hc.symm

theorem commit_key_absent {s s' : Store} {commit : String} {files : GoMap}
    {uuids : Nat → UID} {key : ObjectKey} (hinv : Inv s) (hv : ValidFiles files)
    (hc : s.commit commit files uuids = some s') (hkey : files.lookup key = none)
    {tail : Revision} (htail : s'.revisions.getLast? = some tail) (o : Object) :
    (key, o) ∉ tail.data := by
  obtain ⟨cur, hcur, -⟩ := inv_getLast hinv
  intro hmem
  rcases commit_tail_cases hinv hv hc hcur with ⟨hs, -, hdel, -⟩ | hs
  · subst hs
    simp only at htail
    rw [hcur] at htail
    injection htail with htail
    subst htail
    have hin : o ∈ (newRevision (toString s.revisions.length) cur files uuids).deleted := by
      simp only [newRevision, List.mem_map, List.mem_filter]
      exact ⟨(key, o), ⟨hmem, by simp [hkey]⟩, rfl⟩
    rw [hdel] at hin
    simp at hin
  · subst hs
    rw [List.getLast?_concat] at htail
    injection htail with htail
    subst htail
    have hk := KeyedMap.mem_keys_of_mem hmem
    rw [newRevision_keys _ _ _ _ hv] at hk
    exact (KeyedMap.lookup_eq_none_iff.1 hkey) hk

theorem commit_key_added {s s' : Store} {commit : String} {files : GoMap}
    {uuids : Nat → UID} {key : ObjectKey} {obj : Object} {cur : Revision}
    (hinv : Inv s) (hv : ValidFiles files)
    (hc : s.commit commit files uuids = some s')
    (hcur : s.revisions.getLast? = some cur)
    (hfree : cur.data.lookup key = none) (hkey : files.lookup key = some obj) :
    ∃ tail n, s'.revisions = s.revisions ++ [tail] ∧
      (key, setDynamicFields
        { obj with UID := uuids n, ResourceVersion := toString s.revisions.length }) ∈
        tail.data := by
  have hli := loopInv_foldl (toString s.revisions.length) cur uuids files hv.1
  have hk : key ∈ KeyedMap.keys
      (files.foldl (commitStep (toString s.revisions.length) cur uuids) {}).data := by
    rw [hli.keys_eq]
    exact KeyedMap.mem_keys_of_mem (KeyedMap.mem_of_lookup hkey)
  obtain ⟨o1, ho1⟩ := KeyedMap.exists_mem_of_mem_keys hk
  obtain ⟨obj1, hobj1, hcase⟩ := hli.data_spec _ ho1
  simp only at hobj1 hcase
  have hobj : obj1 = obj := by
    have := KeyedMap.lookup_of_mem hv.1 hobj1
    rw [hkey] at this
    injection this with this
    exact this.symm
  subst hobj
  rcases hcase with h1 | ⟨old, h1, -⟩ | ⟨-, ⟨n, hn⟩, hadd⟩
  · rw [hfree] at h1
    simp at h1
  · rw [hfree] at h1
    simp at h1
  · rcases commit_tail_cases hinv hv hc hcur with ⟨-, hempty, -, -⟩ | hs
    · have hin : setDynamicFields o1 ∈
          (newRevision (toString s.revisions.length) cur files uuids).add := by
        simp only [newRevision]
        exact List.mem_map.2 ⟨o1, hadd, rfl⟩
      rw [hempty] at hin
      simp at hin
    · subst hs
      refine ⟨_, n, rfl, ?_⟩
      simp only [newRevision]
      rw [← hn]
      exact List.mem_map.2 ⟨(key, o1), ho1, rfl⟩

/-! ## Delete -/

theorem soloStore_reachable : Reachable soloStore :=
  reachable_add "c9" ["/repo/cfg/a.yaml"] sampleRepo.tree.read
    sampleUnmarshal uuidsTwo storeZero_reachable (by rfl)

theorem repo_delete_ok (env : Env) (repo : Repo) (path : String)
    (hrm : env.gitExit ["rm", "-f", path] = none)
    (hcommit : env.gitExit ["commit", "-m", "controller update"] = none)
    (hpush : env.gitExit ["push"] = none) :
    repo.Delete env path =
      ({ repo with
          tree := repo.tree.remove path,
          trace := repo.trace ++ [Action.Git ["rm", "-f", path],
            Action.Git ["commit", "-m", "controller update"], Action.Git ["push"]] },
        none) := by
  simp [Repo.Delete, Repo.git, Repo.commitAndPush, gitEffect, hrm, hcommit, hpush]

theorem deleteFile_error_other {env : Env} {s s' : Store} {repo repo' : Repo}
    {found : Object} {e : Error}
    (h : s.deleteFile env repo found = some (s', repo', some e)) :
    ∃ message, e = Error.Other message := by
  unfold Store.deleteFile at h
  split at h
  · simp only [Option.some.injEq, Prod.mk.injEq] at h
    exact ⟨_, h.2.2.symm⟩
  · unfold Store.scanAndUpdate at h
    split at h
    · simp only [Option.some.injEq, Prod.mk.injEq] at h
      exact ⟨_, h.2.2.symm⟩
    · split at h
      · simp at h
      · simp at h

theorem add_isSome {s : Store} (commit : String) (files : List String)
    (readFile : String → Option Bytes) (unmarshal : Bytes → Option Unstructured)
    (uuids : Nat → UID) (hs : Reachable s) :
    ∃ s', s.add commit files readFile unmarshal uuids = some s' :=
  commit_isSome commit uuids (reachable_inv hs) (add_files_valid readFile unmarshal files)

theorem delete_present (env : Env) {s : Store} (repo : Repo) {gvk : GroupVersionKind}
    {namespace_ name : String} (preconditions : Option Preconditions) {tail : Revision}
    {o : Object} (hs : Reachable s) (htail : s.revisions.getLast? = some tail)
    (ho : (({ Kind := gvk.Kind, Group := gvk.Group, Name := name,
              Namespace := namespace_ } : ObjectKey), o) ∈ tail.data) :
    (PreconditionsFail preconditions o →
      ∃ message, s.Delete env repo gvk namespace_ name preconditions =
        some (s, repo, some (Error.Conflict gvk.Group gvk.Kind name message))) ∧
    (¬ PreconditionsFail preconditions o →
      s.Delete env repo gvk namespace_ name preconditions = s.deleteFile env repo o) := by
  obtain ⟨-, u, hu, -, -, hrv, huid⟩ := tail_documented hs htail ho
  have hdel : s.Delete env repo gvk namespace_ name preconditions =
      match preconditions.bind Preconditions.ResourceVersion with
      | some rv =>
        if u.GetResourceVersion ≠ rv then
          some (s, repo, some (Error.Conflict gvk.Group gvk.Kind name
            ("resourceVersion " ++ u.GetResourceVersion ++ " does not match requested " ++
              rv)))
        else s.deleteCheckUID env repo gvk name o u preconditions
      | none => s.deleteCheckUID env repo gvk name o u preconditions := by
    unfold Store.Delete
    rw [store_get_present gvk namespace_ name (tail_wf hs htail) htail ho]
    simp only [hu]
  rw [hdel]
  unfold PreconditionsFail Store.deleteCheckUID
  rw [← hrv, ← huid]
  cases hprv : preconditions.bind Preconditions.ResourceVersion with
  | none =>
    cases hpuid : preconditions.bind Preconditions.UID with
    | none => simp
    | some uid =>
      by_cases hne : u.GetUID = uid
      · simp [hne]
      · simp [hne]
  | some rv =>
    by_cases hrvne : u.GetResourceVersion = rv
    · cases hpuid : preconditions.bind Preconditions.UID with
      | none => simp [hrvne]
      | some uid =>
        by_cases hne : u.GetUID = uid
        · simp [hne, hrvne]
        · simp [hne, hrvne]
    · simp [hrvne]

theorem deleteFile_ok {env : Env} {s : Store} (repo : Repo) {o : Object} {key : ObjectKey}
    (hs : Reachable s)
    (hrm : env.gitExit ["rm", "-f", o.Path] = none)
    (hcommit : env.gitExit ["commit", "-m", "controller update"] = none)
    (hpush : env.gitExit ["push"] = none)
    (hhead : env.gitExit ["rev-parse", "HEAD"] = none) (hwalk : env.walkDir = none) :
    ∃ s', s.deleteFile env repo o =
        some (s',
          { repo with
            tree := repo.tree.remove o.Path,
            trace := repo.trace ++ [Action.Git ["rm", "-f", o.Path],
              Action.Git ["commit", "-m", "controller update"], Action.Git ["push"],
              Action.Git ["rev-parse", "HEAD"]] }, none) ∧
      ((∀ entry ∈ repo.tree, entry.1 ≠ o.Path →
          underRoot (filepath.Join [repo.Dir, s.subDir]) entry.1 = true →
          yamlFile entry.1 = true →
          ∀ d, env.unmarshal entry.2 = some d → d.key ≠ key) →
        ∀ tail', s'.revisions.getLast? = some tail' → ∀ o', (key, o') ∉ tail'.data) := by
  obtain ⟨s', hadd⟩ := add_isSome env.headOutput
    (((repo.tree.remove o.Path).filter fun entry =>
      underRoot (filepath.Join [repo.Dir, s.subDir]) entry.1 && yamlFile entry.1).map
      Prod.fst)
    (repo.tree.remove o.Path).read env.unmarshal env.uuids hs
  refine ⟨s', ?_, ?_⟩
  · unfold Store.deleteFile
    rw [repo_delete_ok env repo o.Path hrm hcommit hpush]
    simp only
    rw [scanAndUpdate_ok env s _ hhead hwalk]
    simp only [hadd, Option.map_some', List.append_assoc, List.cons_append, List.nil_append]
  · intro hother tail' htail' o'
    refine commit_key_absent (reachable_inv hs) (add_files_valid _ _ _) hadd ?_ htail' o'
    apply foldl_addStep_absent
    intro f hf b d hb hd
    obtain ⟨⟨f', c⟩, hmem, hf'⟩ := List.mem_map.1 hf
    simp only at hf'
    subst hf'
    simp only [List.mem_filter, Bool.and_eq_true] at hmem
    have hin := FileTree.mem_remove.1 (FileTree.read_mem hb)
    exact hother (f', b) hin.1 hin.2 hmem.2.1 hmem.2.2 d hd

/-- The contract of `Store.Delete` on a reachable store. A key absent from the tail:
success, with the store and the repository as they were. A key present with object `o`:
when the preconditions fail (resourceVersion set and different from the stored one, or
uid set and different from the stored one) Conflict, with the store and the repository
as they were; otherwise the removal of the file of `o` through git followed by a scan,
which returns no Conflict; and when `git rm`, commit, push, `rev-parse` and the walk
succeed, the call succeeds, the file of `o` is no longer in the working tree, and the
key is absent from the new tail provided no other scanned file of the working tree
holds an object with that key. -/
theorem delete_contract (env : Env) (s : Store) (repo : Repo)
    (gvk : GroupVersionKind) (namespace_ name : String)
    (preconditions : Option Preconditions) (tail : Revision)
    (hs : Reachable s) (htail : s.revisions.getLast? = some tail) :
    ((∀ o, (({ Kind := gvk.Kind, Group := gvk.Group, Name := name,
               Namespace := namespace_ } : ObjectKey), o) ∉ tail.data) →
      s.Delete env repo gvk namespace_ name preconditions = some (s, repo, none)) ∧
    (∀ o, (({ Kind := gvk.Kind, Group := gvk.Group, Name := name,
              Namespace := namespace_ } : ObjectKey), o) ∈ tail.data →
      (PreconditionsFail preconditions o →
        ∃ message, s.Delete env repo gvk namespace_ name preconditions =
          some (s, repo, some (Error.Conflict gvk.Group gvk.Kind name message))) ∧
      (¬ PreconditionsFail preconditions o →
        s.Delete env repo gvk namespace_ name preconditions = s.deleteFile env repo o ∧
        (∀ s' repo' group resource name' message,
          s.Delete env repo gvk namespace_ name preconditions ≠
            some (s', repo', some (Error.Conflict group resource name' message))) ∧
        (env.gitExit ["rm", "-f", o.Path] = none →
          env.gitExit ["commit", "-m", "controller update"] = none →
          env.gitExit ["push"] = none →
          env.gitExit ["rev-parse", "HEAD"] = none → env.walkDir = none →
          ∃ s', s.Delete env repo gvk namespace_ name preconditions =
              some (s',
                { repo with
                  tree := repo.tree.remove o.Path,
                  trace := repo.trace ++ [Action.Git ["rm", "-f", o.Path],
                    Action.Git ["commit", "-m", "controller update"],
                    Action.Git ["push"], Action.Git ["rev-parse", "HEAD"]] }, none) ∧
            (repo.tree.remove o.Path).read o.Path = none ∧
            ((∀ entry ∈ repo.tree, entry.1 ≠ o.Path →
                underRoot (filepath.Join [repo.Dir, s.subDir]) entry.1 = true →
                yamlFile entry.1 = true →
                ∀ d, env.unmarshal entry.2 = some d →
                  d.key ≠ { Kind := gvk.Kind, Group := gvk.Group, Name := name,
                            Namespace := namespace_ }) →
              ∀ tail', s'.revisions.getLast? = some tail' →
                ∀ o', (({ Kind := gvk.Kind, Group := gvk.Group, Name := name,
                          Namespace := namespace_ } : ObjectKey), o') ∉ tail'.data)))) := by
  constructor
  · intro habs
    unfold Store.Delete
    rw [store_get_absent gvk namespace_ name htail habs]
    rfl
  · intro o ho
    obtain ⟨hfail, hpass⟩ := delete_present env repo preconditions hs htail ho
    refine ⟨hfail, ?_⟩
    intro hnot
    have hdel := hpass hnot
    refine ⟨hdel, ?_, ?_⟩
    · intro s' repo' group resource name' message hcon
      rw [hdel] at hcon
      obtain ⟨m, hm⟩ := deleteFile_error_other hcon
      cases hm
    · intro hrm hcommit hpush hhead hwalk
      obtain ⟨s', hfile, hkey⟩ := deleteFile_ok repo hs hrm hcommit hpush hhead hwalk
      exact ⟨s', by rw [hdel, hfile], FileTree.read_remove_self _ _, hkey⟩

theorem deleteFile_walk_error (env : Env) (s : Store) (repo : Repo) (o : Object)
    (message : String)
    (hrm : env.gitExit ["rm", "-f", o.Path] = none)
    (hcommit : env.gitExit ["commit", "-m", "controller update"] = none)
    (hpush : env.gitExit ["push"] = none)
    (hhead : env.gitExit ["rev-parse", "HEAD"] = none)
    (hwalk : env.walkDir = some message) :
    s.deleteFile env repo o =
      some (s,
        { repo with
          tree := repo.tree.remove o.Path,
          trace := repo.trace ++ [Action.Git ["rm", "-f", o.Path],
            Action.Git ["commit", "-m", "controller update"], Action.Git ["push"],
            Action.Git ["rev-parse", "HEAD"]] },
        some (Error.Other message)) := by
  unfold Store.deleteFile
  rw [repo_delete_ok env repo o.Path hrm hcommit hpush]
  simp [Store.scanAndUpdate, Store.scan, Repo.Head, Repo.git, hhead, hwalk, gitEffect]

/-- Claim C12, the failing input. Widget `a` is stored from `/repo/cfg/a.yaml`, the
only file under the sub-directory `cfg`. A delete without preconditions runs
`git rm -f`, commit and push, which succeed; `git rm` removes the directory it leaves
empty, so the walk that `scan` starts at `/repo/cfg` fails, and `Delete` returns that
error before `add` and `commit` are reached: the file is gone from the working tree,
the log of the store is as it was and a `Get` of the key still returns the widget. -/
theorem delete_last_file :
    Reachable soloStore ∧
    soloStore.Get widgetKind "default" "a" =
      some (ClientObject.unstructured (some docSolo)) ∧
    soloStore.Delete emptiedEnv sampleRepo widgetKind "default" "a" none =
      some (soloStore,
        { sampleRepo with
          tree := [],
          trace := [Action.Git ["rm", "-f", "/repo/cfg/a.yaml"],
            Action.Git ["commit", "-m", "controller update"], Action.Git ["push"],
            Action.Git ["rev-parse", "HEAD"]] },
        some (Error.Other "lstat /repo/cfg: no such file or directory")) :=
  ⟨soloStore_reachable, rfl, rfl⟩

/-- Two files of the working tree hold widget `a`, and the store keeps the one the walk
visits last, `/repo/cfg/z.yaml`. A delete with no preconditions and git succeeding
removes that file and returns success, and the scan that follows finds the widget in
the other file, so the key is still in the new tail, as a modified object. The result of
the call is shown as the error returned, the files of the working tree after it, and
the keys of the data and of the modified list of the new tail. -/
theorem delete_twin_file :
    Reachable twinStore ∧
    twinStore.Get widgetKind "default" "a" =
      some (ClientObject.unstructured (some docTwin)) ∧
    (twinStore.Delete sampleEnv twinRepo widgetKind "default" "a" none).map
        (fun r => (r.2.2, r.2.1.tree,
          r.1.revisions.getLast?.map fun tail =>
            (KeyedMap.keys tail.data, tail.modified.map Object.toObjectKey))) =
      some (none, [("/repo/cfg/a.yaml", [1])], some ([sampleKey "a"], [sampleKey "a"])) :=
  ⟨twinStore_reachable, rfl, rfl⟩

/-! ## Create, then Get -/

theorem int64_of_range {x : Int} (h1 : -2 ^ 63 ≤ x) (h2 : x < 2 ^ 63) : int64 x = x := by
  unfold int64
  norm_num at h1 h2 ⊢
  omega

theorem repo_add_ok (env : Env) (repo : Repo) (path : String) (data : Bytes)
    (hmkdir : env.mkdirAll (filepath.Dir path) = none)
    (hwrite : env.writeFile path data = none)
    (hadd : env.gitExit ["add", path] = none)
    (hcommit : env.gitExit ["commit", "-m", "controller update"] = none)
    (hpush : env.gitExit ["push"] = none) :
    repo.Add env path data =
      ({ repo with
          tree := repo.tree.write path data,
          trace := repo.trace ++ [Action.MkdirAll (filepath.Dir path),
            Action.WriteFile path data, Action.Git ["add", path],
            Action.Git ["commit", "-m", "controller update"], Action.Git ["push"]] },
        none) := by
  simp [Repo.Add, Repo.git, Repo.commitAndPush, gitEffect, hmkdir, hwrite, hadd, hcommit,
    hpush]

theorem save_eq {env : Env} {s s' : Store} {repo repo1 repo2 : Repo}
    (gvk : GroupVersionKind) (object : Unstructured) {path : String} (generation : Bool)
    {data : Bytes} {found : Object}
    (hm : env.marshal
        (if generation then
          { object.SetGroupVersionKind gvk with
            generation := int64 ((object.SetGroupVersionKind gvk).generation + 1) }
        else object.SetGroupVersionKind gvk) = .ok data)
    (hadd : repo.Add env path data = (repo1, none))
    (hscan : s.scanAndUpdate env repo1 = some (s', repo2, none))
    (hget : s'.get gvk object.GetNamespace object.GetName = some found) :
    s.save env repo gvk object path generation = some (s', repo2, .ok found.Object) := by
  unfold Store.save
  simp only [hm, hadd, hscan, hget]

theorem createFile_foldl (dir subDir : String) (gvk : GroupVersionKind)
    (namespace_ name : String) (hdir : dir ≠ "")
    (hroot : filepath.Join [dir, subDir] ≠ "/" ∧ filepath.Join [dir, subDir] ≠ ".")
    (hs : ∀ c ∈ [gvk.Group, gvk.Version, gvk.Kind, namespace_, name], SimpleName c) :
    createFile dir subDir gvk namespace_ name =
      (([gvk.Group, gvk.Version, gvk.Kind, namespace_, name].filter fun c => c ≠ "").foldl
        (fun path c => path ++ "/" ++ c) (filepath.Join [dir, subDir])) ++ ".yaml" := by
  apply String.ext
  rw [createFile_data dir subDir gvk namespace_ name hdir hs, String.data_append,
    foldl_string_data, filter_data, join_root_data dir subDir hdir,
    renderPath_append _ _ _ (root_stack_ne_nil dir subDir hdir hroot)]

theorem foldl_slash_prefix (cs : List String) (hcs : cs ≠ []) :
    ∀ root : String, ∃ rest,
      (cs.foldl (fun path c => path ++ "/" ++ c) root).data = root.data ++ '/' :: rest := by
  induction cs with
  | nil => exact absurd rfl hcs
  | cons c cs ih =>
    intro root
    rw [List.foldl_cons]
    cases cs with
    | nil => exact ⟨c.data, by simp [String.data_append]⟩
    | cons c' cs' =>
      obtain ⟨rest, hrest⟩ := ih (by simp) (root ++ "/" ++ c)
      exact ⟨c.data ++ '/' :: rest, by rw [hrest]; simp [String.data_append]⟩

theorem createFile_scanned (dir subDir : String) (gvk : GroupVersionKind)
    (namespace_ name : String) (hdir : dir ≠ "") (hname : name ≠ "")
    (hroot : filepath.Join [dir, subDir] ≠ "/" ∧ filepath.Join [dir, subDir] ≠ ".")
    (hs : ∀ c ∈ [gvk.Group, gvk.Version, gvk.Kind, namespace_, name], SimpleName c) :
    underRoot (filepath.Join [dir, subDir]) (createFile dir subDir gvk namespace_ name) =
        true ∧
      yamlFile (createFile dir subDir gvk namespace_ name) = true := by
  have hfile := createFile_foldl dir subDir gvk namespace_ name hdir hroot hs
  have hne : ([gvk.Group, gvk.Version, gvk.Kind, namespace_, name].filter
      fun c => c ≠ "") ≠ [] := by
    intro hnil
    have hmem : name ∈ [gvk.Group, gvk.Version, gvk.Kind, namespace_, name].filter
        fun c => c ≠ "" := by
      simp [List.mem_filter, hname]
    rw [hnil] at hmem
    simp at hmem
  obtain ⟨rest, hrest⟩ := foldl_slash_prefix _ hne (filepath.Join [dir, subDir])
  have hdata : (createFile dir subDir gvk namespace_ name).data =
      ((filepath.Join [dir, subDir]).data ++ ['/']) ++ (rest ++ ".yaml".data) := by
    rw [hfile, String.data_append, hrest]
    simp
  constructor
  · unfold underRoot
    rw [if_neg hroot.1, if_neg hroot.2, hdata]
    exact startsWith_append _ _
  · unfold yamlFile
    have hlow : (createFile dir subDir gvk namespace_ name).data.map Char.toLower =
        (((filepath.Join [dir, subDir]).data ++ ['/']) ++ rest).map Char.toLower ++
          ".yaml".data := by
      rw [hdata, ← List.append_assoc, List.map_append]
      rfl
    rw [hlow, endsWith_append]
    rfl

/-- Claim C14, with the conditions under which the round trip holds. On a reachable
store, for an object with a non-empty name and a GVK with non-empty kind and version,
whose path components are simple, whose key is free, whose generation can be
incremented, with YAML decoding inverting the encoding of the stamped clone, the
directory, file write, `git add`, commit, push, `rev-parse` and the walk succeeding, and
no other scanned file of the working tree holding the key: `Store.Create` returns a
document, a following `Get` of the key returns that same document, and the document is
the created object with apiVersion and kind set from the GVK, generation increased by
one, resourceVersion the index of the new revision and a fresh uid. -/
theorem create_then_get (env : Env) (s : Store) (repo : Repo) (gvk : GroupVersionKind)
    (object : Unstructured) (tail : Revision) (data : Bytes)
    (hs : Reachable s) (htail : s.revisions.getLast? = some tail)
    (hname : object.GetName ≠ "") (hkind : gvk.Kind ≠ "") (hversion : gvk.Version ≠ "")
    (hdir : repo.Dir ≠ "")
    (hroot : filepath.Join [repo.Dir, s.subDir] ≠ "/" ∧
      filepath.Join [repo.Dir, s.subDir] ≠ ".")
    (hsimple : ∀ c ∈ [gvk.Group, gvk.Version, gvk.Kind, object.GetNamespace,
      object.GetName], SimpleName c)
    (hgen : -2 ^ 63 ≤ object.generation + 1 ∧ object.generation + 1 < 2 ^ 63)
    (hfree : ∀ o, (({ Kind := gvk.Kind, Group := gvk.Group, Name := object.GetName,
                      Namespace := object.GetNamespace } : ObjectKey), o) ∉ tail.data)
    (hencode : env.marshal
        { object.SetGroupVersionKind gvk with generation := object.generation + 1 } =
      .ok data)
    (hdecode : env.unmarshal data =
      some { object.SetGroupVersionKind gvk with generation := object.generation + 1 })
    (hmkdir : env.mkdirAll (filepath.Dir
      (createFile repo.Dir s.subDir gvk object.GetNamespace object.GetName)) = none)
    (hwrite : env.writeFile
      (createFile repo.Dir s.subDir gvk object.GetNamespace object.GetName) data = none)
    (hadd : env.gitExit
      ["add", createFile repo.Dir s.subDir gvk object.GetNamespace object.GetName] = none)
    (hcommit : env.gitExit ["commit", "-m", "controller update"] = none)
    (hpush : env.gitExit ["push"] = none)
    (hhead : env.gitExit ["rev-parse", "HEAD"] = none) (hwalk : env.walkDir = none)
    (hother : ∀ entry ∈ repo.tree,
      entry.1 ≠ createFile repo.Dir s.subDir gvk object.GetNamespace object.GetName →
      underRoot (filepath.Join [repo.Dir, s.subDir]) entry.1 = true →
      yamlFile entry.1 = true →
      ∀ d, env.unmarshal entry.2 = some d →
        d.key ≠ { Kind := gvk.Kind, Group := gvk.Group, Name := object.GetName,
                  Namespace := object.GetNamespace }) :
    ∃ s' repo' n doc,
      doc = { object with
        group := gvk.Group, version := gvk.Version, kind := gvk.Kind,
        generation := object.generation + 1,
        resourceVersion := toString s.revisions.length, uid := env.uuids n } ∧
      s.Create env repo gvk object = some (s', repo', .ok (some doc)) ∧
      s'.Get gvk object.GetNamespace object.GetName =
        some (ClientObject.unstructured (some doc)) := by
  have hinv := reachable_inv hs
  have hscanned := createFile_scanned repo.Dir s.subDir gvk object.GetNamespace
    object.GetName hdir hname hroot hsimple
  have hrepo := repo_add_ok env repo
    (createFile repo.Dir s.subDir gvk object.GetNamespace object.GetName) data
    hmkdir hwrite hadd hcommit hpush
  obtain ⟨s', hs'⟩ := add_isSome env.headOutput
    (((repo.tree.write (createFile repo.Dir s.subDir gvk object.GetNamespace
        object.GetName) data).filter fun entry =>
      underRoot (filepath.Join [repo.Dir, s.subDir]) entry.1 && yamlFile entry.1).map
      Prod.fst)
    (repo.tree.write (createFile repo.Dir s.subDir gvk object.GetNamespace
        object.GetName) data).read env.unmarshal env.uuids hs
  have hlookup : ((((repo.tree.write (createFile repo.Dir s.subDir gvk object.GetNamespace
        object.GetName) data).filter fun entry =>
      underRoot (filepath.Join [repo.Dir, s.subDir]) entry.1 && yamlFile entry.1).map
      Prod.fst).foldl (addStep (repo.tree.write (createFile repo.Dir s.subDir gvk
        object.GetNamespace object.GetName) data).read env.unmarshal) []).lookup
      { Kind := gvk.Kind, Group := gvk.Group, Name := object.GetName,
        Namespace := object.GetNamespace } =
      some (fileObject (createFile repo.Dir s.subDir gvk object.GetNamespace
        object.GetName) data
        { object.SetGroupVersionKind gvk with generation := object.generation + 1 }) := by
    refine foldl_addStep_unique (u := { object.SetGroupVersionKind gvk with
      generation := object.generation + 1 }) ?_ (FileTree.read_write_self _ _ _) hdecode
      hkind hname hversion ?_
    · refine List.mem_map.2 ⟨(_, data), ?_, rfl⟩
      simp only [List.mem_filter, Bool.and_eq_true]
      exact ⟨FileTree.mem_write.2 (Or.inl rfl), hscanned.1, hscanned.2⟩
    · intro f hf hne b d hb hd
      obtain ⟨⟨f', c⟩, hmem, hf'⟩ := List.mem_map.1 hf
      simp only at hf'
      subst hf'
      simp only [List.mem_filter, Bool.and_eq_true] at hmem
      rcases FileTree.mem_write.1 (FileTree.read_mem hb) with heq | ⟨hin, -⟩
      · injection heq with h1 h2
        exact absurd h1 hne
      · exact hother (f', b) hin hne hmem.2.1 hmem.2.2 d hd
  have hfree' : tail.data.lookup
      { Kind := gvk.Kind, Group := gvk.Group, Name := object.GetName,
        Namespace := object.GetNamespace } = none := by
    rw [KeyedMap.lookup_eq_none_iff]
    intro hk
    obtain ⟨v, hv⟩ := KeyedMap.exists_mem_of_mem_keys hk
    exact hfree v hv
  obtain ⟨tail', n, hrev, hmem⟩ := commit_key_added hinv (add_files_valid _ _ _) hs' htail
    hfree' hlookup
  have hreach : Reachable s' := reachable_add _ _ _ _ _ hs hs'
  have htail' : s'.revisions.getLast? = some tail' := by
    rw [hrev, List.getLast?_concat]
  have hget := store_get_present gvk object.GetNamespace object.GetName
    (tail_wf hreach htail') htail' hmem
  have hsave := save_eq gvk object true
    (by simpa [Unstructured.SetGroupVersionKind, int64_of_range hgen.1 hgen.2]
      using hencode) hrepo
    ((scanAndUpdate_ok env s _ hhead hwalk).trans (by rw [hs']; rfl)) hget
  refine ⟨s', ?repo', n, _, rfl, ?hcreate, ?hget⟩
  case hcreate =>
    rw [create_named env s repo gvk object hname, store_get_absent gvk _ _ htail hfree]
    simp only [Object.zero, ne_eq, not_true_eq_false, if_false]
    exact hsave
  case hget =>
    unfold Store.Get
    rw [hget]
    rfl

theorem create_then_get_witness :
    ∃ s' repo' n doc,
      doc = { sampleDoc "b" [] with
        group := "example.com", version := "v1", kind := "Widget", generation := 1,
        resourceVersion := toString soloStore.revisions.length,
        uid := sampleEnv.uuids n } ∧
      soloStore.Create sampleEnv sampleRepo widgetKind (sampleDoc "b" []) =
        some (s', repo', .ok (some doc)) ∧
      s'.Get widgetKind "default" "b" = some (ClientObject.unstructured (some doc)) :=
  create_then_get sampleEnv soloStore sampleRepo widgetKind (sampleDoc "b" [])
    { data := [(sampleKey "a", widgetSolo)], add := [widgetSolo] }
    [3] soloStore_reachable rfl (by decide) (by decide) (by decide) (by decide)
    (by decide)
    (by
      intro c hc
      simp only [List.mem_cons, List.mem_singleton, List.mem_nil_iff, or_false] at hc
      rcases hc with rfl | rfl | rfl | rfl | rfl <;>
        exact ⟨by decide, by decide, by decide⟩)
    (by decide)
    (by
      intro o ho
      simp [sampleKey, widgetKind, sampleDoc, Unstructured.GetName,
        Unstructured.GetNamespace] at ho)
    rfl rfl rfl rfl rfl rfl rfl rfl rfl
    (by
      intro entry hentry _ _ _ d hd
      simp only [sampleRepo, List.mem_singleton] at hentry
      subst hentry
      have hdoc : d = sampleDoc "a" [("tier", "web")] := by
        have h1 : sampleEnv.unmarshal [1] = some (sampleDoc "a" [("tier", "web")]) := rfl
        rw [h1] at hd
        injection hd with hd
        exact hd.symm
      subst hdoc
      decide)

/-- Claim C14 as stated fails. First input: a widget created under a GVK without a
version, key free, every git command succeeding and YAML decoding inverting the
encoding; `Create` writes the file and returns no error, `add` skips a document without
a version, so `Create` returns a nil document and the following `Get` finds nothing.
Second input: an object that carries no kind and no apiVersion, created under the GVK
`example.com/v1 Widget`; the document returned has them set, so it differs from the
created object beyond uid, resourceVersion and generation. -/
theorem create_then_get_counterexample :
    soloStore.Get bareKind "default" "c" = some (ClientObject.unstructured none) ∧
    sampleEnv.marshal
        { bareWidget.SetGroupVersionKind bareKind with generation := 1 } = .ok [4] ∧
    sampleEnv.unmarshal [4] =
      some { bareWidget.SetGroupVersionKind bareKind with generation := 1 } ∧
    (soloStore.Create sampleEnv sampleRepo bareKind bareWidget).map
        (fun r => (r.2.2, r.2.1.tree, r.1.Get bareKind "default" "c")) =
      some (.ok none,
        [("/repo/cfg/Widget/default/c.yaml", [4]), ("/repo/cfg/a.yaml", [1])],
        some (ClientObject.unstructured none)) ∧
    (soloStore.Create sampleEnv sampleRepo widgetKind untypedWidget).map
        (fun r => (r.2.2, r.1.Get widgetKind "default" "b")) =
      some (.ok (some createdWidget),
        some (ClientObject.unstructured (some createdWidget))) ∧
    createdWidget ≠
      { untypedWidget with generation := 1, resourceVersion := "3", uid := "uid-2-0" } :=
  ⟨rfl, rfl, rfl, rfl, rfl, by decide⟩

end GitBacked
